import Mathlib

/-!
# ANN search engine (LSH index, MRNG builder, GNNS engine, clustering): embedding and
properties

A shallow embedding of `src/src/lsh.cpp`, `src/inc/mrng.h`, `src/inc/gnns.h` and
`src/inc/cluster.h`.

Conventions of the embedding.

* A C++ `double` distance is a finite, non-negative floating point number; every such
  number is a rational and the comparisons of the code are the comparisons of those
  rationals, so distances are values of `ℚ`.  The distance routine and the hash routine
  are declared in headers that are not part of the sources; they are the two fields of
  `Primitives`, and every definition below takes them as a parameter.
* A `std::set<Image, ImageComparator>` is the list of its elements in iteration order
  (`ImageSet`); `setInsert` is `std::set::insert`.
* A `std::vector` is a `List`; container sizes are taken to fit in `int`, as every loop
  of the code casts `size()` to `int`.
* Undefined behaviour of the C++ code (remainder by zero, indexing past the end of a
  vector) is the result `none`.
* A `uint8_t` is a natural number below 256, and an assignment to a byte reduces the
  value modulo 256; an `array<uint8_t, 784>` is a list of 784 such numbers.
-/

namespace ANN

/-- An `Image` (`MNIST_Image` in the graph headers): the identifier, the pixel vector and
the scratch field holding the distance last stored by `SetDist`. -/
structure Image where
  index : Nat
  data : List Nat
  dist : ℚ
  deriving DecidableEq, Repr

/-- The two routines that the sources call and that are declared in headers outside the
sources (`hashing.h`, `image.h`, `misc.h`, `hash.h`), taken as parameters.
`CalculateDistance order a b` is the distance routine (`EuclideanDistance` in the graph
headers), `CalculateFinalHashCode data projection k window` the composite hash code of a
pixel vector for one table; `P` is the type of the random projection of one table. -/
structure Primitives (P : Type) where
  CalculateDistance : Nat → List Nat → List Nat → ℚ
  CalculateFinalHashCode : List Nat → P → Nat → Nat → Nat

/-- Modelled from the spec: `ImageComparator` (`MNIST_ImageComparator`) is declared in a
header that is not part of the sources.  "ordered primarily by ascending `last_distance`,
secondarily by `id`". -/
def ImageComparator (a b : Image) : Bool :=
  decide (a.dist < b.dist) || (decide (a.dist = b.dist) && decide (a.index < b.index))

/-- A `std::set<Image, ImageComparator>`, as the list of its elements in iteration order. -/
abbrev ImageSet := List Image

/-- `std::set::insert`: the element goes to its place in the order; when an equivalent
element (one that is neither before nor after it) is present the set is left as it is. -/
def setInsert (x : Image) : ImageSet → ImageSet
  | [] => [x]
  | y :: ys =>
    if ImageComparator x y then x :: y :: ys
    else if ImageComparator y x then y :: setInsert x ys
    else y :: ys

/-- A candidate set is strictly ascending in the order of the comparator. -/
def Ascending (s : ImageSet) : Prop := s.Pairwise (fun a b => ImageComparator a b = true)

/-- `SetDist`: a copy of the image with the scratch distance overwritten. -/
def Image.SetDist (img : Image) (d : ℚ) : Image := { img with dist := d }

/-- The constant `WINDOW` of `lsh.cpp`. -/
def WINDOW : Nat := 400

/-- The initial value `pow(2, 32) - 5` of `min_dist`. -/
def initialMinDist : ℚ := 4294967291

/-- One hash table, `unordered_map<uint, vector<Image>>`: the keys present with their
buckets. -/
abbrev HashTable := List (Nat × List Image)

/-- The bucket read by `hash_tables[i][code]`: the bucket stored under the key, the empty
bucket when the key is absent. -/
def bucketOf (t : HashTable) (code : Nat) : List Image :=
  match t.lookup code with
  | some b => b
  | none => []

/-- `hash_tables[i][code].push_back(img)` on one table: the image is appended to the bucket
of the key, which is created when absent. -/
def tablePush : HashTable → Nat → Image → HashTable
  | [], code, img => [(code, [img])]
  | (k, b) :: rest, code, img =>
    if k = code then (k, b ++ [img]) :: rest else (k, b) :: tablePush rest code img

/-- The fields of the class `LSH` that the functions below use.  `number_of_nearest` is an
`int` that the code compares with the size of the result set; the two counts that only
bound a loop are natural numbers. -/
structure LSH (P : Type) where
  number_of_hashing_functions : Nat
  number_of_hash_tables : Nat
  number_of_nearest : Int
  radius : Int
  images : List Image
  random_projections : List P
  hash_tables : List HashTable

/-- `hash_code % ((uint) (images.size() / 16))`: the remainder is undefined when the
divisor is zero. -/
def reduceHashCode (hash_code size : Nat) : Option Nat :=
  if size / 16 = 0 then none else some (hash_code % (size / 16))

/-- The two statements computing `final_hash_code` for table `i` from a pixel vector;
`random_projections[i]` must exist. -/
def LSH.finalHashCode {P : Type} (prim : Primitives P) (lsh : LSH P) (data : List Nat)
    (i : Nat) : Option Nat :=
  match lsh.random_projections[i]? with
  | none => none
  | some projection =>
    reduceHashCode
      (prim.CalculateFinalHashCode data projection lsh.number_of_hashing_functions WINDOW)
      lsh.images.length

/-- The body of the inner loop of `HashInput`: image `img` is stored in table `i`. -/
def LSH.hashImage {P : Type} (prim : Primitives P) (lsh : LSH P) (i : Nat)
    (tables : List HashTable) (img : Image) : Option (List HashTable) :=
  match lsh.finalHashCode prim img.data i with
  | none => none
  | some final_hash_code =>
    match tables[i]? with
    | none => none
    | some t => some (tables.set i (tablePush t final_hash_code img))

/-- The inner loop of `HashInput`, over the images. -/
def LSH.hashImages {P : Type} (prim : Primitives P) (lsh : LSH P) (i : Nat) :
    List Image → List HashTable → Option (List HashTable)
  | [], tables => some tables
  | img :: rest, tables =>
    match lsh.hashImage prim i tables img with
    | none => none
    | some tables1 => LSH.hashImages prim lsh i rest tables1

/-- The outer loop of `HashInput`, over the table numbers. -/
def LSH.hashTables {P : Type} (prim : Primitives P) (lsh : LSH P) :
    List Nat → List HashTable → Option (List HashTable)
  | [], tables => some tables
  | i :: rest, tables =>
    match lsh.hashImages prim i lsh.images tables with
    | none => none
    | some tables1 => LSH.hashTables prim lsh rest tables1

/-- `LSH::HashInput`.  `projections` is the value returned by `GetRandomProjections`, a
random generator that is not part of the sources. -/
def LSH.HashInput {P : Type} (prim : Primitives P) (lsh : LSH P) (projections : List P) :
    Option (LSH P) :=
  let lsh1 : LSH P := { lsh with random_projections := projections }
  match lsh1.hashTables prim (List.range lsh1.number_of_hash_tables) lsh1.hash_tables with
  | none => none
  | some tables => some { lsh1 with hash_tables := tables }

/-- The constructor of `LSH`: `L` empty hash tables, no projections yet. -/
def LSH.new {P : Type} (images : List Image) (k L : Nat) (N R : Int) : LSH P :=
  ⟨k, L, N, R, images, [], List.replicate L []⟩

/-- `nearest_neighbors.erase(--nearest_neighbors.end())`: the last element of the set is
removed; decrementing `end()` of an empty set is undefined. -/
def eraseLast (s : ImageSet) : Option ImageSet :=
  if s.length = 0 then none else some s.dropLast

/-- The body of the scan loops of `FindAllNearestNeighbors` and
`BruteForceNearestNeighbors`: the state is the set `nearest_neighbors` and `min_dist`.
The body is undefined when it erases from an empty set, which it does when
`number_of_nearest` is `0` and an image is below `min_dist`. -/
def nearestStep {P : Type} (prim : Primitives P) (number_of_nearest : Int) (query_image : Image)
    (st : ImageSet × ℚ) (img : Image) : Option (ImageSet × ℚ) :=
  let dist := prim.CalculateDistance 2 query_image.data img.data
  if dist < st.2 then
    match (if (st.1.length : Int) = number_of_nearest then eraseLast st.1 else some st.1) with
    | none => none
    | some erased =>
      let inserted := setInsert (img.SetDist dist) erased
      some (inserted, match inserted.getLast? with
        | some last_image => last_image.dist
        | none => st.2)
  else some st

/-- The scan loop of `FindAllNearestNeighbors` over the images of a bucket and of
`BruteForceNearestNeighbors` over the images of the dataset. -/
def nearestScan {P : Type} (prim : Primitives P) (number_of_nearest : Int)
    (query_image : Image) : List Image → ImageSet × ℚ → Option (ImageSet × ℚ)
  | [], st => some st
  | img :: rest, st =>
    match nearestStep prim number_of_nearest query_image st img with
    | none => none
    | some st1 => nearestScan prim number_of_nearest query_image rest st1

/-- The bucket `hash_tables[i][final_hash_code]` that a query scans in table `i`. -/
def LSH.queryBucket {P : Type} (prim : Primitives P) (lsh : LSH P) (query_image : Image)
    (i : Nat) : Option (List Image) :=
  match lsh.finalHashCode prim query_image.data i with
  | none => none
  | some final_hash_code =>
    match lsh.hash_tables[i]? with
    | none => none
    | some t => some (bucketOf t final_hash_code)

/-- The loop over the hash tables of `FindAllNearestNeighbors`. -/
def LSH.findAllLoop {P : Type} (prim : Primitives P) (lsh : LSH P) (query_image : Image) :
    List Nat → ImageSet × ℚ → Option (ImageSet × ℚ)
  | [], st => some st
  | i :: rest, st =>
    match lsh.queryBucket prim query_image i with
    | none => none
    | some bucket_images =>
      if bucket_images.length = 0 then LSH.findAllLoop prim lsh query_image rest st
      else
        match nearestScan prim lsh.number_of_nearest query_image bucket_images st with
        | none => none
        | some st1 => LSH.findAllLoop prim lsh query_image rest st1

/-- `LSH::FindAllNearestNeighbors` (the returned set). -/
def LSH.FindAllNearestNeighbors {P : Type} (prim : Primitives P) (lsh : LSH P)
    (query_image : Image) : Option ImageSet :=
  match lsh.findAllLoop prim query_image (List.range lsh.number_of_hash_tables)
      ([], initialMinDist) with
  | none => none
  | some st => some st.1

/-- `LSH::BruteForceNearestNeighbors` (the returned set; the call also overwrites the
scratch distance of every element of `images`, which no function reads). -/
def LSH.BruteForceNearestNeighbors {P : Type} (prim : Primitives P) (lsh : LSH P)
    (query_image : Image) : Option ImageSet :=
  match nearestScan prim lsh.number_of_nearest query_image lsh.images
      ([], initialMinDist) with
  | none => none
  | some st => some st.1

/-- The body of the bucket loop of `RadiusSearch`. -/
def radiusStep {P : Type} (prim : Primitives P) (radius : Int) (query_image : Image)
    (nearest_neighbors : ImageSet) (img : Image) : ImageSet :=
  let dist := prim.CalculateDistance 2 query_image.data img.data
  if dist < (radius : ℚ) then setInsert (img.SetDist dist) nearest_neighbors
  else nearest_neighbors

/-- The loop over the hash tables of `RadiusSearch`. -/
def LSH.radiusLoop {P : Type} (prim : Primitives P) (lsh : LSH P) (query_image : Image) :
    List Nat → ImageSet → Option ImageSet
  | [], s => some s
  | i :: rest, s =>
    match lsh.queryBucket prim query_image i with
    | none => none
    | some bucket_images =>
      if bucket_images.length = 0 then LSH.radiusLoop prim lsh query_image rest s
      else LSH.radiusLoop prim lsh query_image rest
        (bucket_images.foldl (radiusStep prim lsh.radius query_image) s)

/-- `LSH::RadiusSearch`. -/
def LSH.RadiusSearch {P : Type} (prim : Primitives P) (lsh : LSH P) (query_image : Image) :
    Option ImageSet :=
  lsh.radiusLoop prim query_image (List.range lsh.number_of_hash_tables) []

/-- The access `hash_tables[i][code]`, which is `unordered_map::operator[]`: the bucket under
the key, and the table after the access, in which a key that was absent has been inserted
with an empty bucket. -/
def tableAccess (t : HashTable) (code : Nat) : List Image × HashTable :=
  match t.lookup code with
  | some b => (b, t)
  | none => ([], t ++ [(code, [])])

/-- The loop over the hash tables of `FindAllNearestNeighbors` and of `RadiusSearch`, with
the hash tables as part of the state.  The two functions have the same loop; `scan` is the
loop over the bucket (`nearestScan`, respectively `foldl radiusStep`) and `st` its state.
The first access is the one of the test `.size() == 0`, the second the one of the copy
`bucket_images = hash_tables[i][final_hash_code]`. -/
def LSH.tablesLoop {P σ : Type} (prim : Primitives P) (lsh : LSH P) (query_image : Image)
    (scan : List Image → σ → Option σ) :
    List Nat → σ × List HashTable → Option (σ × List HashTable)
  | [], s => some s
  | i :: rest, (st, tables) =>
    match lsh.finalHashCode prim query_image.data i with
    | none => none
    | some final_hash_code =>
      match tables[i]? with
      | none => none
      | some t =>
        if (tableAccess t final_hash_code).1.length = 0 then
          LSH.tablesLoop prim lsh query_image scan rest
            (st, tables.set i (tableAccess t final_hash_code).2)
        else
          match scan (tableAccess (tableAccess t final_hash_code).2 final_hash_code).1 st with
          | none => none
          | some st1 =>
            LSH.tablesLoop prim lsh query_image scan rest
              (st1,
                tables.set i (tableAccess (tableAccess t final_hash_code).2 final_hash_code).2)

/-- `LSH::FindAllNearestNeighbors` with its effect on the member `hash_tables`: the returned
set and the hash tables after the call. -/
def LSH.FindAllNearestNeighborsTables {P : Type} (prim : Primitives P) (lsh : LSH P)
    (query_image : Image) : Option (ImageSet × List HashTable) :=
  match lsh.tablesLoop prim query_image (nearestScan prim lsh.number_of_nearest query_image)
      (List.range lsh.number_of_hash_tables) (([], initialMinDist), lsh.hash_tables) with
  | none => none
  | some r => some (r.1.1, r.2)

/-- `LSH::RadiusSearch` with its effect on the member `hash_tables`: the returned set and
the hash tables after the call. -/
def LSH.RadiusSearchTables {P : Type} (prim : Primitives P) (lsh : LSH P)
    (query_image : Image) : Option (ImageSet × List HashTable) :=
  lsh.tablesLoop prim query_image
    (fun bucket_images s =>
      some (bucket_images.foldl (radiusStep prim lsh.radius query_image) s))
    (List.range lsh.number_of_hash_tables) ([], lsh.hash_tables)

/-- The keys of a hash table. -/
def tableKeys (t : HashTable) : List Nat := t.map Prod.fst

/-- Modelled from the spec: the insertion policy of the bounded Candidate Set of capacity
`N`, "evaluate distance, insert; if size exceeds N, drop the element with the largest
(distance, id) key". -/
def insertCapped (N : Int) (x : Image) (s : ImageSet) : ImageSet :=
  let inserted := setInsert x s
  if N < (inserted.length : Int) then inserted.dropLast else inserted

/-- Modelled from the spec: the loop of `approximateTopN(query, N)` over the tables, "for
each table, compute the query's composite hash, fetch its bucket, evaluate exact distance
to every bucket member, and feed into the bounded Candidate Set"; a bucket that does not
exist contributes nothing. -/
def LSH.topNLoop {P : Type} (prim : Primitives P) (lsh : LSH P) (N : Int)
    (query_image : Image) : List Nat → ImageSet → Option ImageSet
  | [], s => some s
  | i :: rest, s =>
    match lsh.queryBucket prim query_image i with
    | none => none
    | some bucket_images =>
      LSH.topNLoop prim lsh N query_image rest
        (bucket_images.foldl (fun s1 img => insertCapped N
          (img.SetDist (prim.CalculateDistance 2 query_image.data img.data)) s1) s)

/-- Modelled from the spec: the graph headers query the index through
`lsh.FindNearestNeighbors(n, image)`, a member of a version of the class `LSH` that is not
part of the sources (`lsh.cpp` defines `FindAllNearestNeighbors(Image)`).  It is the
`approximateTopN(query, N)` of the specification, with the bounded Candidate Set of
capacity `n`; the bucket of the query in a table is the one `lsh.cpp` reads. -/
def LSH.FindNearestNeighbors {P : Type} (prim : Primitives P) (lsh : LSH P) (n : Int)
    (query_image : Image) : Option ImageSet :=
  lsh.topNLoop prim n query_image (List.range lsh.number_of_hash_tables) []

/-- `graph[node].push_back(id)` for each id of a list, in order; `graph[node]` must exist. -/
def pushEdges (node : Nat) : List Nat → List (List Nat) → Option (List (List Nat))
  | [], graph => some graph
  | id :: rest, graph =>
    match graph[node]? with
    | none => none
    | some adjacency => pushEdges node rest (graph.set node (adjacency ++ [id]))

/-! ### GNNS (`gnns.h`) -/

/-- The constant `GREEDY_STEPS` of `gnns.h`. -/
def GREEDY_STEPS : Nat := 20

/-- The fields of the class `GNNS`.  `no_expansions` is an `int` compared for equality
with the expansion counter; `no_restarts` only bounds a loop. -/
structure GNNS where
  no_lsh_neighbors : Int
  no_expansions : Int
  no_restarts : Nat
  input : List Image
  graph : List (List Nat)

/-- The constructor of `GNNS`: one empty adjacency list per image. -/
def GNNS.new (input : List Image) (no_lsh_neighbors no_expansions : Int) (no_restarts : Nat) :
    GNNS :=
  ⟨no_lsh_neighbors, no_expansions, no_restarts, input, List.replicate input.length []⟩

/-- The loop of `GNNS::Initialization` over the images.  `lsh` is the index that the
function constructs with `LSH(input, 10, 15)`. -/
def GNNS.initLoop {P : Type} (prim : Primitives P) (lsh : LSH P) (no_lsh_neighbors : Int) :
    List Image → List (List Nat) → Option (List (List Nat))
  | [], graph => some graph
  | query_image :: rest, graph =>
    match lsh.FindNearestNeighbors prim no_lsh_neighbors query_image with
    | none => none
    | some lsh_nn =>
      match pushEdges query_image.index (lsh_nn.map Image.index) graph with
      | none => none
      | some graph1 => GNNS.initLoop prim lsh no_lsh_neighbors rest graph1

/-- `GNNS::Initialization`. -/
def GNNS.Initialization {P : Type} (prim : Primitives P) (lsh : LSH P) (g : GNNS) :
    Option GNNS :=
  match GNNS.initLoop prim lsh g.no_lsh_neighbors g.input g.graph with
  | none => none
  | some graph => some { g with graph := graph }

/-- The bounds given to `uniform_int_distribution<int> random_image_index(0,
input.GetImagesCount())`. -/
def GNNS.random_image_index (g : GNNS) : Nat × Nat := (0, g.input.length)

/-- A `uniform_int_distribution<int>(a, b)` produces the integers of the closed interval
`[a, b]`. -/
def mayProduce (bounds : Nat × Nat) (value : Nat) : Prop :=
  bounds.1 ≤ value ∧ value ≤ bounds.2

instance (bounds : Nat × Nat) (value : Nat) : Decidable (mayProduce bounds value) := by
  unfold mayProduce; infer_instance

/-- The variables of one restart of `GNNS::FindNearestNeighbors`: the current node, the
distance `min_dist` and the accumulator `possible_nearest_neighbors`. -/
structure GNNS.Walk where
  index : Nat
  min_dist : ℚ
  possible_nearest_neighbors : ImageSet
  deriving DecidableEq, Repr

/-- The expansion loop over `graph[index]`; `exp` counts the expansions made, the state is
the accumulator, `min_dist` and `curr_nn` (`none` for `-1`). -/
def GNNS.expand {P : Type} (prim : Primitives P) (g : GNNS) (query_image : Image) :
    List Nat → Nat → ImageSet × ℚ × Option Nat → Option (ImageSet × ℚ × Option Nat)
  | [], _, st => some st
  | neighbor_index :: rest, exp, (acc, min_dist, curr_nn) =>
    match g.input[neighbor_index]? with
    | none => none
    | some neighbor_image =>
      let dist := prim.CalculateDistance 2 query_image.data neighbor_image.data
      let acc1 := setInsert (neighbor_image.SetDist dist) acc
      let st1 : ImageSet × ℚ × Option Nat :=
        if dist < min_dist then (acc1, dist, some neighbor_index) else (acc1, min_dist, curr_nn)
      if g.no_expansions = ((exp + 1 : Nat) : Int) then some st1
      else GNNS.expand prim g query_image rest (exp + 1) st1

/-- One greedy step (the body of the loop over `t`).  The result is the state after the
step and whether the walk moved; `false` is the `break` at a local minimum. -/
def GNNS.greedyStep {P : Type} (prim : Primitives P) (g : GNNS) (query_image : Image)
    (w : GNNS.Walk) : Option (GNNS.Walk × Bool) :=
  match g.graph[w.index]? with
  | none => none
  | some adjacency =>
    match GNNS.expand prim g query_image adjacency 0
        (w.possible_nearest_neighbors, w.min_dist, none) with
    | none => none
    | some (acc, min_dist, none) => some (⟨w.index, min_dist, acc⟩, false)
    | some (acc, min_dist, some curr_nn) => some (⟨curr_nn, min_dist, acc⟩, true)

/-- The loop over `t`, run for at most `steps` greedy steps. -/
def GNNS.greedyLoop {P : Type} (prim : Primitives P) (g : GNNS) (query_image : Image) :
    Nat → GNNS.Walk → Option GNNS.Walk
  | 0, w => some w
  | steps + 1, w =>
    match GNNS.greedyStep prim g query_image w with
    | none => none
    | some (w1, false) => some w1
    | some (w1, true) => GNNS.greedyLoop prim g query_image steps w1

/-- The start of a restart: the node drawn is read, its distance stored in `min_dist` and
the node inserted into the accumulator. -/
def GNNS.startWalk {P : Type} (prim : Primitives P) (g : GNNS) (query_image : Image)
    (index : Nat) (acc : ImageSet) : Option GNNS.Walk :=
  match g.input[index]? with
  | none => none
  | some node_image =>
    let min_dist := prim.CalculateDistance 2 query_image.data node_image.data
    some ⟨index, min_dist, setInsert (node_image.SetDist min_dist) acc⟩

/-- One restart, from the node `index`. -/
def GNNS.restart {P : Type} (prim : Primitives P) (g : GNNS) (query_image : Image)
    (index : Nat) (acc : ImageSet) : Option ImageSet :=
  match GNNS.startWalk prim g query_image index acc with
  | none => none
  | some w =>
    match GNNS.greedyLoop prim g query_image GREEDY_STEPS w with
    | none => none
    | some w1 => some w1.possible_nearest_neighbors

/-- The loop over the restarts; `gen i` is the index drawn by `random_image_index(gen)` in
restart `i`. -/
def GNNS.restarts {P : Type} (prim : Primitives P) (g : GNNS) (query_image : Image)
    (gen : Nat → Nat) : List Nat → ImageSet → Option ImageSet
  | [], acc => some acc
  | i :: rest, acc =>
    match GNNS.restart prim g query_image (gen i) acc with
    | none => none
    | some acc1 => GNNS.restarts prim g query_image gen rest acc1

/-- The accumulator `possible_nearest_neighbors` after all restarts. -/
def GNNS.accumulate {P : Type} (prim : Primitives P) (g : GNNS) (query_image : Image)
    (gen : Nat → Nat) : Option ImageSet :=
  GNNS.restarts prim g query_image gen (List.range g.no_restarts) []

/-- The final loop of `GNNS::FindNearestNeighbors`, copying the first entries of the
accumulator into `nearest_neighbors`; `nn_num` counts the copies made. -/
def GNNS.firstResults (no_nearest_neighbours : Int) : List Image → Nat → ImageSet → ImageSet
  | [], _, nearest_neighbors => nearest_neighbors
  | nn :: rest, nn_num, nearest_neighbors =>
    if (nn_num : Int) = no_nearest_neighbours then nearest_neighbors
    else GNNS.firstResults no_nearest_neighbours rest (nn_num + 1) (setInsert nn nearest_neighbors)

/-- `GNNS::FindNearestNeighbors`. -/
def GNNS.FindNearestNeighbors {P : Type} (prim : Primitives P) (g : GNNS)
    (no_nearest_neighbours : Int) (query_image : Image) (gen : Nat → Nat) : Option ImageSet :=
  match GNNS.accumulate prim g query_image gen with
  | none => none
  | some possible_nearest_neighbors =>
    some (GNNS.firstResults no_nearest_neighbours possible_nearest_neighbors 0 [])

/-! ### MRNG (`mrng.h`) -/

/-- The fields of the class `MRNG`. -/
structure MRNG (P : Type) where
  no_candinates : Int
  images : List Image
  lsh : LSH P
  graph : List (List Nat)

/-- The leading elements of the second range that `std::set_difference` passes over while
the current element `a` of the first range is after them. -/
def skipBefore (a : Image) : List Image → List Image
  | [] => []
  | b :: bs =>
    if !ImageComparator a b && ImageComparator b a then skipBefore a bs else b :: bs

/-- `std::set_difference(first1, last1, first2, last2, out, MNIST_ImageComparator())`: the
two ranges are walked together; an element of the first range is copied when it is before
the current element of the second range or the second range is exhausted, and dropped, with
the current element of the second range, when the two are equivalent. -/
def set_difference : List Image → List Image → List Image
  | [], _ => []
  | a :: rest, second =>
    match skipBefore a second with
    | [] => a :: rest
    | b :: bs =>
      if ImageComparator a b then a :: set_difference rest (b :: bs)
      else set_difference rest bs

/-- The set `Rp_minus_Lp`: the output of `set_difference` inserted into a set. -/
def MRNG.Rp_minus_Lp (images : List Image) (Lp : ImageSet) : ImageSet :=
  (set_difference images Lp).foldl (fun s x => setInsert x s) []

/-- The test `pr > pt && pr > tr` of the inner loop. -/
def MRNG.dominates {P : Type} (prim : Primitives P) (p r t : Image) : Bool :=
  let pr := prim.CalculateDistance 2 p.data r.data
  let pt := prim.CalculateDistance 2 p.data t.data
  let tr := prim.CalculateDistance 2 r.data t.data
  decide (pr > pt) && decide (pr > tr)

/-- The inner loop `for (auto t : Lp)`: the value of `condition` after it. -/
def MRNG.innerLoop {P : Type} (prim : Primitives P) (p r : Image) : List Image → Bool → Bool
  | [], condition => condition
  | t :: rest, condition =>
    if MRNG.dominates prim p r t then false else MRNG.innerLoop prim p r rest condition

/-- The body of the loop `for (auto r : Rp_minus_Lp)`: the state is `condition` and `Lp`.
`Lp.insert(pos, r)` with the hint `pos = Lp.lower_bound(r)` is `std::set::insert`. -/
def MRNG.admissionStep {P : Type} (prim : Primitives P) (p : Image) (st : Bool × ImageSet)
    (r : Image) : Bool × ImageSet :=
  let condition := MRNG.innerLoop prim p r st.2 st.1
  if condition then (condition, setInsert r st.2) else (condition, st.2)

/-- The part `// MRNG Algorithm` of `Initialization` and `FindNearestNeighbor`: `condition`
is set to `true` once, before the loop over `Rp_minus_Lp`. -/
def MRNG.admission {P : Type} (prim : Primitives P) (p : Image) (Rp_minus_Lp Lp : ImageSet) :
    Bool × ImageSet :=
  Rp_minus_Lp.foldl (MRNG.admissionStep prim p) (true, Lp)

/-- The set `Lp` after the admission loop, for the point `p`: the LSH candidates, the set
difference and the loop, as both `Initialization` and `FindNearestNeighbor` compute it. -/
def MRNG.expandedLp {P : Type} (prim : Primitives P) (m : MRNG P) (p : Image) :
    Option ImageSet :=
  match m.lsh.FindNearestNeighbors prim m.no_candinates p with
  | none => none
  | some Lp => some (MRNG.admission prim p (MRNG.Rp_minus_Lp m.images Lp) Lp).2

/-- `MRNG::FindNearestNeighbor`: `*(Lp.begin())`, undefined when `Lp` is empty. -/
def MRNG.FindNearestNeighbor {P : Type} (prim : Primitives P) (m : MRNG P) (p : Image) :
    Option Image :=
  match m.expandedLp prim p with
  | none => none
  | some Lp => Lp.head?

/-- The body of the loop of `MRNG::Initialization` for the image `p`, up to
`auto nn = *(Lp.begin())`, translated on its own: the copy `Rp` of the images without `p`
(which no later statement reads), the LSH candidates `Lp`, the set difference of `images`
and `Lp`, the admission loop and the first element of `Lp`. -/
def MRNG.initializationNearest {P : Type} (prim : Primitives P) (m : MRNG P) (p : Image) :
    Option Image :=
  let _Rp : ImageSet :=
    (m.images.filter (fun x => decide (x ≠ p))).foldl (fun s x => setInsert x s) []
  match m.lsh.FindNearestNeighbors prim m.no_candinates p with
  | none => none
  | some Lp =>
    let Rp_minus_Lp : ImageSet :=
      (set_difference m.images Lp).foldl (fun s x => setInsert x s) []
    (Rp_minus_Lp.foldl (MRNG.admissionStep prim p) (true, Lp)).2.head?

/-- The loop of `MRNG::Initialization` over the images: the id of the nearest element found
by the loop body is pushed onto `graph[p.GetIndex()]`. -/
def MRNG.initLoop {P : Type} (prim : Primitives P) (m : MRNG P) :
    List Image → List (List Nat) → Option (List (List Nat))
  | [], graph => some graph
  | p :: rest, graph =>
    match m.initializationNearest prim p with
    | none => none
    | some nn =>
      match pushEdges p.index [nn.index] graph with
      | none => none
      | some graph1 => MRNG.initLoop prim m rest graph1

/-- `MRNG::Initialization`. -/
def MRNG.Initialization {P : Type} (prim : Primitives P) (m : MRNG P) : Option (MRNG P) :=
  match MRNG.initLoop prim m m.images m.graph with
  | none => none
  | some graph => some { m with graph := graph }

/-- The constructor of `MRNG`, before it calls `Initialization`; `lsh` is the index built
by `LSH(_input, 10, 15)`. -/
def MRNG.new {P : Type} (input : List Image) (lsh : LSH P) (no_candinates : Int) : MRNG P :=
  ⟨no_candinates, input, lsh, List.replicate input.length []⟩

/-! ### Cluster (`cluster.h`) -/

/-- The loop of `Cluster::euclideanDistance`: the sum of `std::pow(a[i] - b[i], 2)` over the
784 components.  The components are bytes promoted to `int`, so each term and each partial
sum is an integer, below `2^53` (`sumOfSquares_bounds`), and the `double` sum is exact. -/
def Cluster.sumOfSquares (a b : List Nat) : Int :=
  (List.range 784).foldl
    (fun sum i => sum + ((a.getD i 0 : Int) - (b.getD i 0 : Int)) ^ 2) 0

/-- `Cluster::euclideanDistance`: `sqrt(sum)`; `sqrt` is `std::sqrt` as a function of the
integer value of the sum. -/
def Cluster.euclideanDistance (sqrt : Int → ℚ) (a b : List Nat) : ℚ :=
  sqrt (Cluster.sumOfSquares a b)

/-- The common shape of the loops of `GNNS::Initialization` and `MRNG::Initialization`: for
each image in turn the ids `candidates image` are pushed onto `graph[image.index]`. -/
def edgesLoop (candidates : Image → Option (List Nat)) :
    List Image → List (List Nat) → Option (List (List Nat))
  | [], graph => some graph
  | p :: rest, graph =>
    match candidates p with
    | none => none
    | some ids =>
      match pushEdges p.index ids graph with
      | none => none
      | some graph1 => edgesLoop candidates rest graph1

/-! ### Example data -/

/-- The pixel vector of the one-dimensional examples: the position followed by 783 zero
pixels. -/
def pixels1D (x : Nat) : List Nat := x :: List.replicate 783 0

/-- The distance of the one-dimensional examples: on vectors that differ in their first
component only, the order-2 distance is the absolute difference of the first components. -/
def distance1D (a b : List Nat) : ℚ :=
  ((Int.natAbs ((a.headD 0 : Int) - (b.headD 0 : Int)) : Nat) : ℚ)

/-- The primitives of the one-dimensional examples; every vector has hash code `0`. -/
def prim1D : Primitives Unit where
  CalculateDistance := fun _ a b => distance1D a b
  CalculateFinalHashCode := fun _ _ _ _ => 0

/-- The example dataset of the specification: positions `[0, 1, 2, 10, 11]`, ids `0..4`. -/
def exampleImages : List Image :=
  [⟨0, pixels1D 0, 0⟩, ⟨1, pixels1D 1, 0⟩, ⟨2, pixels1D 2, 0⟩, ⟨3, pixels1D 10, 0⟩,
   ⟨4, pixels1D 11, 0⟩]

/-- A dataset of sixteen points: the five example positions followed by eleven more. -/
def sixteenImages : List Image :=
  exampleImages ++ (List.range 11).map (fun j => ⟨5 + j, pixels1D (20 + 10 * j), 0⟩)

/-- The index over `sixteenImages` with one table and one hash function: with sixteen
images the bucket count is `16 / 16 = 1`, so the single bucket `0` holds every image. -/
def builtIndex : LSH Unit :=
  ⟨1, 1, 2, 1, sixteenImages, [()], [[(0, sixteenImages)]]⟩

/-- A query image at position `x` of the one-dimensional examples. -/
def queryAt (x : Nat) : Image := ⟨0, pixels1D x, 0⟩

/-- The index `builtIndex` with radius `2`. -/
def radiusIndex : LSH Unit := { builtIndex with radius := 2 }

/-- The example dataset of the specification with every position doubled, `[0, 2, 4, 20,
22]`, so that the query `1.5` of the radius example is the byte `3` and the radius `1` is
`2`. -/
def doubledImages : List Image :=
  [⟨0, pixels1D 0, 0⟩, ⟨1, pixels1D 2, 0⟩, ⟨2, pixels1D 4, 0⟩, ⟨3, pixels1D 20, 0⟩,
   ⟨4, pixels1D 22, 0⟩]

/-- An index over `doubledImages` with one table, radius `2`, and the five images stored by
hand in the bucket `0` (`HashInput` is undefined on five images). -/
def doubledIndex : LSH Unit := ⟨1, 1, 2, 2, doubledImages, [()], [[(0, doubledImages)]]⟩

/-- An index over `exampleImages` with one table, radius `1`, and the five images stored by
hand in the bucket `0`. -/
def exampleIndex : LSH Unit := ⟨1, 1, 2, 1, exampleImages, [()], [[(0, exampleImages)]]⟩

/-- The MRNG instance over the sixteen-point dataset with one LSH candidate. -/
def exampleMRNG : MRNG Unit := MRNG.new sixteenImages builtIndex 1

/-- The LSH candidate of the query at position `95`: the point id 12 at position `90`,
with its distance `5` stored. -/
def candidate95 : Image := ⟨12, pixels1D 90, 5⟩

/-- The GNNS instance over the sixteen-point dataset with three LSH neighbours per node, two
expansions per step and one restart, with the graph that `Initialization` builds from
`builtIndex`. -/
def exampleGNNS : GNNS :=
  ⟨3, 2, 1, sixteenImages,
    [[0, 1, 2], [1, 0, 2], [2, 1, 0], [3, 4, 2], [4, 3, 2], [5, 4, 3], [6, 5, 7], [7, 6, 8],
     [8, 7, 9],
     [9, 8, 10], [10, 9, 11], [11, 10, 12], [12, 11, 13], [13, 12, 14], [14, 13, 15],
     [15, 14, 13]]⟩

/-- The distance stored in the first element of a candidate set, `pow(2, 32) - 5` for the
empty set. -/
def headDist (s : ImageSet) : ℚ :=
  match s.head? with
  | some first => first.dist
  | none => initialMinDist

/-- The distance stored in the last element of a candidate set, `pow(2, 32) - 5` for the
empty set: the value of `min_dist` during a scan. -/
def lastDist (s : ImageSet) : ℚ :=
  match s.getLast? with
  | some last => last.dist
  | none => initialMinDist

/-- The state after the body of the scan loops for a state from which the body is defined:
`nearestStep` returns this state or is undefined. -/
def nearestStepValue {P : Type} (prim : Primitives P) (number_of_nearest : Int)
    (query_image : Image) (st : ImageSet × ℚ) (img : Image) : ImageSet × ℚ :=
  let dist := prim.CalculateDistance 2 query_image.data img.data
  if dist < st.2 then
    let erased := if (st.1.length : Int) = number_of_nearest then st.1.dropLast else st.1
    let inserted := setInsert (img.SetDist dist) erased
    (inserted, match inserted.getLast? with
      | some last_image => last_image.dist
      | none => st.2)
  else st

/-- Every image stored in a bucket of the index is an image of the dataset `images` (the
scratch distance apart). -/
def bucketsFromDataset (tables : List HashTable) (images : List Image) : Prop :=
  ∀ t ∈ tables, ∀ kv ∈ t, ∀ b ∈ kv.2, ∃ img ∈ images, img.index = b.index ∧ img.data = b.data

instance (tables : List HashTable) (images : List Image) :
    Decidable (bucketsFromDataset tables images) := by
  unfold bucketsFromDataset; infer_instance

/-- The bucket number of an image in the table with projection `projection`: its composite
hash code reduced modulo `images.size() / 16`. -/
def LSH.bucketNumber {P : Type} (prim : Primitives P) (lsh : LSH P) (projection : P)
    (img : Image) : Nat :=
  prim.CalculateFinalHashCode img.data projection lsh.number_of_hashing_functions WINDOW
    % (lsh.images.length / 16)

/-- A table after the images of a list have been pushed, each into the bucket `code img`. -/
def pushAll (code : Image → Nat) (imgs : List Image) (t : HashTable) : HashTable :=
  imgs.foldl (fun t1 img => tablePush t1 (code img) img) t

/-- The primitives of the parity example: the distance of the one-dimensional examples, and
the first pixel as the composite hash code. -/
def primParity : Primitives Unit where
  CalculateDistance := fun _ a b => distance1D a b
  CalculateFinalHashCode := fun data _ _ _ => data.headD 0

/-- A dataset of 32 points at the even positions `0, 2, ..., 62`, ids `0..31`. -/
def evenImages : List Image := (List.range 32).map (fun j => ⟨j, pixels1D (2 * j), 0⟩)

/-- The index over `evenImages` with one table: the bucket count is `32 / 16 = 2` and every
image has the even hash code of its position, so bucket `0` holds every image and there is
no bucket `1`. -/
def evenIndex : LSH Unit := ⟨1, 1, 2, 1, evenImages, [()], [[(0, evenImages)]]⟩

/-- The instance `exampleMRNG` with the graph that `Initialization` builds: every node has
the edge to node `0`. -/
def exampleMRNGBuilt : MRNG Unit := { exampleMRNG with graph := List.replicate 16 [0] }

/-- The MRNG instance over the sixteen-point dataset with three LSH candidates. -/
def exampleMRNG3 : MRNG Unit := MRNG.new sixteenImages builtIndex 3

/-- The dataset point id 5, at position `20`. -/
def point5 : Image := ⟨5, pixels1D 20, 0⟩

/-- The integer square root, as the `sqrt` of the examples. -/
def exampleSqrt (n : Int) : ℚ := (Nat.sqrt n.toNat : ℚ)

/-- The MRNG instance over the 32 even positions with one LSH candidate. -/
def evenMRNG : MRNG Unit := MRNG.new evenImages evenIndex 1

/-- The neighbours that the expansion loop reads before it ends: the loop reads the next
neighbour of the adjacency list, then increments `exp` and breaks when
`no_expansions == exp`; `exp` is the value of the counter before the neighbour is read. -/
def GNNS.examined (no_expansions : Int) : List Nat → Nat → List Nat
  | [], _ => []
  | neighbor_index :: rest, exp =>
    if no_expansions = ((exp + 1 : Nat) : Int) then [neighbor_index]
    else neighbor_index :: GNNS.examined no_expansions rest (exp + 1)

/-- The distance from the query to the node `k`, as the walk computes it from `images[k]`
(`0` stands for the read out of bounds). -/
def GNNS.nodeDist {P : Type} (prim : Primitives P) (g : GNNS) (query_image : Image)
    (k : Nat) : ℚ :=
  match g.input[k]? with
  | some img => prim.CalculateDistance 2 query_image.data img.data
  | none => 0

/-- The body of the expansion loop before the counter `exp` is incremented, for one
neighbour: the insertion into the accumulator and the update of `min_dist` and `curr_nn`. -/
def GNNS.examine {P : Type} (prim : Primitives P) (g : GNNS) (query_image : Image)
    (st : ImageSet × ℚ × Option Nat) (neighbor_index : Nat) : ImageSet × ℚ × Option Nat :=
  match g.input[neighbor_index]? with
  | none => st
  | some neighbor_image =>
    let dist := prim.CalculateDistance 2 query_image.data neighbor_image.data
    let acc1 := setInsert (neighbor_image.SetDist dist) st.1
    if dist < st.2.1 then (acc1, dist, some neighbor_index) else (acc1, st.2.1, st.2.2)

/-- The instance `exampleGNNS` configured with `no_expansions = 0`. -/
def exampleGNNS0 : GNNS := { exampleGNNS with no_expansions := 0 }

/-- The value of `std::numeric_limits<double>::max()`, `(2^53 - 1) * 2^971`. -/
def doubleMax : ℚ := (2 ^ 53 - 1) * 2 ^ 971

/-- The fields of the class `Cluster` that the assignment and the update read and write.
A centre is an `array<uint8_t, 784>`, a list of 784 numbers below 256. -/
structure Cluster where
  no_clusters : Int
  image_dataset : List Image
  cluster_centers : List (List Nat)
  assignments : List Int
  deriving DecidableEq, Repr

/-- The inner loop of `assignToNearestClusterLloyd` over the cluster numbers `j`, for the
pixel vector `point`; the state is `minDistance` and `nearestCluster`, and `sqrt` is
`std::sqrt`. -/
def Cluster.nearestLoop (sqrt : Int → ℚ) (c : Cluster) (point : List Nat) :
    List Nat → ℚ × Int → Option (ℚ × Int)
  | [], st => some st
  | j :: rest, (minDistance, nearestCluster) =>
    match c.cluster_centers[j]? with
    | none => none
    | some center =>
      let distance := Cluster.euclideanDistance sqrt point center
      if distance < minDistance then Cluster.nearestLoop sqrt c point rest (distance, (j : Int))
      else Cluster.nearestLoop sqrt c point rest (minDistance, nearestCluster)

/-- The outer loop of `assignToNearestClusterLloyd` over the point numbers `i`; the state is
the vector `assignments`. -/
def Cluster.assignLoop (sqrt : Int → ℚ) (c : Cluster) : List Nat → List Int → Option (List Int)
  | [], assignments => some assignments
  | i :: rest, assignments =>
    match c.image_dataset[i]? with
    | none => none
    | some img =>
      match Cluster.nearestLoop sqrt c img.data (List.range c.no_clusters.toNat)
          (doubleMax, -1) with
      | none => none
      | some (_, nearestCluster) =>
        if i < assignments.length then
          Cluster.assignLoop sqrt c rest (assignments.set i nearestCluster)
        else none

/-- `Cluster::assignToNearestClusterLloyd`. -/
def Cluster.assignToNearestClusterLloyd (sqrt : Int → ℚ) (c : Cluster) : Option Cluster :=
  match Cluster.assignLoop sqrt c (List.range c.image_dataset.length) c.assignments with
  | none => none
  | some assignments => some { c with assignments := assignments }

/-- The distance from the vector `point` to the centre `j`, as the inner loop computes it
from `cluster_centers[j]` (`0` stands for the read out of bounds). -/
def Cluster.centerDist (sqrt : Int → ℚ) (c : Cluster) (point : List Nat) (j : Nat) : ℚ :=
  match c.cluster_centers[j]? with
  | some center => Cluster.euclideanDistance sqrt point center
  | none => 0

/-- The loop `updatedCenters[cluster][j] += data[j]` over the components `j`: both vectors
are arrays of 784 bytes, and the sum of two bytes is stored into a byte. -/
def Cluster.addPoint (center data : List Nat) : List Nat :=
  List.zipWith (fun u d => (u + d) % 256) center data

/-- The first loop of `updateClusterCentersMacQueen` over the point numbers `i`; the state
is the local vectors `updatedCenters` and `clusterSizes`. -/
def Cluster.sumLoop (c : Cluster) :
    List Nat → List (List Nat) × List Int → Option (List (List Nat) × List Int)
  | [], st => some st
  | i :: rest, (updatedCenters, clusterSizes) =>
    match c.assignments[i]?, c.image_dataset[i]? with
    | some cluster, some img =>
      if 0 ≤ cluster then
        match updatedCenters[cluster.toNat]?, clusterSizes[cluster.toNat]? with
        | some center, some size =>
          Cluster.sumLoop c rest (updatedCenters.set cluster.toNat
            (Cluster.addPoint center img.data), clusterSizes.set cluster.toNat (size + 1))
        | _, _ => none
      else none
    | _, _ => none

/-- The second loop of `updateClusterCentersMacQueen` over the cluster numbers `i`: the
statement `updatedCenters[i][j] /= clusterSizes[i]` for the clusters that are not empty. -/
def Cluster.normalizeLoop :
    List Nat → List (List Nat) → List Int → Option (List (List Nat))
  | [], updatedCenters, _ => some updatedCenters
  | i :: rest, updatedCenters, clusterSizes =>
    match updatedCenters[i]?, clusterSizes[i]? with
    | some center, some size =>
      if size > 0 then
        Cluster.normalizeLoop rest
          (updatedCenters.set i (center.map (fun x => (x / size.toNat) % 256))) clusterSizes
      else Cluster.normalizeLoop rest updatedCenters clusterSizes
    | _, _ => none

/-- The value of the local vector `updatedCenters` at the end of
`updateClusterCentersMacQueen`. -/
def Cluster.updatedCenters (c : Cluster) : Option (List (List Nat)) :=
  if c.no_clusters < 0 then none
  else
    match Cluster.sumLoop c (List.range c.image_dataset.length)
        (List.replicate c.no_clusters.toNat (List.replicate 784 0),
          List.replicate c.no_clusters.toNat 0) with
    | none => none
    | some (updatedCenters, clusterSizes) =>
      Cluster.normalizeLoop (List.range c.no_clusters.toNat) updatedCenters clusterSizes

/-- `Cluster::updateClusterCentersMacQueen`: the function computes the local vector
`updatedCenters` and returns; no statement of it writes a field of the object. -/
def Cluster.updateClusterCentersMacQueen (c : Cluster) : Option Cluster :=
  match c.updatedCenters with
  | none => none
  | some _ => some c

/-- The points assigned to `cluster`, in dataset order. -/
def Cluster.members (c : Cluster) (cluster : Int) : List Image :=
  ((c.image_dataset.zip c.assignments).filter (fun pa => decide (pa.2 = cluster))).map Prod.fst

/-- The component-wise sum of the pixel vectors (arrays of 784 bytes) of a list of points,
in the integers. -/
def Cluster.vectorSum (points : List Image) : List Nat :=
  points.foldl (fun sum p => List.zipWith (fun u d => u + d) sum p.data) (List.replicate 784 0)

/-- One cluster with the points at positions `0` and `4`; the centre is the first point. -/
def exampleCluster : Cluster :=
  ⟨1, [⟨0, pixels1D 0, 0⟩, ⟨1, pixels1D 4, 0⟩], [pixels1D 0], [0, 0]⟩

/-- One cluster with the points at positions `200` and `100`. -/
def exampleClusterWrap : Cluster :=
  ⟨1, [⟨0, pixels1D 200, 0⟩, ⟨1, pixels1D 100, 0⟩], [pixels1D 200], [0, 0]⟩

/-- Two clusters with the centres at positions `0` and `10`, and the points at positions
`0`, `4`, `10` and `5`, not assigned yet. -/
def exampleCluster2 : Cluster :=
  ⟨2, [⟨0, pixels1D 0, 0⟩, ⟨1, pixels1D 4, 0⟩, ⟨2, pixels1D 10, 0⟩, ⟨3, pixels1D 5, 0⟩],
    [pixels1D 0, pixels1D 10], [0, 0, 0, 0]⟩

/-! ### The order of the candidate sets -/

theorem imageComparator_iff (a b : Image) :
    ImageComparator a b = true ↔ a.dist < b.dist ∨ (a.dist = b.dist ∧ a.index < b.index) := by
  simp [ImageComparator]

theorem imageComparator_irrefl (a : Image) : ImageComparator a a = false := by
  simp [ImageComparator]

theorem imageComparator_trans {a b c : Image} (hab : ImageComparator a b = true)
    (hbc : ImageComparator b c = true) : ImageComparator a c = true := by
  rw [imageComparator_iff] at *
  rcases hab with h1 | ⟨h1, h2⟩ <;> rcases hbc with h3 | ⟨h3, h4⟩
  · exact Or.inl (lt_trans h1 h3)
  · exact Or.inl (h3 ▸ h1)
  · exact Or.inl (h1 ▸ h3)
  · exact Or.inr ⟨h1.trans h3, lt_trans h2 h4⟩

theorem imageComparator_asymm {a b : Image} (hab : ImageComparator a b = true) :
    ImageComparator b a = false := by
  rw [Bool.eq_false_iff]
  intro hba
  rw [imageComparator_iff] at *
  rcases hab with h1 | ⟨h1, h2⟩ <;> rcases hba with h3 | ⟨h3, h4⟩
  · exact lt_asymm h1 h3
  · exact absurd h1 (by rw [h3]; exact lt_irrefl _)
  · exact absurd h3 (by rw [h1]; exact lt_irrefl _)
  · exact lt_asymm h2 h4

theorem imageComparator_equiv {a b : Image} (hab : ImageComparator a b = false)
    (hba : ImageComparator b a = false) : a.dist = b.dist ∧ a.index = b.index := by
  rw [Bool.eq_false_iff, Ne, imageComparator_iff] at hab hba
  push_neg at hab hba
  have h1 : a.dist = b.dist := le_antisymm hba.1 hab.1
  exact ⟨h1, le_antisymm (hba.2 h1.symm) (hab.2 h1)⟩

theorem setInsert_length_le (x : Image) (s : ImageSet) :
    (setInsert x s).length ≤ s.length + 1 := by
  induction s with
  | nil => simp [setInsert]
  | cons y ys ih =>
    simp only [setInsert]
    split
    · simp
    · split
      · simp only [List.length_cons]; omega
      · simp

theorem length_le_setInsert (x : Image) (s : ImageSet) :
    s.length ≤ (setInsert x s).length := by
  induction s with
  | nil => simp [setInsert]
  | cons y ys ih =>
    simp only [setInsert]
    split
    · simp
    · split
      · simp only [List.length_cons]; omega
      · simp

theorem mem_of_mem_setInsert {x y : Image} {s : ImageSet} (h : y ∈ setInsert x s) :
    y = x ∨ y ∈ s := by
  induction s with
  | nil => simpa [setInsert] using h
  | cons z zs ih =>
    simp only [setInsert] at h
    split at h
    · simpa using h
    · split at h
      · rcases List.mem_cons.1 h with h1 | h1
        · exact Or.inr (h1 ▸ List.mem_cons_self _ _)
        · rcases ih h1 with h2 | h2
          · exact Or.inl h2
          · exact Or.inr (List.mem_cons_of_mem _ h2)
      · exact Or.inr h

theorem mem_setInsert_of_mem {x y : Image} {s : ImageSet} (h : y ∈ s) : y ∈ setInsert x s := by
  induction s with
  | nil => cases h
  | cons z zs ih =>
    simp only [setInsert]
    split
    · exact List.mem_cons_of_mem _ h
    · split
      · rcases List.mem_cons.1 h with h1 | h1
        · exact h1 ▸ List.mem_cons_self _ _
        · exact List.mem_cons_of_mem _ (ih h1)
      · exact h

/-- After an insertion the set holds the element or one equivalent to it. -/
theorem exists_equiv_mem_setInsert (x : Image) (s : ImageSet) :
    ∃ y ∈ setInsert x s, y.dist = x.dist ∧ y.index = x.index := by
  induction s with
  | nil => exact ⟨x, by simp [setInsert], rfl, rfl⟩
  | cons z zs ih =>
    simp only [setInsert]
    split
    · exact ⟨x, List.mem_cons_self _ _, rfl, rfl⟩
    · rename_i h1
      split
      · obtain ⟨y, hy, hy2⟩ := ih
        exact ⟨y, List.mem_cons_of_mem _ hy, hy2⟩
      · rename_i h2
        obtain ⟨h3, h4⟩ := imageComparator_equiv (Bool.eq_false_iff.2 h1) (Bool.eq_false_iff.2 h2)
        exact ⟨z, List.mem_cons_self _ _, h3.symm, h4.symm⟩

theorem setInsert_ascending {x : Image} {s : ImageSet} (h : Ascending s) :
    Ascending (setInsert x s) := by
  induction s with
  | nil => simp [setInsert, Ascending]
  | cons z zs ih =>
    have hz := List.pairwise_cons.1 h
    simp only [setInsert]
    split
    · rename_i h1
      refine List.pairwise_cons.2 ⟨?_, h⟩
      intro a ha
      rcases List.mem_cons.1 ha with h2 | h2
      · exact h2 ▸ h1
      · exact imageComparator_trans h1 (hz.1 a h2)
    · split
      · rename_i h1 h2
        refine List.pairwise_cons.2 ⟨?_, ih hz.2⟩
        intro a ha
        rcases mem_of_mem_setInsert ha with h3 | h3
        · exact h3 ▸ h2
        · exact hz.1 a h3
      · exact h

/-! ### The bounded scans of `lsh.cpp` -/

/-- The body of the scan loops, where it is defined, returns the state `nearestStepValue`. -/
theorem nearestStep_eq {P : Type} (prim : Primitives P) (N : Int) (q : Image)
    (st st1 : ImageSet × ℚ) (img : Image) (h : nearestStep prim N q st img = some st1) :
    st1 = nearestStepValue prim N q st img := by
  unfold nearestStep at h
  unfold nearestStepValue
  simp only at h ⊢
  by_cases hlt : prim.CalculateDistance 2 q.data img.data < st.2
  · simp only [hlt, if_true] at h ⊢
    by_cases hfull : (st.1.length : Int) = N
    · simp only [hfull, if_true, eraseLast] at h ⊢
      by_cases hempty : st.1.length = 0
      · simp [hempty] at h
      · simp only [hempty, if_false, Option.some.injEq] at h
        exact h.symm
    · simp only [hfull, if_false, Option.some.injEq] at h ⊢
      exact h.symm
  · simp only [hlt, if_false, Option.some.injEq] at h ⊢
    exact h.symm

/-- The body of the scan loops is defined when `number_of_nearest` is not `0`. -/
theorem nearestStep_isSome {P : Type} (prim : Primitives P) (N : Int) (q : Image)
    (hN : N ≠ 0) (st : ImageSet × ℚ) (img : Image) :
    nearestStep prim N q st img = some (nearestStepValue prim N q st img) := by
  unfold nearestStep nearestStepValue
  simp only
  by_cases hlt : prim.CalculateDistance 2 q.data img.data < st.2
  · simp only [hlt, if_true]
    by_cases hfull : (st.1.length : Int) = N
    · have hempty : ¬ st.1.length = 0 := by
        intro h0
        rw [h0] at hfull
        exact hN hfull.symm
      simp only [hfull, if_true, eraseLast, hempty, if_false]
    · simp only [hfull, if_false]
  · simp only [hlt, if_false]

theorem nearestScan_eq {P : Type} (prim : Primitives P) (N : Int) (q : Image)
    (l : List Image) (st st1 : ImageSet × ℚ) (h : nearestScan prim N q l st = some st1) :
    st1 = l.foldl (nearestStepValue prim N q) st := by
  induction l generalizing st with
  | nil =>
    simp only [nearestScan, Option.some.injEq] at h
    exact h.symm
  | cons a l ih =>
    simp only [nearestScan] at h
    cases hstep : nearestStep prim N q st a with
    | none => simp [hstep] at h
    | some st2 =>
      simp only [hstep] at h
      rw [List.foldl_cons, ← nearestStep_eq prim N q st st2 a hstep]
      exact ih st2 h

theorem nearestScan_isSome {P : Type} (prim : Primitives P) (N : Int) (q : Image)
    (hN : N ≠ 0) (l : List Image) (st : ImageSet × ℚ) :
    nearestScan prim N q l st = some (l.foldl (nearestStepValue prim N q) st) := by
  induction l generalizing st with
  | nil => rfl
  | cons a l ih =>
    simp only [nearestScan, nearestStep_isSome prim N q hN st a, List.foldl_cons]
    exact ih _

theorem nearestStepValue_length {P : Type} (prim : Primitives P) (N : Int) (q : Image)
    (hN : 1 ≤ N) (st : ImageSet × ℚ) (img : Image) (h : (st.1.length : Int) ≤ N) :
    ((nearestStepValue prim N q st img).1.length : Int) ≤ N := by
  unfold nearestStepValue
  simp only
  split
  · by_cases hfull : (st.1.length : Int) = N
    · simp only [hfull, if_true]
      have h1 := setInsert_length_le (img.SetDist (prim.CalculateDistance 2 q.data img.data))
        st.1.dropLast
      have h2 : st.1.dropLast.length = st.1.length - 1 := List.length_dropLast _
      omega
    · simp only [hfull, if_false]
      have h1 := setInsert_length_le (img.SetDist (prim.CalculateDistance 2 q.data img.data))
        st.1
      omega
  · exact h

theorem foldl_nearestStepValue_length {P : Type} (prim : Primitives P) (N : Int) (q : Image)
    (hN : 1 ≤ N) (l : List Image) (st : ImageSet × ℚ) (h : (st.1.length : Int) ≤ N) :
    (((l.foldl (nearestStepValue prim N q) st)).1.length : Int) ≤ N := by
  induction l generalizing st with
  | nil => exact h
  | cons a l ih => exact ih _ (nearestStepValue_length prim N q hN st a h)

theorem findAllLoop_cons {P : Type} (prim : Primitives P) (lsh : LSH P) (q : Image) (i : Nat)
    (rest : List Nat) (st : ImageSet × ℚ) :
    lsh.findAllLoop prim q (i :: rest) st =
      match lsh.queryBucket prim q i with
      | none => none
      | some b =>
        match nearestScan prim lsh.number_of_nearest q b st with
        | none => none
        | some st1 => lsh.findAllLoop prim q rest st1 := by
  simp only [LSH.findAllLoop]
  cases hb : lsh.queryBucket prim q i with
  | none => rfl
  | some b =>
    cases b with
    | nil => simp [nearestScan]
    | cons a l => simp

/-- A table of the loop of `FindAllNearestNeighbors` that returns: the bucket exists, and
the loop goes on from the state after the scan of the bucket. -/
theorem findAllLoop_of_cons {P : Type} (prim : Primitives P) (lsh : LSH P) (q : Image)
    (i : Nat) (rest : List Nat) (st res : ImageSet × ℚ)
    (hrun : lsh.findAllLoop prim q (i :: rest) st = some res) :
    ∃ b, lsh.queryBucket prim q i = some b ∧
      nearestScan prim lsh.number_of_nearest q b st
        = some (b.foldl (nearestStepValue prim lsh.number_of_nearest q) st) ∧
      lsh.findAllLoop prim q rest (b.foldl (nearestStepValue prim lsh.number_of_nearest q) st)
        = some res := by
  rw [findAllLoop_cons] at hrun
  cases hb : lsh.queryBucket prim q i with
  | none => simp [hb] at hrun
  | some b =>
    simp only [hb] at hrun
    cases hscan : nearestScan prim lsh.number_of_nearest q b st with
    | none => simp [hscan] at hrun
    | some st1 =>
      simp only [hscan] at hrun
      have h := nearestScan_eq prim _ q b st st1 hscan
      subst h
      exact ⟨b, rfl, hscan, hrun⟩

theorem findAllLoop_length {P : Type} (prim : Primitives P) (lsh : LSH P) (q : Image)
    (hN : 1 ≤ lsh.number_of_nearest) (tables : List Nat) (st st1 : ImageSet × ℚ)
    (h : (st.1.length : Int) ≤ lsh.number_of_nearest)
    (hrun : lsh.findAllLoop prim q tables st = some st1) :
    (st1.1.length : Int) ≤ lsh.number_of_nearest := by
  induction tables generalizing st with
  | nil =>
    simp only [LSH.findAllLoop, Option.some.injEq] at hrun
    exact hrun ▸ h
  | cons i rest ih =>
    obtain ⟨b, _, _, hrest⟩ := findAllLoop_of_cons prim lsh q i rest st st1 hrun
    exact ih _ (foldl_nearestStepValue_length prim _ q hN _ st h) hrest

/-- The index is usable by a query: the bucket count `images.size() / 16` is not zero and
each of the `L` tables has its projection and its map. -/
theorem queryBucket_isSome {P : Type} (prim : Primitives P) (lsh : LSH P) (q : Image) (i : Nat)
    (hsize : 16 ≤ lsh.images.length) (hproj : i < lsh.random_projections.length)
    (htab : i < lsh.hash_tables.length) : ∃ b, lsh.queryBucket prim q i = some b := by
  have h16 : ¬ lsh.images.length / 16 = 0 := by omega
  simp [LSH.queryBucket, LSH.finalHashCode, reduceHashCode, List.getElem?_eq_getElem hproj,
    List.getElem?_eq_getElem htab, h16]

theorem findAllLoop_isSome {P : Type} (prim : Primitives P) (lsh : LSH P) (q : Image)
    (hN : lsh.number_of_nearest ≠ 0) (tables : List Nat) (st : ImageSet × ℚ)
    (h : ∀ i ∈ tables, ∃ b, lsh.queryBucket prim q i = some b) :
    ∃ st1, lsh.findAllLoop prim q tables st = some st1 := by
  induction tables generalizing st with
  | nil => exact ⟨st, rfl⟩
  | cons i rest ih =>
    obtain ⟨b, hb⟩ := h i (List.mem_cons_self _ _)
    have hrest : ∀ j ∈ rest, ∃ b, lsh.queryBucket prim q j = some b :=
      fun j hj => h j (List.mem_cons_of_mem _ hj)
    rw [findAllLoop_cons]
    simp only [hb, nearestScan_isSome prim _ q hN b st]
    exact ih _ hrest

/-- C1, evaluated at the failing input: on the example dataset `[0, 1, 2, 10, 11]` with
`N = 2` and a query at position `0`, whose two nearest points are id 0 (distance 0) and
id 1 (distance 1), `BruteForceNearestNeighbors` returns the single point id 0, fewer than
`min(N, datasetSize) = 2` points: the point id 1 is not closer than the worst point held,
and the test `dist < min_dist` refuses it although the set is not full. -/
theorem bruteForce_example_returns_one_point :
    LSH.BruteForceNearestNeighbors prim1D (LSH.new exampleImages 1 1 2 1) (queryAt 0)
        = some [⟨0, pixels1D 0, 0⟩] ∧
      ∃ res, LSH.BruteForceNearestNeighbors prim1D (LSH.new exampleImages 1 1 2 1) (queryAt 0)
        = some res ∧ res.length < min 2 exampleImages.length := by
  set_option maxRecDepth 100000 in
  exact ⟨by rfl, [⟨0, pixels1D 0, 0⟩], by rfl, by decide⟩

/-- C2: with `N ≥ 1`, every step of the scan is defined and keeps the candidate set at no
more than `N` entries, so the set holds at most `N` entries after every insertion of
`BruteForceNearestNeighbors` (each prefix of the dataset) and of `FindAllNearestNeighbors`,
and both return at most `N` entries; `BruteForceNearestNeighbors` does return a set, and
`FindAllNearestNeighbors` does when the bucket count is not zero and each table has its
projection and its map. -/
theorem candidate_set_at_most_N {P : Type} (prim : Primitives P) (lsh : LSH P) (q : Image)
    (hN : 1 ≤ lsh.number_of_nearest) :
    (∀ (st : ImageSet × ℚ) (img : Image), (st.1.length : Int) ≤ lsh.number_of_nearest →
        ∃ st1, nearestStep prim lsh.number_of_nearest q st img = some st1 ∧
          (st1.1.length : Int) ≤ lsh.number_of_nearest) ∧
    (∀ k : Nat, ∃ st1, nearestScan prim lsh.number_of_nearest q (lsh.images.take k)
        ([], initialMinDist) = some st1 ∧ (st1.1.length : Int) ≤ lsh.number_of_nearest) ∧
    (∃ res, lsh.BruteForceNearestNeighbors prim q = some res ∧
      (res.length : Int) ≤ lsh.number_of_nearest) ∧
    (∀ (tables : List Nat) (st : ImageSet × ℚ),
        lsh.findAllLoop prim q tables ([], initialMinDist) = some st →
        (st.1.length : Int) ≤ lsh.number_of_nearest) ∧
    (∀ res, lsh.FindAllNearestNeighbors prim q = some res →
        (res.length : Int) ≤ lsh.number_of_nearest) ∧
    (16 ≤ lsh.images.length → lsh.number_of_hash_tables ≤ lsh.random_projections.length →
        lsh.number_of_hash_tables ≤ lsh.hash_tables.length →
        ∃ res, lsh.FindAllNearestNeighbors prim q = some res ∧
          (res.length : Int) ≤ lsh.number_of_nearest) := by
  have h0 : (((([] : ImageSet), initialMinDist).1.length : Nat) : Int)
      ≤ lsh.number_of_nearest := by
    simp only [List.length_nil, Nat.cast_zero]; omega
  have hall : ∀ res, lsh.FindAllNearestNeighbors prim q = some res →
      (res.length : Int) ≤ lsh.number_of_nearest := by
    intro res hres
    unfold LSH.FindAllNearestNeighbors at hres
    split at hres
    · cases hres
    · rename_i st hst
      simp only [Option.some.injEq] at hres
      exact hres ▸ findAllLoop_length prim lsh q hN _ _ st h0 hst
  have hN0 : lsh.number_of_nearest ≠ 0 := by omega
  refine ⟨fun st img h => ⟨_, nearestStep_isSome prim _ q hN0 st img,
      nearestStepValue_length prim _ q hN st img h⟩,
    fun k => ⟨_, nearestScan_isSome prim _ q hN0 _ _,
      foldl_nearestStepValue_length prim _ q hN _ _ h0⟩,
    ⟨(lsh.images.foldl (nearestStepValue prim lsh.number_of_nearest q)
        ([], initialMinDist)).1,
      by simp only [LSH.BruteForceNearestNeighbors, nearestScan_isSome prim _ q hN0],
      foldl_nearestStepValue_length prim _ q hN _ _ h0⟩,
    fun tables st hst => findAllLoop_length prim lsh q hN tables _ st h0 hst, hall, ?_⟩
  intro hsize hproj htab
  obtain ⟨st, hst⟩ := findAllLoop_isSome prim lsh q hN0 (List.range lsh.number_of_hash_tables)
    ([], initialMinDist) (fun i hi => queryBucket_isSome prim lsh q i hsize
      (lt_of_lt_of_le (List.mem_range.1 hi) hproj) (lt_of_lt_of_le (List.mem_range.1 hi) htab))
  have hres : lsh.FindAllNearestNeighbors prim q = some st.1 := by
    simp [LSH.FindAllNearestNeighbors, hst]
  exact ⟨st.1, hres, hall _ hres⟩

/-- The bound of C2 on the index over sixteen points, with `N = 2`. -/
theorem candidate_set_at_most_N_witness :
    (1 : Int) ≤ builtIndex.number_of_nearest ∧
    ∃ res, builtIndex.BruteForceNearestNeighbors prim1D (queryAt 11) = some res ∧
      (res.length : Int) ≤ builtIndex.number_of_nearest :=
  ⟨by decide, (candidate_set_at_most_N prim1D builtIndex (queryAt 11) (by decide)).2.2.1⟩

/-! ### `RadiusSearch` -/

theorem radiusLoop_cons {P : Type} (prim : Primitives P) (lsh : LSH P) (q : Image) (i : Nat)
    (rest : List Nat) (s : ImageSet) :
    lsh.radiusLoop prim q (i :: rest) s =
      match lsh.queryBucket prim q i with
      | none => none
      | some b => lsh.radiusLoop prim q rest (b.foldl (radiusStep prim lsh.radius q) s) := by
  simp only [LSH.radiusLoop]
  cases hb : lsh.queryBucket prim q i with
  | none => rfl
  | some b =>
    cases b with
    | nil => simp
    | cons a l => simp

theorem foldl_radiusStep_mem {P : Type} (prim : Primitives P) (R : Int) (q : Image)
    (bucket : List Image) (s : ImageSet) (x : Image)
    (h : x ∈ bucket.foldl (radiusStep prim R q) s) :
    x ∈ s ∨ ∃ p ∈ bucket, prim.CalculateDistance 2 q.data p.data < (R : ℚ) ∧
      x = p.SetDist (prim.CalculateDistance 2 q.data p.data) := by
  induction bucket generalizing s with
  | nil => exact Or.inl h
  | cons a l ih =>
    rcases ih _ h with h1 | ⟨p, hp, hd, hx⟩
    · unfold radiusStep at h1
      simp only at h1
      split at h1
      · rename_i hlt
        rcases mem_of_mem_setInsert h1 with h2 | h2
        · exact Or.inr ⟨a, List.mem_cons_self _ _, hlt, h2⟩
        · exact Or.inl h2
      · exact Or.inl h1
    · exact Or.inr ⟨p, List.mem_cons_of_mem _ hp, hd, hx⟩

theorem foldl_radiusStep_mono {P : Type} (prim : Primitives P) (R : Int) (q : Image)
    (bucket : List Image) (s : ImageSet) (x : Image) (h : x ∈ s) :
    x ∈ bucket.foldl (radiusStep prim R q) s := by
  induction bucket generalizing s with
  | nil => exact h
  | cons a l ih =>
    apply ih
    unfold radiusStep
    simp only
    split
    · exact mem_setInsert_of_mem h
    · exact h

theorem foldl_radiusStep_ascending {P : Type} (prim : Primitives P) (R : Int) (q : Image)
    (bucket : List Image) (s : ImageSet) (h : Ascending s) :
    Ascending (bucket.foldl (radiusStep prim R q) s) := by
  induction bucket generalizing s with
  | nil => exact h
  | cons a l ih =>
    apply ih
    unfold radiusStep
    simp only
    split
    · exact setInsert_ascending h
    · exact h

/-- An element equivalent to one present stays present through a scan. -/
theorem foldl_radiusStep_keeps {P : Type} (prim : Primitives P) (R : Int) (q : Image)
    (bucket : List Image) (s : ImageSet) (d : ℚ) (id : Nat)
    (h : ∃ y ∈ s, y.dist = d ∧ y.index = id) :
    ∃ y ∈ bucket.foldl (radiusStep prim R q) s, y.dist = d ∧ y.index = id := by
  obtain ⟨y, hy, hyd⟩ := h
  exact ⟨y, foldl_radiusStep_mono prim R q bucket s y hy, hyd⟩

theorem foldl_radiusStep_holds {P : Type} (prim : Primitives P) (R : Int) (q : Image)
    (bucket : List Image) (s : ImageSet) (p : Image) (hp : p ∈ bucket)
    (hd : prim.CalculateDistance 2 q.data p.data < (R : ℚ)) :
    ∃ y ∈ bucket.foldl (radiusStep prim R q) s,
      y.dist = prim.CalculateDistance 2 q.data p.data ∧ y.index = p.index := by
  induction bucket generalizing s with
  | nil => cases hp
  | cons a l ih =>
    rcases List.mem_cons.1 hp with h1 | h1
    · subst h1
      simp only [List.foldl_cons]
      apply foldl_radiusStep_keeps
      unfold radiusStep
      simp only [hd, if_true]
      exact exists_equiv_mem_setInsert _ _
    · exact ih _ h1

theorem radiusLoop_mem {P : Type} (prim : Primitives P) (lsh : LSH P) (q : Image)
    (tables : List Nat) (s res : ImageSet) (hrun : lsh.radiusLoop prim q tables s = some res)
    (x : Image) (h : x ∈ res) :
    x ∈ s ∨ ∃ i ∈ tables, ∃ b, lsh.queryBucket prim q i = some b ∧ ∃ p ∈ b,
      prim.CalculateDistance 2 q.data p.data < (lsh.radius : ℚ) ∧
      x = p.SetDist (prim.CalculateDistance 2 q.data p.data) := by
  induction tables generalizing s with
  | nil =>
    simp only [LSH.radiusLoop, Option.some.injEq] at hrun
    exact Or.inl (hrun ▸ h)
  | cons i rest ih =>
    rw [radiusLoop_cons] at hrun
    cases hb : lsh.queryBucket prim q i with
    | none => simp [hb] at hrun
    | some b =>
      simp only [hb] at hrun
      rcases ih _ hrun with h1 | ⟨j, hj, b1, hb1, hrest⟩
      · rcases foldl_radiusStep_mem prim _ q b s x h1 with h2 | h2
        · exact Or.inl h2
        · exact Or.inr ⟨i, List.mem_cons_self _ _, b, hb, h2⟩
      · exact Or.inr ⟨j, List.mem_cons_of_mem _ hj, b1, hb1, hrest⟩

theorem radiusLoop_keeps {P : Type} (prim : Primitives P) (lsh : LSH P) (q : Image)
    (tables : List Nat) (s res : ImageSet) (hrun : lsh.radiusLoop prim q tables s = some res)
    (d : ℚ) (id : Nat) (h : ∃ y ∈ s, y.dist = d ∧ y.index = id) :
    ∃ y ∈ res, y.dist = d ∧ y.index = id := by
  induction tables generalizing s with
  | nil =>
    simp only [LSH.radiusLoop, Option.some.injEq] at hrun
    exact hrun ▸ h
  | cons i rest ih =>
    rw [radiusLoop_cons] at hrun
    cases hb : lsh.queryBucket prim q i with
    | none => simp [hb] at hrun
    | some b =>
      simp only [hb] at hrun
      exact ih _ hrun (foldl_radiusStep_keeps prim _ q b s d id h)

theorem radiusLoop_holds {P : Type} (prim : Primitives P) (lsh : LSH P) (q : Image)
    (tables : List Nat) (s res : ImageSet) (hrun : lsh.radiusLoop prim q tables s = some res)
    (i : Nat) (hi : i ∈ tables) (b : List Image) (hb : lsh.queryBucket prim q i = some b)
    (p : Image) (hp : p ∈ b)
    (hd : prim.CalculateDistance 2 q.data p.data < (lsh.radius : ℚ)) :
    ∃ y ∈ res, y.dist = prim.CalculateDistance 2 q.data p.data ∧ y.index = p.index := by
  induction tables generalizing s with
  | nil => cases hi
  | cons j rest ih =>
    rw [radiusLoop_cons] at hrun
    cases hbj : lsh.queryBucket prim q j with
    | none => simp [hbj] at hrun
    | some bj =>
      simp only [hbj] at hrun
      rcases List.mem_cons.1 hi with h1 | h1
      · subst h1
        rw [hb] at hbj
        cases hbj
        exact radiusLoop_keeps prim lsh q rest _ res hrun _ _
          (foldl_radiusStep_holds prim _ q b s p hp hd)
      · exact ih _ hrun h1

theorem radiusLoop_ascending {P : Type} (prim : Primitives P) (lsh : LSH P) (q : Image)
    (tables : List Nat) (s res : ImageSet) (hrun : lsh.radiusLoop prim q tables s = some res)
    (h : Ascending s) : Ascending res := by
  induction tables generalizing s with
  | nil =>
    simp only [LSH.radiusLoop, Option.some.injEq] at hrun
    exact hrun ▸ h
  | cons i rest ih =>
    rw [radiusLoop_cons] at hrun
    cases hb : lsh.queryBucket prim q i with
    | none => simp [hb] at hrun
    | some b =>
      simp only [hb] at hrun
      exact ih _ hrun (foldl_radiusStep_ascending prim _ q b s h)

theorem radiusLoop_isSome {P : Type} (prim : Primitives P) (lsh : LSH P) (q : Image)
    (tables : List Nat) (s : ImageSet)
    (h : ∀ i ∈ tables, ∃ b, lsh.queryBucket prim q i = some b) :
    ∃ res, lsh.radiusLoop prim q tables s = some res := by
  induction tables generalizing s with
  | nil => exact ⟨s, rfl⟩
  | cons i rest ih =>
    obtain ⟨b, hb⟩ := h i (List.mem_cons_self _ _)
    rw [radiusLoop_cons]
    simp only [hb]
    exact ih _ (fun j hj => h j (List.mem_cons_of_mem _ hj))

/-- What `RadiusSearch` returns on an index that answers the query: when the query hashes
to a bucket in each of the `L` tables (which `queryBucket_isSome` gives for an index over at
least 16 images whose tables have their projections and maps), and the id identifies the
pixel vector among the members of those buckets, `RadiusSearch` returns a set, and a point
is in it exactly when it is a member `p`
of the bucket the query hashes to in one of the `L` tables with `distance(query, p) < R`
(returned with that distance stored); no returned point has a stored distance `≥ R`, and the
set is strictly ascending in `(distance, id)` with pairwise distinct ids, so a point found
through several tables appears once. -/
theorem radiusSearch_exact {P : Type} (prim : Primitives P) (lsh : LSH P) (q : Image)
    (hdef : ∀ i, i < lsh.number_of_hash_tables → ∃ b, lsh.queryBucket prim q i = some b)
    (hid : ∀ (i j : Nat) (bi bj : List Image) (p p' : Image),
      i < lsh.number_of_hash_tables → j < lsh.number_of_hash_tables →
      lsh.queryBucket prim q i = some bi → lsh.queryBucket prim q j = some bj →
      p ∈ bi → p' ∈ bj → p.index = p'.index → p.data = p'.data) :
    ∃ res, lsh.RadiusSearch prim q = some res ∧
      (∀ x, x ∈ res ↔ ∃ i, i < lsh.number_of_hash_tables ∧
        ∃ b, lsh.queryBucket prim q i = some b ∧ ∃ p, p ∈ b ∧
          prim.CalculateDistance 2 q.data p.data < (lsh.radius : ℚ) ∧
          x = p.SetDist (prim.CalculateDistance 2 q.data p.data)) ∧
      (∀ x, x ∈ res → x.dist < (lsh.radius : ℚ)) ∧
      Ascending res ∧ (res.map Image.index).Nodup := by
  obtain ⟨res, hres⟩ := radiusLoop_isSome prim lsh q (List.range lsh.number_of_hash_tables) []
    (fun i hi => hdef i (List.mem_range.1 hi))
  have hfrom : ∀ x, x ∈ res → ∃ i, i < lsh.number_of_hash_tables ∧
      ∃ b, lsh.queryBucket prim q i = some b ∧ ∃ p, p ∈ b ∧
        prim.CalculateDistance 2 q.data p.data < (lsh.radius : ℚ) ∧
        x = p.SetDist (prim.CalculateDistance 2 q.data p.data) := by
    intro x hx
    rcases radiusLoop_mem prim lsh q _ [] res hres x hx with h1 | ⟨i, hi, b, hb, p, hp, hd, hxp⟩
    · cases h1
    · exact ⟨i, List.mem_range.1 hi, b, hb, p, hp, hd, hxp⟩
  have hasc : Ascending res := radiusLoop_ascending prim lsh q _ [] res hres List.Pairwise.nil
  refine ⟨res, hres, fun x => ⟨hfrom x, ?_⟩, ?_, hasc, ?_⟩
  · rintro ⟨i, hi, b, hb, p, hp, hd, hxp⟩
    obtain ⟨y, hy, hyd, hyi⟩ := radiusLoop_holds prim lsh q _ [] res hres i
      (List.mem_range.2 hi) b hb p hp hd
    obtain ⟨j, hj, bj, hbj, p', hp', _, hyp⟩ := hfrom y hy
    have hidx : p.index = p'.index := by rw [← hyi, hyp]; rfl
    have hdata : p.data = p'.data := hid i j b bj p p' hi hj hb hbj hp hp' hidx
    have hxy : x = y := by
      rw [hxp, hyp]
      simp only [Image.SetDist, Image.mk.injEq]
      exact ⟨hidx, hdata, by rw [hdata]⟩
    exact hxy ▸ hy
  · intro x hx
    obtain ⟨i, _, b, _, p, _, hd, hxp⟩ := hfrom x hx
    rw [hxp]
    exact hd
  · rw [List.Nodup, List.pairwise_map]
    refine List.Pairwise.imp_of_mem ?_ hasc
    intro a b ha hb hab hidx
    obtain ⟨i, hi, bi, hbi, p, hp, _, hap⟩ := hfrom a ha
    obtain ⟨j, hj, bj, hbj, p', hp', _, hbp⟩ := hfrom b hb
    have hidx' : p.index = p'.index := by
      have h1 : a.index = p.index := by rw [hap]; rfl
      have h2 : b.index = p'.index := by rw [hbp]; rfl
      rw [← h1, ← h2]
      exact hidx
    have hdata : p.data = p'.data := hid i j bi bj p p' hi hj hbi hbj hp hp' hidx'
    have hdist : a.dist = b.dist := by
      rw [hap, hbp, hdata]
      rfl
    rw [imageComparator_iff] at hab
    rcases hab with h1 | ⟨_, h2⟩
    · exact absurd h1 (by rw [hdist]; exact lt_irrefl _)
    · exact absurd h2 (by rw [hidx]; exact lt_irrefl _)

/-- The radius example on the index over sixteen points: radius `2`, query at position `2`;
the points within the radius are id 2 (distance 0) and id 1 (distance 1). -/
theorem radiusSearch_example :
    LSH.RadiusSearch prim1D radiusIndex (queryAt 2)
      = some [⟨2, pixels1D 2, 0⟩, ⟨1, pixels1D 1, 1⟩] := by
  rfl

/-- The statement of `radiusSearch_exact` on the index over sixteen points. -/
theorem radiusSearch_exact_example :
    (∃ b, radiusIndex.queryBucket prim1D (queryAt 2) 0 = some b) ∧
    ∃ res, LSH.RadiusSearch prim1D radiusIndex (queryAt 2) = some res ∧
      (∀ x, x ∈ res ↔ ∃ i, i < radiusIndex.number_of_hash_tables ∧
        ∃ b, radiusIndex.queryBucket prim1D (queryAt 2) i = some b ∧ ∃ p, p ∈ b ∧
          prim1D.CalculateDistance 2 (queryAt 2).data p.data < (radiusIndex.radius : ℚ) ∧
          x = p.SetDist (prim1D.CalculateDistance 2 (queryAt 2).data p.data)) ∧
      (∀ x, x ∈ res → x.dist < (radiusIndex.radius : ℚ)) ∧
      Ascending res ∧ (res.map Image.index).Nodup := by
  refine ⟨⟨sixteenImages, by rfl⟩, radiusSearch_exact prim1D radiusIndex (queryAt 2)
    (fun i hi => queryBucket_isSome prim1D radiusIndex (queryAt 2) i (by decide)
      (lt_of_lt_of_le hi (by decide)) (lt_of_lt_of_le hi (by decide))) ?_⟩
  intro i j bi bj p p' hi hj hbi hbj hp hp'
  have hi0 : i = 0 := by
    have : i < 1 := hi
    omega
  have hj0 : j = 0 := by
    have : j < 1 := hj
    omega
  subst hi0 hj0
  have h1 : radiusIndex.queryBucket prim1D (queryAt 2) 0 = some sixteenImages := by rfl
  rw [h1] at hbi hbj
  cases hbi
  cases hbj
  have key : ∀ a ∈ sixteenImages, ∀ b ∈ sixteenImages, a.index = b.index → a.data = b.data := by
    set_option maxRecDepth 100000 in decide
  exact key p hp p' hp'

/-! ### `HashInput` -/

theorem finalHashCode_none_of_small {P : Type} (prim : Primitives P) (lsh : LSH P)
    (data : List Nat) (i : Nat) (h : lsh.images.length < 16) :
    lsh.finalHashCode prim data i = none := by
  have h0 : lsh.images.length / 16 = 0 := by omega
  unfold LSH.finalHashCode
  split
  · rfl
  · simp [reduceHashCode, h0]

theorem hashTables_none_of_small {P : Type} (prim : Primitives P) (lsh : LSH P) (i : Nat)
    (rest : List Nat) (tables : List HashTable) (hpos : 1 ≤ lsh.images.length)
    (hsmall : lsh.images.length < 16) : lsh.hashTables prim (i :: rest) tables = none := by
  cases himgs : lsh.images with
  | nil => rw [himgs] at hpos; simp at hpos
  | cons img l =>
    simp only [LSH.hashTables, himgs, LSH.hashImages, LSH.hashImage,
      finalHashCode_none_of_small prim lsh img.data i hsmall]

/-- With at least one table, `HashInput` is undefined on every dataset of 1 to 15 images:
the first image is reduced modulo `images.size() / 16 = 0`. -/
theorem hashInput_none_of_small {P : Type} (prim : Primitives P) (lsh : LSH P)
    (projections : List P) (hL : 1 ≤ lsh.number_of_hash_tables)
    (hpos : 1 ≤ lsh.images.length) (hsmall : lsh.images.length < 16) :
    lsh.HashInput prim projections = none := by
  obtain ⟨L, hL1⟩ : ∃ L, lsh.number_of_hash_tables = L + 1 :=
    ⟨lsh.number_of_hash_tables - 1, by omega⟩
  unfold LSH.HashInput
  simp only [hL1, List.range_succ_eq_map]
  rw [hashTables_none_of_small prim
    { lsh with number_of_hash_tables := L + 1, random_projections := projections } 0 _ _
    hpos hsmall]

/-- C4, evaluated at the failing input: on the five-point example dataset the bucket count
`images.size() / 16` is `5 / 16 = 0`, the reduction of a hash code modulo it is undefined,
and `HashInput` with one table does not complete. -/
theorem hashInput_example_modulo_zero :
    exampleImages.length / 16 = 0 ∧
    reduceHashCode (prim1D.CalculateFinalHashCode (pixels1D 0) () 1 WINDOW)
      exampleImages.length = none ∧
    LSH.HashInput prim1D (LSH.new exampleImages 1 1 2 1) [()] = none := by
  refine ⟨by decide, by decide, by rfl⟩

/-- With at least one table, `RadiusSearch` is undefined on every index over fewer than 16
images, whatever its tables hold: the hash code of the query is reduced modulo
`images.size() / 16 = 0`. -/
theorem radiusSearch_none_of_small {P : Type} (prim : Primitives P) (lsh : LSH P) (q : Image)
    (hL : 1 ≤ lsh.number_of_hash_tables) (hsmall : lsh.images.length < 16) :
    lsh.RadiusSearch prim q = none := by
  obtain ⟨L, hL1⟩ : ∃ L, lsh.number_of_hash_tables = L + 1 :=
    ⟨lsh.number_of_hash_tables - 1, by omega⟩
  unfold LSH.RadiusSearch
  rw [hL1, List.range_succ_eq_map, radiusLoop_cons]
  simp only [LSH.queryBucket, finalHashCode_none_of_small prim lsh q.data 0 hsmall]

/-- C3, evaluated at the failing input: the radius example of the specification with every
position doubled, so that the positions are bytes: dataset `[0, 2, 4, 20, 22]`, query at
position `3`, radius `2`; the points within the radius are id 1 and id 2, both at distance
`1`, and the index holds all five points in the bucket `0` of its table.  The bucket count
`images.size() / 16` is `5 / 16 = 0`, the reduction of the query's hash code modulo it is
undefined, and `RadiusSearch` returns no set, on that index as on the index that the
constructor returns; the same holds on the dataset `[0, 1, 2, 10, 11]` itself, and
`HashInput` does not build an index over either dataset. -/
theorem radiusSearch_example_modulo_zero :
    doubledImages.length / 16 = 0 ∧
    LSH.HashInput prim1D (LSH.new doubledImages 1 1 2 2) [()] = none ∧
    (doubledImages.filter (fun p => decide
      (prim1D.CalculateDistance 2 (queryAt 3).data p.data < (doubledIndex.radius : ℚ)))).map
      (fun p => (p.index, prim1D.CalculateDistance 2 (queryAt 3).data p.data))
      = [(1, 1), (2, 1)] ∧
    doubledIndex.hash_tables = [[(0, doubledImages)]] ∧
    doubledIndex.queryBucket prim1D (queryAt 3) 0 = none ∧
    doubledIndex.RadiusSearch prim1D (queryAt 3) = none ∧
    (LSH.new doubledImages 1 1 2 2 : LSH Unit).RadiusSearch prim1D (queryAt 3) = none ∧
    exampleIndex.RadiusSearch prim1D (queryAt 1) = none ∧
    (LSH.new exampleImages 1 1 2 1 : LSH Unit).RadiusSearch prim1D (queryAt 1) = none := by
  set_option maxRecDepth 100000 in
  exact ⟨by decide, by rfl, by rfl, by rfl, by rfl, by rfl, by rfl, by rfl, by rfl⟩

/-! ### The start node of a GNNS restart -/

theorem startWalk_none_of_size {P : Type} (prim : Primitives P) (g : GNNS) (q : Image)
    (acc : ImageSet) : GNNS.startWalk prim g q g.input.length acc = none := by
  have h : g.input[g.input.length]? = none := List.getElem?_eq_none (le_refl _)
  simp [GNNS.startWalk, h]

/-- The value `input.GetImagesCount()` is within the bounds given to the start-index
generator, and a restart that draws it reads `images[index]` past the end: with at least one
restart whose draw is that value, `FindNearestNeighbors` is undefined. -/
theorem findNearestNeighbors_none_of_draw_size {P : Type} (prim : Primitives P) (g : GNNS)
    (N : Int) (q : Image) (gen : Nat → Nat) (hr : 1 ≤ g.no_restarts)
    (hgen : gen 0 = g.input.length) :
    mayProduce g.random_image_index g.input.length ∧
    g.FindNearestNeighbors prim N q gen = none := by
  obtain ⟨r, hr1⟩ : ∃ r, g.no_restarts = r + 1 := ⟨g.no_restarts - 1, by omega⟩
  refine ⟨⟨Nat.zero_le _, le_refl _⟩, ?_⟩
  simp [GNNS.FindNearestNeighbors, GNNS.accumulate, hr1, List.range_succ_eq_map, GNNS.restarts,
    GNNS.restart, hgen, startWalk_none_of_size]

/-- C5, evaluated at the failing input: for the five-point example dataset the generator
`random_image_index(0, 5)` can produce `5`, which is not below the dataset size, `images[5]`
does not exist, and `FindNearestNeighbors` with one restart drawing `5` is undefined. -/
theorem gnns_start_index_example_out_of_bounds :
    mayProduce (GNNS.new exampleImages 3 2 1).random_image_index 5 ∧
    ¬ (5 < exampleImages.length) ∧
    exampleImages[5]? = none ∧
    (GNNS.new exampleImages 3 2 1).FindNearestNeighbors prim1D 2 (queryAt 0) (fun _ => 5)
      = none := by
  refine ⟨by decide, by decide, by rfl, by rfl⟩

/-! ### The graphs built by `Initialization` -/

theorem pushEdges_getElem? (node : Nat) (ids : List Nat) (graph g1 : List (List Nat))
    (h : pushEdges node ids graph = some g1) (k : Nat) :
    g1[k]? = if k = node then (graph[k]?).map (fun adj => adj ++ ids) else graph[k]? := by
  induction ids generalizing graph with
  | nil =>
    simp only [pushEdges, Option.some.injEq] at h
    subst h
    split
    · cases graph[k]? <;> simp
    · rfl
  | cons id rest ih =>
    simp only [pushEdges] at h
    cases hadj : graph[node]? with
    | none => simp [hadj] at h
    | some adj =>
      simp only [hadj] at h
      rw [ih _ h]
      have hlt : node < graph.length := by
        by_contra hge
        rw [List.getElem?_eq_none (not_lt.1 hge)] at hadj
        cases hadj
      by_cases hk : k = node
      · subst hk
        simp [List.getElem?_set_self hlt, hadj]
      · have hk1 : node ≠ k := fun e => hk e.symm
        simp [hk, List.getElem?_set_ne hk1]

theorem gnns_initLoop_eq {P : Type} (prim : Primitives P) (lsh : LSH P) (n : Int)
    (l : List Image) (graph : List (List Nat)) :
    GNNS.initLoop prim lsh n l graph =
      edgesLoop (fun p => (lsh.FindNearestNeighbors prim n p).map (List.map Image.index))
        l graph := by
  induction l generalizing graph with
  | nil => rfl
  | cons a l ih =>
    simp only [GNNS.initLoop, edgesLoop]
    cases lsh.FindNearestNeighbors prim n a with
    | none => rfl
    | some c =>
      simp only [Option.map_some']
      cases pushEdges a.index (List.map Image.index c) graph with
      | none => rfl
      | some g1 => exact ih g1

/-- The loop body of `Initialization` computes, for `p`, what `FindNearestNeighbor`
computes for `p`. -/
theorem initializationNearest_eq {P : Type} (prim : Primitives P) (m : MRNG P) (p : Image) :
    m.initializationNearest prim p = m.FindNearestNeighbor prim p := by
  unfold MRNG.initializationNearest MRNG.FindNearestNeighbor MRNG.expandedLp
  cases m.lsh.FindNearestNeighbors prim m.no_candinates p with
  | none => rfl
  | some Lp => rfl

theorem mrng_initLoop_eq {P : Type} (prim : Primitives P) (m : MRNG P)
    (l : List Image) (graph : List (List Nat)) :
    MRNG.initLoop prim m l graph =
      edgesLoop (fun p => (m.FindNearestNeighbor prim p).map (fun nn => [nn.index]))
        l graph := by
  induction l generalizing graph with
  | nil => rfl
  | cons a l ih =>
    simp only [MRNG.initLoop, edgesLoop, initializationNearest_eq]
    cases m.FindNearestNeighbor prim a with
    | none => rfl
    | some c =>
      simp only [Option.map_some']
      cases pushEdges a.index [c.index] graph with
      | none => rfl
      | some g1 => exact ih g1

/-- The loop leaves alone the adjacency list of a node that is the id of none of the images
processed. -/
theorem edgesLoop_frame (candidates : Image → Option (List Nat)) (l : List Image)
    (graph g1 : List (List Nat)) (h : edgesLoop candidates l graph = some g1) (k : Nat)
    (hk : ∀ p ∈ l, p.index ≠ k) : g1[k]? = graph[k]? := by
  induction l generalizing graph with
  | nil =>
    simp only [edgesLoop, Option.some.injEq] at h
    rw [h]
  | cons a l ih =>
    simp only [edgesLoop] at h
    cases hc : candidates a with
    | none => simp [hc] at h
    | some ids =>
      simp only [hc] at h
      cases hp : pushEdges a.index ids graph with
      | none => simp [hp] at h
      | some g2 =>
        simp only [hp] at h
        rw [ih g2 h (fun p hp1 => hk p (List.mem_cons_of_mem _ hp1)),
          pushEdges_getElem? _ _ _ _ hp k]
        have hne : ¬ k = a.index := fun e => hk a (List.mem_cons_self _ _) e.symm
        simp [hne]

/-- With pairwise distinct ids, the loop appends to the adjacency list of each image
processed exactly the ids of its candidates. -/
theorem edgesLoop_getElem? (candidates : Image → Option (List Nat)) (l : List Image)
    (graph g1 : List (List Nat)) (hnd : (l.map Image.index).Nodup)
    (h : edgesLoop candidates l graph = some g1) (p : Image) (hp : p ∈ l) :
    ∃ ids, candidates p = some ids ∧
      g1[p.index]? = (graph[p.index]?).map (fun adj => adj ++ ids) := by
  induction l generalizing graph with
  | nil => cases hp
  | cons a l ih =>
    simp only [edgesLoop] at h
    rw [List.map_cons, List.nodup_cons] at hnd
    cases hc : candidates a with
    | none => simp [hc] at h
    | some ids =>
      simp only [hc] at h
      cases hpe : pushEdges a.index ids graph with
      | none => simp [hpe] at h
      | some g2 =>
        simp only [hpe] at h
        rcases List.mem_cons.1 hp with h1 | h1
        · subst h1
          refine ⟨ids, hc, ?_⟩
          rw [edgesLoop_frame candidates l g2 g1 h p.index
            (fun r hr e => hnd.1 (e ▸ List.mem_map_of_mem Image.index hr)),
            pushEdges_getElem? _ _ _ _ hpe p.index]
          simp
        · obtain ⟨ids1, hc1, hg⟩ := ih g2 hnd.2 h h1
          refine ⟨ids1, hc1, ?_⟩
          rw [hg, pushEdges_getElem? _ _ _ _ hpe p.index]
          have hne : ¬ p.index = a.index :=
            fun e => hnd.1 (e ▸ List.mem_map_of_mem Image.index h1)
          simp [hne]

/-- On a graph of empty adjacency lists, with distinct ids below the number of nodes, the
adjacency list of each image after the loop is the list of ids of its candidates. -/
theorem edgesLoop_fresh (candidates : Image → Option (List Nat)) (l : List Image) (n : Nat)
    (g1 : List (List Nat)) (hnd : (l.map Image.index).Nodup)
    (h : edgesLoop candidates l (List.replicate n []) = some g1) (p : Image) (hp : p ∈ l)
    (hlt : p.index < n) :
    ∃ ids, candidates p = some ids ∧ g1[p.index]? = some ids := by
  obtain ⟨ids, hc, hg⟩ := edgesLoop_getElem? candidates l _ g1 hnd h p hp
  refine ⟨ids, hc, ?_⟩
  rw [hg, List.getElem?_replicate_of_lt hlt]
  simp

/-- C6, evaluated at the failing input: the sixteen-point dataset with the index that
`HashInput` builds (one table; every point, the query point `p` included, is in the bucket
that the query for `p` scans).  The LSH query for the dataset point id 5 returns the
point itself first, at distance `0`, as does `FindAllNearestNeighbors` of `lsh.cpp` on the
same index.  The graph built by MRNG `Initialization` with one candidate
has the edge `0 → 0`; with three candidates, every node but node `1` has the edge to itself
as its only edge; in the graph built by GNNS `Initialization` with three LSH neighbours the
adjacency list of every node starts with the node itself (`[0, 1, 2]` for node `0`,
`[1, 0, 2]` for node `1`).  The set `Rp`, built in `mrng.h` under the comment
`Create Rp: S - p`, is never read, and `p` stays among its own candidates. -/
theorem self_loops_in_example_graphs :
    LSH.HashInput prim1D (LSH.new sixteenImages 1 1 2 1) [()] = some builtIndex ∧
    point5 ∈ sixteenImages ∧
    (builtIndex.FindNearestNeighbors prim1D 3 point5).map
      (fun cand => cand.map (fun c => (c.index, c.dist))) = some [(5, 0), (4, 9), (3, 10)] ∧
    (builtIndex.FindAllNearestNeighbors prim1D point5).map
      (fun cand => cand.map (fun c => (c.index, c.dist))) = some [(5, 0), (4, 9)] ∧
    (MRNG.Initialization prim1D (MRNG.new sixteenImages builtIndex 1)).map
      (fun m => m.graph[0]?) = some (some [0]) ∧
    (MRNG.Initialization prim1D (MRNG.new sixteenImages builtIndex 3)).map
      (fun m => m.graph) = some [[0], [0], [2], [3], [4], [5], [6], [7], [8], [9], [10], [11],
        [12], [13], [14], [15]] ∧
    (GNNS.Initialization prim1D builtIndex (GNNS.new sixteenImages 3 2 1)).map
      (fun g => g.graph) = some [[0, 1, 2], [1, 0, 2], [2, 1, 0], [3, 4, 2], [4, 3, 2],
        [5, 4, 3], [6, 5, 7], [7, 6, 8], [8, 7, 9], [9, 8, 10], [10, 9, 11], [11, 10, 12],
        [12, 11, 13], [13, 12, 14], [14, 13, 15], [15, 14, 13]] := by
  set_option maxRecDepth 100000 in
  refine ⟨by rfl, by decide, by rfl, by rfl, by rfl, by rfl, by rfl⟩

/-- Neither builder removes `p` from its own candidates.  For a dataset with pairwise
distinct ids below its size and a point `p` of it: in the graph built by GNNS
`Initialization` on a fresh instance, `p`'s own id is in `p`'s adjacency list exactly when
the LSH result for `p` holds a point with `p`'s id; in the graph built by MRNG
`Initialization`, `p`'s own id is in `p`'s adjacency list exactly when the first element of
the expanded `Lp` has `p`'s id. -/
theorem self_loop_iff_own_candidate {P : Type} (prim : Primitives P) (lsh : LSH P)
    (images : List Image) (hids : (images.map Image.index).Nodup)
    (hlt : ∀ p ∈ images, p.index < images.length) (p : Image) (hp : p ∈ images) :
    (∀ (n e : Int) (r : Nat) (g : GNNS),
      GNNS.Initialization prim lsh (GNNS.new images n e r) = some g →
      ∃ cand adj, lsh.FindNearestNeighbors prim n p = some cand ∧
        g.graph[p.index]? = some adj ∧
        (p.index ∈ adj ↔ ∃ c, c ∈ cand ∧ c.index = p.index)) ∧
    (∀ (c : Int) (m : MRNG P),
      MRNG.Initialization prim (MRNG.new images lsh c) = some m →
      ∃ Lp nn adj, (MRNG.new images lsh c).expandedLp prim p = some Lp ∧
        Lp.head? = some nn ∧ m.graph[p.index]? = some adj ∧
        (p.index ∈ adj ↔ nn.index = p.index)) := by
  constructor
  · intro n e r g hg
    unfold GNNS.Initialization at hg
    simp only [GNNS.new] at hg
    cases hloop : GNNS.initLoop prim lsh n images (List.replicate images.length []) with
    | none => simp [hloop] at hg
    | some graph =>
      simp only [hloop, Option.some.injEq] at hg
      rw [gnns_initLoop_eq] at hloop
      obtain ⟨ids, hc, hgraph⟩ := edgesLoop_fresh _ images _ graph hids hloop p hp (hlt p hp)
      cases hcand : lsh.FindNearestNeighbors prim n p with
      | none => simp [hcand] at hc
      | some cand =>
        simp only [hcand, Option.map_some', Option.some.injEq] at hc
        refine ⟨cand, ids, rfl, ?_, ?_⟩
        · rw [← hg]
          exact hgraph
        · rw [← hc]
          simp
  · intro c m hm
    unfold MRNG.Initialization at hm
    simp only [MRNG.new] at hm
    cases hloop : MRNG.initLoop prim ⟨c, images, lsh, List.replicate images.length []⟩ images
        (List.replicate images.length []) with
    | none => simp [hloop] at hm
    | some graph =>
      simp only [hloop, Option.some.injEq] at hm
      rw [mrng_initLoop_eq] at hloop
      obtain ⟨ids, hc, hgraph⟩ := edgesLoop_fresh _ images _ graph hids hloop p hp (hlt p hp)
      simp only [MRNG.FindNearestNeighbor] at hc
      simp only [MRNG.new]
      cases hLp : MRNG.expandedLp prim ⟨c, images, lsh, List.replicate images.length []⟩ p with
      | none => simp [hLp] at hc
      | some Lp =>
        simp only [hLp] at hc
        cases hnn : Lp.head? with
        | none => simp [hnn] at hc
        | some nn =>
          simp only [hnn, Option.map_some', Option.some.injEq] at hc
          refine ⟨Lp, nn, ids, rfl, hnn, ?_, ?_⟩
          · rw [← hm]
            exact hgraph
          · rw [← hc]
            simp [eq_comm]

/-- The statement of `self_loop_iff_own_candidate` on the sixteen-point dataset, for the
point with id 0. -/
theorem self_loop_iff_own_candidate_example :
    (sixteenImages.map Image.index).Nodup ∧
    ((∀ (n e : Int) (r : Nat) (g : GNNS),
      GNNS.Initialization prim1D builtIndex (GNNS.new sixteenImages n e r) = some g →
      ∃ cand adj, builtIndex.FindNearestNeighbors prim1D n (⟨0, pixels1D 0, 0⟩ : Image)
          = some cand ∧
        g.graph[(⟨0, pixels1D 0, 0⟩ : Image).index]? = some adj ∧
        ((⟨0, pixels1D 0, 0⟩ : Image).index ∈ adj ↔
          ∃ c, c ∈ cand ∧ c.index = (⟨0, pixels1D 0, 0⟩ : Image).index)) ∧
    (∀ (c : Int) (m : MRNG Unit),
      MRNG.Initialization prim1D (MRNG.new sixteenImages builtIndex c) = some m →
      ∃ Lp nn adj, (MRNG.new sixteenImages builtIndex c).expandedLp prim1D
          (⟨0, pixels1D 0, 0⟩ : Image) = some Lp ∧
        Lp.head? = some nn ∧ m.graph[(⟨0, pixels1D 0, 0⟩ : Image).index]? = some adj ∧
        ((⟨0, pixels1D 0, 0⟩ : Image).index ∈ adj ↔
          nn.index = (⟨0, pixels1D 0, 0⟩ : Image).index))) :=
  ⟨by decide, self_loop_iff_own_candidate prim1D builtIndex sixteenImages (by decide)
    (by decide) ⟨0, pixels1D 0, 0⟩ (by simp [sixteenImages, exampleImages])⟩

/-! ### The admission loop of MRNG -/

theorem innerLoop_eq_true_iff {P : Type} (prim : Primitives P) (p r : Image) (Lp : List Image)
    (condition : Bool) :
    MRNG.innerLoop prim p r Lp condition = true ↔
      condition = true ∧ ∀ t ∈ Lp, MRNG.dominates prim p r t = false := by
  induction Lp with
  | nil => simp [MRNG.innerLoop]
  | cons t rest ih =>
    simp only [MRNG.innerLoop]
    cases hd : MRNG.dominates prim p r t with
    | true => simp [hd]
    | false => simp [hd, ih]

/-- What the loop body does: the `if (condition)` branch runs for `r` exactly when no
earlier `r` has cleared `condition` and no `t` of the current `Lp` passes the test. -/
theorem admissionStep_condition_iff {P : Type} (prim : Primitives P) (p : Image)
    (st : Bool × ImageSet) (r : Image) :
    (MRNG.admissionStep prim p st r).1 = true ↔
      st.1 = true ∧ ∀ t ∈ st.2, MRNG.dominates prim p r t = false := by
  unfold MRNG.admissionStep
  simp only
  split
  · rename_i h
    simp only [h, true_iff]
    exact (innerLoop_eq_true_iff prim p r st.2 st.1).1 h
  · rename_i h
    rw [← innerLoop_eq_true_iff prim p r st.2 st.1]

theorem admissionStep_snd {P : Type} (prim : Primitives P) (p : Image)
    (st : Bool × ImageSet) (r : Image) :
    (MRNG.admissionStep prim p st r).2 =
      if (MRNG.admissionStep prim p st r).1 = true then setInsert r st.2 else st.2 := by
  unfold MRNG.admissionStep
  simp only
  split
  · rename_i h
    simp
  · simp

/-- C7, evaluated at the failing input: `FindNearestNeighbor` on the sixteen-point dataset
for a query at position `95`.  The LSH candidate set is `Lp = [id 12]` (position `90`,
distance `5`) and `Rp_minus_Lp` is the whole dataset in id order.  The first `r`, id 0 at
position `0`, is dominated by id 12 and clears `condition`; when `r` = id 13 (position
`100`, distance `5`) is examined the current `Lp` is still `[id 12]`, no `t` of it passes
the test `pr > pt && pr > tr`, and yet id 13 is not inserted, nor any later point: the
expanded `Lp` is `[id 12]`. -/
theorem mrng_admission_example_rejects_undominated :
    builtIndex.FindNearestNeighbors prim1D 1 (queryAt 95) = some [candidate95] ∧
    MRNG.Rp_minus_Lp sixteenImages [candidate95] = sixteenImages ∧
    sixteenImages.take 13 ++ (⟨13, pixels1D 100, 0⟩ : Image) :: sixteenImages.drop 14
      = sixteenImages ∧
    (sixteenImages.take 13).foldl (MRNG.admissionStep prim1D (queryAt 95))
      (true, [candidate95]) = (false, [candidate95]) ∧
    MRNG.dominates prim1D (queryAt 95) ⟨0, pixels1D 0, 0⟩ candidate95 = true ∧
    (∀ t ∈ [candidate95], MRNG.dominates prim1D (queryAt 95) ⟨13, pixels1D 100, 0⟩ t = false) ∧
    MRNG.admissionStep prim1D (queryAt 95) (false, [candidate95]) ⟨13, pixels1D 100, 0⟩
      = (false, [candidate95]) ∧
    exampleMRNG.expandedLp prim1D (queryAt 95) = some [candidate95] := by
  set_option maxRecDepth 100000 in
  refine ⟨by rfl, by rfl, by rfl, by rfl, by rfl, by decide, by rfl, by rfl⟩

/-- C8: in the admission loop of `Initialization` and `FindNearestNeighbor` (the loop that
`expandedLp` runs on the LSH candidates `Lp` and on `Rp_minus_Lp`), for a symmetric
distance: when the `if (condition)` branch runs for a point `r` of `Rp_minus_Lp`, that is
when `r` is inserted into `Lp`, no `t` of the set `Lp` current at that moment has
`dist(p,r) > dist(p,t)` and `dist(p,r) > dist(t,r)`. -/
theorem admitted_point_not_dominated {P : Type} (prim : Primitives P)
    (hsym : ∀ a b, prim.CalculateDistance 2 a b = prim.CalculateDistance 2 b a)
    (p : Image) (Rp_minus_Lp Lp : ImageSet) (before after : List Image) (r : Image)
    (hsplit : Rp_minus_Lp = before ++ r :: after)
    (hadmitted : (MRNG.admissionStep prim p
      (before.foldl (MRNG.admissionStep prim p) (true, Lp)) r).1 = true) :
    MRNG.admission prim p Rp_minus_Lp Lp =
      after.foldl (MRNG.admissionStep prim p)
        (true, setInsert r (before.foldl (MRNG.admissionStep prim p) (true, Lp)).2) ∧
    ∀ t ∈ (before.foldl (MRNG.admissionStep prim p) (true, Lp)).2,
      ¬ (prim.CalculateDistance 2 p.data r.data > prim.CalculateDistance 2 p.data t.data ∧
         prim.CalculateDistance 2 p.data r.data > prim.CalculateDistance 2 t.data r.data) := by
  constructor
  · have h2 := admissionStep_snd prim p (before.foldl (MRNG.admissionStep prim p) (true, Lp)) r
    rw [if_pos hadmitted] at h2
    rw [MRNG.admission, hsplit, List.foldl_append, List.foldl_cons]
    congr 1
    exact Prod.ext hadmitted h2
  · intro t ht hdom
    have h := ((admissionStep_condition_iff prim p _ r).1 hadmitted).2 t ht
    rw [hsym t.data r.data] at hdom
    simp only [MRNG.dominates, Bool.and_eq_false_imp, decide_eq_true_eq, decide_eq_false_iff_not]
      at h
    exact h hdom.1 hdom.2

/-- The statement of C8 for the point id 0 of the sixteen-point dataset: the first point
examined, id 1, is inserted, and id 0, the only member of `Lp`, does not dominate it. -/
theorem admitted_point_not_dominated_witness :
    (MRNG.admissionStep prim1D (⟨0, pixels1D 0, 0⟩ : Image)
      (([] : List Image).foldl (MRNG.admissionStep prim1D ⟨0, pixels1D 0, 0⟩)
        (true, [⟨0, pixels1D 0, 0⟩])) ⟨1, pixels1D 1, 0⟩).1 = true ∧
    ∀ t ∈ (([] : List Image).foldl (MRNG.admissionStep prim1D ⟨0, pixels1D 0, 0⟩)
        (true, [⟨0, pixels1D 0, 0⟩])).2,
      ¬ (prim1D.CalculateDistance 2 (pixels1D 0) (pixels1D 1)
            > prim1D.CalculateDistance 2 (pixels1D 0) t.data ∧
         prim1D.CalculateDistance 2 (pixels1D 0) (pixels1D 1)
            > prim1D.CalculateDistance 2 t.data (pixels1D 1)) :=
  ⟨by rfl, (admitted_point_not_dominated prim1D
    (fun a b => by
      show distance1D a b = distance1D b a
      unfold distance1D
      rw [← Int.natAbs_neg, neg_sub])
    ⟨0, pixels1D 0, 0⟩ (sixteenImages.drop 1) [⟨0, pixels1D 0, 0⟩] []
    (sixteenImages.drop 2) ⟨1, pixels1D 1, 0⟩ (by rfl) (by rfl)).2⟩

/-! ### The greedy walk of GNNS -/

/-- The expansion loop on valid neighbour indices returns; `min_dist` does not grow, and
either `curr_nn` and `min_dist` are unchanged or `curr_nn` is a node whose distance to the
query is the new `min_dist`, strictly below the old one. -/
theorem expand_spec {P : Type} (prim : Primitives P) (g : GNNS) (q : Image)
    (adj : List Nat) (hadj : ∀ k ∈ adj, k < g.input.length) (exp : Nat) (acc : ImageSet)
    (md : ℚ) (cn : Option Nat) :
    ∃ acc1 md1 cn1, GNNS.expand prim g q adj exp (acc, md, cn) = some (acc1, md1, cn1) ∧
      (Ascending acc → Ascending acc1) ∧
      ((cn1 = cn ∧ md1 = md) ∨
        ∃ nb img, cn1 = some nb ∧ g.input[nb]? = some img ∧
          md1 = prim.CalculateDistance 2 q.data img.data ∧ md1 < md) := by
  induction adj generalizing exp acc md cn with
  | nil => exact ⟨acc, md, cn, rfl, id, Or.inl ⟨rfl, rfl⟩⟩
  | cons nb rest ih =>
    have hnb : nb < g.input.length := hadj nb (List.mem_cons_self _ _)
    have hrest : ∀ k ∈ rest, k < g.input.length := fun k hk => hadj k (List.mem_cons_of_mem _ hk)
    simp only [GNNS.expand, List.getElem?_eq_getElem hnb]
    by_cases hlt : prim.CalculateDistance 2 q.data (g.input[nb]).data < md
    · simp only [hlt, if_true]
      split
      · exact ⟨_, _, _, rfl, setInsert_ascending,
          Or.inr ⟨nb, g.input[nb], rfl, List.getElem?_eq_getElem hnb, rfl, hlt⟩⟩
      · obtain ⟨acc1, md1, cn1, hrun, hasc, hres⟩ := ih hrest (exp + 1)
          (setInsert ((g.input[nb]).SetDist (prim.CalculateDistance 2 q.data (g.input[nb]).data))
            acc) (prim.CalculateDistance 2 q.data (g.input[nb]).data) (some nb)
        refine ⟨acc1, md1, cn1, hrun, fun h => hasc (setInsert_ascending h), ?_⟩
        rcases hres with ⟨h1, h2⟩ | ⟨nb1, img1, h1, h2, h3, h4⟩
        · exact Or.inr ⟨nb, g.input[nb], h1, List.getElem?_eq_getElem hnb, h2, h2 ▸ hlt⟩
        · exact Or.inr ⟨nb1, img1, h1, h2, h3, lt_trans h4 hlt⟩
    · simp only [hlt, if_false]
      split
      · exact ⟨_, _, _, rfl, setInsert_ascending, Or.inl ⟨rfl, rfl⟩⟩
      · obtain ⟨acc1, md1, cn1, hrun, hasc, hres⟩ := ih hrest (exp + 1)
          (setInsert ((g.input[nb]).SetDist (prim.CalculateDistance 2 q.data (g.input[nb]).data))
            acc) md cn
        exact ⟨acc1, md1, cn1, hrun, fun h => hasc (setInsert_ascending h), hres⟩

/-- A greedy step from a dataset node returns: either the walk stays (same node, same
`min_dist`) or it moves to a dataset node whose distance to the query is the new `min_dist`,
strictly below the old one. -/
theorem greedyStep_spec {P : Type} (prim : Primitives P) (g : GNNS) (q : Image)
    (hlen : g.input.length ≤ g.graph.length)
    (hedges : ∀ (i : Nat) (adj : List Nat), g.graph[i]? = some adj →
      ∀ k ∈ adj, k < g.input.length)
    (w : GNNS.Walk) (hw : w.index < g.input.length) :
    ∃ w1 moved, GNNS.greedyStep prim g q w = some (w1, moved) ∧
      (Ascending w.possible_nearest_neighbors → Ascending w1.possible_nearest_neighbors) ∧
      (moved = false → w1.index = w.index ∧ w1.min_dist = w.min_dist) ∧
      (moved = true → ∃ img, g.input[w1.index]? = some img ∧
        w1.min_dist = prim.CalculateDistance 2 q.data img.data ∧ w1.min_dist < w.min_dist) := by
  have hgi : w.index < g.graph.length := lt_of_lt_of_le hw hlen
  have hadj := hedges w.index _ (List.getElem?_eq_getElem hgi)
  obtain ⟨acc1, md1, cn1, hrun, hasc, hres⟩ := expand_spec prim g q _ hadj 0
    w.possible_nearest_neighbors w.min_dist none
  simp only [GNNS.greedyStep, List.getElem?_eq_getElem hgi, hrun]
  rcases hres with ⟨h1, h2⟩ | ⟨nb, img, h1, h2, h3, h4⟩
  · subst h1
    exact ⟨⟨w.index, md1, acc1⟩, false, rfl, hasc, fun _ => ⟨rfl, h2⟩, fun h => by cases h⟩
  · subst h1
    exact ⟨⟨nb, md1, acc1⟩, true, rfl, hasc, (fun h => by cases h), fun _ => ⟨img, h2, h3, h4⟩⟩

theorem greedyLoop_succ_of_stay {P : Type} (prim : Primitives P) (g : GNNS) (q : Image)
    (w w1 : GNNS.Walk) (h : GNNS.greedyStep prim g q w = some (w1, false)) (k : Nat) :
    GNNS.greedyLoop prim g q (k + 1) w = some w1 := by
  simp only [GNNS.greedyLoop, h]

theorem greedyLoop_succ_of_move {P : Type} (prim : Primitives P) (g : GNNS) (q : Image)
    (w w1 : GNNS.Walk) (h : GNNS.greedyStep prim g q w = some (w1, true)) (k : Nat) :
    GNNS.greedyLoop prim g q (k + 1) w = GNNS.greedyLoop prim g q k w1 := by
  simp only [GNNS.greedyLoop, h]

/-- The walk from a dataset node whose distance is `min_dist`: the states `a` after `k`
steps and `b` after `k + 1` steps exist, `min_dist` is the distance of the current node in
both, it does not grow from `a` to `b`, a change of node lowers it strictly, and from a
state where the step stays the node no longer changes. -/
theorem greedyLoop_descends {P : Type} (prim : Primitives P) (g : GNNS) (q : Image)
    (hlen : g.input.length ≤ g.graph.length)
    (hedges : ∀ (i : Nat) (adj : List Nat), g.graph[i]? = some adj →
      ∀ k ∈ adj, k < g.input.length)
    (k : Nat) (w : GNNS.Walk)
    (hinv : ∃ img, g.input[w.index]? = some img ∧
      w.min_dist = prim.CalculateDistance 2 q.data img.data) :
    ∃ a b, GNNS.greedyLoop prim g q k w = some a ∧
      GNNS.greedyLoop prim g q (k + 1) w = some b ∧
      (∃ img, g.input[a.index]? = some img ∧
        a.min_dist = prim.CalculateDistance 2 q.data img.data) ∧
      (∃ img, g.input[b.index]? = some img ∧
        b.min_dist = prim.CalculateDistance 2 q.data img.data) ∧
      b.min_dist ≤ a.min_dist ∧
      (b.index ≠ a.index → b.min_dist < a.min_dist) ∧
      (∀ w1, GNNS.greedyStep prim g q a = some (w1, false) →
        ∀ j, ∃ c, GNNS.greedyLoop prim g q (k + 1 + j) w = some c ∧ c.index = a.index) := by
  induction k generalizing w with
  | zero =>
    obtain ⟨img, himg, hmd⟩ := hinv
    have hw : w.index < g.input.length := by
      by_contra hge
      rw [List.getElem?_eq_none (not_lt.1 hge)] at himg
      cases himg
    obtain ⟨w1, moved, hstep, _, hstay, hmove⟩ := greedyStep_spec prim g q hlen hedges w hw
    cases moved with
    | false =>
      obtain ⟨h1, h2⟩ := hstay rfl
      refine ⟨w, w1, rfl, greedyLoop_succ_of_stay prim g q w w1 hstep 0, ⟨img, himg, hmd⟩,
        ⟨img, h1 ▸ himg, h2 ▸ hmd⟩, le_of_eq h2, fun hne => absurd h1 hne, ?_⟩
      intro w2 hw2 j
      rw [hstep] at hw2
      simp only [Option.some.injEq, Prod.mk.injEq, and_true] at hw2
      have hj : 0 + 1 + j = j + 1 := by omega
      rw [hj]
      exact ⟨w1, greedyLoop_succ_of_stay prim g q w w1 hstep j, h1⟩
    | true =>
      obtain ⟨img1, h1, h2, h3⟩ := hmove rfl
      refine ⟨w, w1, rfl, ?_, ⟨img, himg, hmd⟩, ⟨img1, h1, h2⟩, le_of_lt h3, fun _ => h3, ?_⟩
      · rw [greedyLoop_succ_of_move prim g q w w1 hstep 0]
        rfl
      · intro w2 hw2
        rw [hstep] at hw2
        simp at hw2
  | succ k ih =>
    obtain ⟨img, himg, hmd⟩ := hinv
    have hw : w.index < g.input.length := by
      by_contra hge
      rw [List.getElem?_eq_none (not_lt.1 hge)] at himg
      cases himg
    obtain ⟨w1, moved, hstep, _, hstay, hmove⟩ := greedyStep_spec prim g q hlen hedges w hw
    cases moved with
    | false =>
      obtain ⟨h1, h2⟩ := hstay rfl
      refine ⟨w1, w1, greedyLoop_succ_of_stay prim g q w w1 hstep k,
        greedyLoop_succ_of_stay prim g q w w1 hstep (k + 1), ⟨img, h1 ▸ himg, h2 ▸ hmd⟩,
        ⟨img, h1 ▸ himg, h2 ▸ hmd⟩, le_refl _, fun hne => absurd rfl hne, ?_⟩
      intro _ _ j
      have hj : k + 1 + 1 + j = (k + 1 + j) + 1 := by omega
      rw [hj]
      exact ⟨w1, greedyLoop_succ_of_stay prim g q w w1 hstep _, rfl⟩
    | true =>
      obtain ⟨img1, h1, h2, _⟩ := hmove rfl
      obtain ⟨a, b, ha, hb, hia, hib, hle, hlt, hstop⟩ := ih w1 ⟨img1, h1, h2⟩
      refine ⟨a, b, ?_, ?_, hia, hib, hle, hlt, ?_⟩
      · rw [greedyLoop_succ_of_move prim g q w w1 hstep k]
        exact ha
      · rw [greedyLoop_succ_of_move prim g q w w1 hstep (k + 1)]
        exact hb
      · intro w2 hw2 j
        have hj : k + 1 + 1 + j = (k + 1 + j) + 1 := by omega
        rw [hj, greedyLoop_succ_of_move prim g q w w1 hstep (k + 1 + j)]
        exact hstop w2 hw2 j

/-- C9: a restart of GNNS `FindNearestNeighbors` from a dataset node, on a graph with an
adjacency list for every node and edges to dataset nodes only, returns; for every `k`, the
node `b` current after `k + 1` greedy steps is not farther from the query than the node `a`
current after `k` steps (strictly nearer when the walk moved), and when the step from `a`
finds a local minimum (it stays), the current node is `a` after every further step. -/
theorem gnns_restart_descends {P : Type} (prim : Primitives P) (g : GNNS) (q : Image)
    (start : Nat) (acc : ImageSet)
    (hlen : g.input.length ≤ g.graph.length)
    (hvalid : ∀ adj ∈ g.graph, ∀ k ∈ adj, k < g.input.length)
    (hstart : start < g.input.length) :
    ∃ w0, GNNS.startWalk prim g q start acc = some w0 ∧ w0.index = start ∧
      (∃ res, GNNS.restart prim g q start acc = some res) ∧
      ∀ k, ∃ a b imgA imgB, GNNS.greedyLoop prim g q k w0 = some a ∧
        GNNS.greedyLoop prim g q (k + 1) w0 = some b ∧
        g.input[a.index]? = some imgA ∧ g.input[b.index]? = some imgB ∧
        prim.CalculateDistance 2 q.data imgB.data ≤ prim.CalculateDistance 2 q.data imgA.data ∧
        (b.index ≠ a.index →
          prim.CalculateDistance 2 q.data imgB.data
            < prim.CalculateDistance 2 q.data imgA.data) ∧
        (∀ w1, GNNS.greedyStep prim g q a = some (w1, false) →
          ∀ j, ∃ c, GNNS.greedyLoop prim g q (k + 1 + j) w0 = some c ∧ c.index = a.index) := by
  have hedges : ∀ (i : Nat) (adj : List Nat), g.graph[i]? = some adj →
      ∀ k ∈ adj, k < g.input.length := fun i adj h => hvalid adj (List.getElem?_mem h)
  have hw0 : GNNS.startWalk prim g q start acc = some
      ⟨start, prim.CalculateDistance 2 q.data (g.input[start]).data,
        setInsert ((g.input[start]).SetDist
          (prim.CalculateDistance 2 q.data (g.input[start]).data)) acc⟩ := by
    simp only [GNNS.startWalk, List.getElem?_eq_getElem hstart]
  have hinv : ∃ img, g.input[(⟨start, prim.CalculateDistance 2 q.data (g.input[start]).data,
        setInsert ((g.input[start]).SetDist
          (prim.CalculateDistance 2 q.data (g.input[start]).data)) acc⟩ : GNNS.Walk).index]?
        = some img ∧
      (⟨start, prim.CalculateDistance 2 q.data (g.input[start]).data,
        setInsert ((g.input[start]).SetDist
          (prim.CalculateDistance 2 q.data (g.input[start]).data)) acc⟩ : GNNS.Walk).min_dist
        = prim.CalculateDistance 2 q.data img.data :=
    ⟨g.input[start], List.getElem?_eq_getElem hstart, rfl⟩
  refine ⟨_, hw0, rfl, ?_, ?_⟩
  · obtain ⟨a, _, ha, _⟩ := greedyLoop_descends prim g q hlen hedges GREEDY_STEPS _ hinv
    exact ⟨a.possible_nearest_neighbors, by simp only [GNNS.restart, hw0, ha]⟩
  · intro k
    obtain ⟨a, b, ha, hb, ⟨imgA, hia, hma⟩, ⟨imgB, hib, hmb⟩, hle, hlt, hstop⟩ :=
      greedyLoop_descends prim g q hlen hedges k _ hinv
    exact ⟨a, b, imgA, imgB, ha, hb, hia, hib, hmb ▸ hma ▸ hle,
      fun hne => hmb ▸ hma ▸ hlt hne, hstop⟩

/-- The graph of `exampleGNNS` is the one built by `Initialization`. -/
theorem exampleGNNS_built :
    GNNS.Initialization prim1D builtIndex (GNNS.new sixteenImages 3 2 1) = some exampleGNNS := by
  set_option maxRecDepth 100000 in rfl

/-- The statement of C9 on `exampleGNNS`, for the query at position `0` and the start node
id 10: with two expansions per step the walk goes down 10, 9, 8, ... to node 3, where the
two neighbours examined (3 and 4) are not nearer and the restart ends. -/
theorem gnns_restart_descends_witness :
    (10 < exampleGNNS.input.length) ∧
    (GNNS.startWalk prim1D exampleGNNS (queryAt 0) 10 []).bind
      (fun w0 => (GNNS.greedyLoop prim1D exampleGNNS (queryAt 0) 3 w0).map
        (fun w => (w.index, w.min_dist))) = some (7, 40) ∧
    (GNNS.startWalk prim1D exampleGNNS (queryAt 0) 10 []).bind
      (fun w0 => (GNNS.greedyLoop prim1D exampleGNNS (queryAt 0) GREEDY_STEPS w0).map
        (fun w => (w.index, w.min_dist))) = some (3, 10) ∧
    ∃ w0, GNNS.startWalk prim1D exampleGNNS (queryAt 0) 10 [] = some w0 ∧ w0.index = 10 ∧
      (∃ res, GNNS.restart prim1D exampleGNNS (queryAt 0) 10 [] = some res) ∧
      ∀ k, ∃ a b imgA imgB, GNNS.greedyLoop prim1D exampleGNNS (queryAt 0) k w0 = some a ∧
        GNNS.greedyLoop prim1D exampleGNNS (queryAt 0) (k + 1) w0 = some b ∧
        exampleGNNS.input[a.index]? = some imgA ∧ exampleGNNS.input[b.index]? = some imgB ∧
        prim1D.CalculateDistance 2 (queryAt 0).data imgB.data
          ≤ prim1D.CalculateDistance 2 (queryAt 0).data imgA.data ∧
        (b.index ≠ a.index →
          prim1D.CalculateDistance 2 (queryAt 0).data imgB.data
            < prim1D.CalculateDistance 2 (queryAt 0).data imgA.data) ∧
        (∀ w1, GNNS.greedyStep prim1D exampleGNNS (queryAt 0) a = some (w1, false) →
          ∀ j, ∃ c, GNNS.greedyLoop prim1D exampleGNNS (queryAt 0) (k + 1 + j) w0 = some c ∧
            c.index = a.index) :=
  ⟨by decide, by rfl, by rfl,
    gnns_restart_descends prim1D exampleGNNS (queryAt 0) 10 [] (by decide) (by decide)
      (by decide)⟩

/-! ### The accumulator of GNNS and its truncation -/

theorem expand_ascending {P : Type} (prim : Primitives P) (g : GNNS) (q : Image)
    (adj : List Nat) (exp : Nat) (st st1 : ImageSet × ℚ × Option Nat)
    (h : GNNS.expand prim g q adj exp st = some st1) (hasc : Ascending st.1) :
    Ascending st1.1 := by
  induction adj generalizing exp st with
  | nil =>
    simp only [GNNS.expand, Option.some.injEq] at h
    exact h ▸ hasc
  | cons nb rest ih =>
    obtain ⟨acc, md, cn⟩ := st
    simp only [GNNS.expand] at h
    cases himg : g.input[nb]? with
    | none => simp [himg] at h
    | some img =>
      simp only [himg] at h
      split at h
      · simp only [Option.some.injEq] at h
        rw [← h]
        split <;> exact setInsert_ascending hasc
      · refine ih _ _ h ?_
        split <;> exact setInsert_ascending hasc

theorem greedyStep_ascending {P : Type} (prim : Primitives P) (g : GNNS) (q : Image)
    (w w1 : GNNS.Walk) (moved : Bool) (h : GNNS.greedyStep prim g q w = some (w1, moved))
    (hasc : Ascending w.possible_nearest_neighbors) :
    Ascending w1.possible_nearest_neighbors := by
  unfold GNNS.greedyStep at h
  cases hadj : g.graph[w.index]? with
  | none => simp [hadj] at h
  | some adj =>
    simp only [hadj] at h
    cases hrun : GNNS.expand prim g q adj 0 (w.possible_nearest_neighbors, w.min_dist, none) with
    | none => simp [hrun] at h
    | some st =>
      obtain ⟨acc, md, cn⟩ := st
      have hacc : Ascending acc := expand_ascending prim g q adj 0 _ _ hrun hasc
      cases cn with
      | none =>
        simp only [hrun, Option.some.injEq, Prod.mk.injEq] at h
        rw [← h.1]
        exact hacc
      | some nb =>
        simp only [hrun, Option.some.injEq, Prod.mk.injEq] at h
        rw [← h.1]
        exact hacc

theorem greedyLoop_ascending {P : Type} (prim : Primitives P) (g : GNNS) (q : Image)
    (k : Nat) (w w1 : GNNS.Walk) (h : GNNS.greedyLoop prim g q k w = some w1)
    (hasc : Ascending w.possible_nearest_neighbors) :
    Ascending w1.possible_nearest_neighbors := by
  induction k generalizing w with
  | zero =>
    simp only [GNNS.greedyLoop, Option.some.injEq] at h
    exact h ▸ hasc
  | succ k ih =>
    simp only [GNNS.greedyLoop] at h
    cases hstep : GNNS.greedyStep prim g q w with
    | none => simp [hstep] at h
    | some r =>
      obtain ⟨w2, moved⟩ := r
      have h2 := greedyStep_ascending prim g q w w2 moved hstep hasc
      cases moved with
      | false =>
        simp only [hstep, Option.some.injEq] at h
        exact h ▸ h2
      | true =>
        simp only [hstep] at h
        exact ih w2 h h2

theorem restart_ascending {P : Type} (prim : Primitives P) (g : GNNS) (q : Image)
    (index : Nat) (acc acc1 : ImageSet) (h : GNNS.restart prim g q index acc = some acc1)
    (hasc : Ascending acc) : Ascending acc1 := by
  unfold GNNS.restart at h
  cases hw : GNNS.startWalk prim g q index acc with
  | none => simp [hw] at h
  | some w =>
    simp only [hw] at h
    cases hl : GNNS.greedyLoop prim g q GREEDY_STEPS w with
    | none => simp [hl] at h
    | some w1 =>
      simp only [hl, Option.some.injEq] at h
      rw [← h]
      refine greedyLoop_ascending prim g q _ w w1 hl ?_
      unfold GNNS.startWalk at hw
      cases himg : g.input[index]? with
      | none => simp [himg] at hw
      | some img =>
        simp only [himg, Option.some.injEq] at hw
        rw [← hw]
        exact setInsert_ascending hasc

theorem restarts_ascending {P : Type} (prim : Primitives P) (g : GNNS) (q : Image)
    (gen : Nat → Nat) (l : List Nat) (acc acc1 : ImageSet)
    (h : GNNS.restarts prim g q gen l acc = some acc1) (hasc : Ascending acc) :
    Ascending acc1 := by
  induction l generalizing acc with
  | nil =>
    simp only [GNNS.restarts, Option.some.injEq] at h
    exact h ▸ hasc
  | cons i rest ih =>
    simp only [GNNS.restarts] at h
    cases hr : GNNS.restart prim g q (gen i) acc with
    | none => simp [hr] at h
    | some acc2 =>
      simp only [hr] at h
      exact ih acc2 h (restart_ascending prim g q _ acc acc2 hr hasc)

theorem restart_isSome {P : Type} (prim : Primitives P) (g : GNNS) (q : Image)
    (start : Nat) (acc : ImageSet) (hlen : g.input.length ≤ g.graph.length)
    (hvalid : ∀ adj ∈ g.graph, ∀ k ∈ adj, k < g.input.length)
    (hstart : start < g.input.length) :
    ∃ res, GNNS.restart prim g q start acc = some res := by
  have hedges : ∀ (i : Nat) (adj : List Nat), g.graph[i]? = some adj →
      ∀ k ∈ adj, k < g.input.length := fun i adj h => hvalid adj (List.getElem?_mem h)
  obtain ⟨a, _, ha, _⟩ := greedyLoop_descends prim g q hlen hedges GREEDY_STEPS
    ⟨start, prim.CalculateDistance 2 q.data (g.input[start]).data,
      setInsert ((g.input[start]).SetDist
        (prim.CalculateDistance 2 q.data (g.input[start]).data)) acc⟩
    ⟨g.input[start], List.getElem?_eq_getElem hstart, rfl⟩
  exact ⟨a.possible_nearest_neighbors, by
    simp only [GNNS.restart, GNNS.startWalk, List.getElem?_eq_getElem hstart, ha]⟩

theorem restarts_isSome {P : Type} (prim : Primitives P) (g : GNNS) (q : Image)
    (gen : Nat → Nat) (l : List Nat) (acc : ImageSet) (hlen : g.input.length ≤ g.graph.length)
    (hvalid : ∀ adj ∈ g.graph, ∀ k ∈ adj, k < g.input.length)
    (hgen : ∀ i ∈ l, gen i < g.input.length) :
    ∃ res, GNNS.restarts prim g q gen l acc = some res := by
  induction l generalizing acc with
  | nil => exact ⟨acc, rfl⟩
  | cons i rest ih =>
    obtain ⟨acc1, h1⟩ := restart_isSome prim g q (gen i) acc hlen hvalid
      (hgen i (List.mem_cons_self _ _))
    simp only [GNNS.restarts, h1]
    exact ih acc1 (fun j hj => hgen j (List.mem_cons_of_mem _ hj))

theorem setInsert_of_all_before (x : Image) (s : ImageSet)
    (h : ∀ y ∈ s, ImageComparator y x = true) : setInsert x s = s ++ [x] := by
  induction s with
  | nil => rfl
  | cons y ys ih =>
    have hy : ImageComparator y x = true := h y (List.mem_cons_self _ _)
    simp only [setInsert, imageComparator_asymm hy, hy, if_true, List.cons_append]
    rw [ih (fun z hz => h z (List.mem_cons_of_mem _ hz))]
    simp

/-- The copy loop, run on the rest of an ascending accumulator of which `nn_num` entries
have been copied, appends the next entries until `no_nearest_neighbours` are held. -/
theorem firstResults_eq (N : Int) (rest res : List Image) (k : Nat) (hk : k = res.length)
    (hkN : (k : Int) ≤ N) (hasc : Ascending (res ++ rest)) :
    GNNS.firstResults N rest k res = res ++ rest.take (N.toNat - k) := by
  induction rest generalizing res k with
  | nil => simp [GNNS.firstResults]
  | cons nn rest ih =>
    simp only [GNNS.firstResults]
    by_cases heq : (k : Int) = N
    · have h0 : N.toNat - k = 0 := by omega
      simp [heq, h0]
    · have hins : setInsert nn res = res ++ [nn] := by
        apply setInsert_of_all_before
        intro y hy
        exact (List.pairwise_append.1 hasc).2.2 y hy nn (List.mem_cons_self _ _)
      have hsucc : N.toNat - k = (N.toNat - (k + 1)) + 1 := by omega
      rw [if_neg heq, hins, ih (res ++ [nn]) (k + 1) (by simp [hk]) (by omega)
        (by simpa using hasc), hsucc, List.take_succ_cons]
      simp

/-- C10: for `N ≥ 0` and every sequence `gen` of start nodes, when the restarts leave the
accumulator `A`, the accumulator is ascending in `(distance, id)` and
`FindNearestNeighbors` returns its first `min(N, |A|)` entries in that order, the whole of
`A` when `|A| < N`; when the restarts are undefined so is the result, and they are defined
on a graph with an adjacency list for every node and edges to dataset nodes only when every
start node is a dataset node. -/
theorem gnns_result_is_prefix {P : Type} (prim : Primitives P) (g : GNNS) (N : Int)
    (q : Image) (gen : Nat → Nat) (hN : 0 ≤ N) :
    (∀ A, g.accumulate prim q gen = some A →
      Ascending A ∧
      g.FindNearestNeighbors prim N q gen = some (A.take N.toNat) ∧
      (A.take N.toNat).length = min N.toNat A.length ∧
      ((A.length : Int) < N → A.take N.toNat = A)) ∧
    (g.accumulate prim q gen = none → g.FindNearestNeighbors prim N q gen = none) ∧
    (g.input.length ≤ g.graph.length →
      (∀ adj ∈ g.graph, ∀ k ∈ adj, k < g.input.length) →
      (∀ i, i < g.no_restarts → gen i < g.input.length) →
      ∃ A, g.accumulate prim q gen = some A) := by
  refine ⟨?_, ?_, ?_⟩
  · intro A hA
    have hasc : Ascending A :=
      restarts_ascending prim g q gen _ [] A hA List.Pairwise.nil
    refine ⟨hasc, ?_, List.length_take _ _, ?_⟩
    · have h := firstResults_eq N A [] 0 rfl (by simpa using hN) (by simpa using hasc)
      simp only [GNNS.FindNearestNeighbors, hA, h, List.nil_append, Nat.sub_zero]
    · intro hlt
      exact List.take_of_length_le (by omega)
  · intro h
    simp only [GNNS.FindNearestNeighbors, h]
  · intro hlen hvalid hgen
    exact restarts_isSome prim g q gen _ [] hlen hvalid
      (fun i hi => hgen i (List.mem_range.1 hi))

/-- The statement of C10 on `exampleGNNS`: query at position `0`, one restart from node 10,
`N = 2`; the two nearest nodes met on the walk are id 3 and id 4. -/
theorem gnns_result_is_prefix_witness :
    (0 : Int) ≤ 2 ∧
    exampleGNNS.FindNearestNeighbors prim1D 2 (queryAt 0) (fun _ => 10)
      = (exampleGNNS.accumulate prim1D (queryAt 0) (fun _ => 10)).map (List.take 2) ∧
    (exampleGNNS.FindNearestNeighbors prim1D 2 (queryAt 0) (fun _ => 10)).map
      (List.map Image.index) = some [3, 4] := by
  have h := gnns_result_is_prefix prim1D exampleGNNS 2 (queryAt 0) (fun _ => 10) (by decide)
  obtain ⟨A, hA⟩ := h.2.2 (by decide) (by decide)
    (fun i _ => by show 10 < exampleGNNS.input.length; decide)
  refine ⟨by decide, ?_, by rfl⟩
  rw [hA]
  exact (h.1 A hA).2.1

/-! ### What the bounded scan holds -/

theorem ascending_dropLast {s : ImageSet} (h : Ascending s) : Ascending s.dropLast :=
  List.Pairwise.sublist (List.dropLast_sublist s) h

theorem headDist_setInsert (x : Image) (e : ImageSet) :
    headDist (setInsert x e) ≤ x.dist ∧ (e ≠ [] → headDist (setInsert x e) ≤ headDist e) := by
  cases e with
  | nil => simp [setInsert, headDist]
  | cons y ys =>
    simp only [setInsert]
    by_cases h1 : ImageComparator x y = true
    · simp only [h1, if_true, headDist, List.head?_cons, le_refl, true_and]
      intro _
      rcases (imageComparator_iff x y).1 h1 with h | ⟨h, _⟩
      · exact le_of_lt h
      · exact le_of_eq h
    · have h2 : ¬ x.dist < y.dist := fun h => h1 ((imageComparator_iff x y).2 (Or.inl h))
      have h3 : ImageComparator x y = false := Bool.eq_false_iff.2 h1
      rw [h3]
      by_cases h4 : ImageComparator y x = true
      · simp [h4, headDist, not_lt.1 h2]
      · simp [h4, headDist, not_lt.1 h2]

theorem headDist_le_lastDist {s : ImageSet} (h : Ascending s) : headDist s ≤ lastDist s := by
  cases s with
  | nil => simp [headDist, lastDist]
  | cons y ys =>
    cases hl : (y :: ys).getLast? with
    | none => simp at hl
    | some l =>
      simp only [headDist, lastDist, hl, List.head?_cons]
      have hmem : l ∈ y :: ys := List.mem_of_getLast?_eq_some hl
      rcases List.mem_cons.1 hmem with h1 | h1
      · rw [h1]
      · rcases (imageComparator_iff y l).1 ((List.pairwise_cons.1 h).1 l h1) with h2 | ⟨h2, _⟩
        · exact le_of_lt h2
        · exact le_of_eq h2

theorem dropLast_head_last (s : ImageSet) :
    (s.dropLast = [] → lastDist s = headDist s) ∧
    (s.dropLast ≠ [] → headDist s.dropLast = headDist s) := by
  cases s with
  | nil => simp [headDist, lastDist]
  | cons y ys =>
    cases ys with
    | nil => simp [headDist, lastDist]
    | cons z zs => simp [headDist, List.dropLast]

theorem setInsert_ne_nil (x : Image) (s : ImageSet) : setInsert x s ≠ [] := by
  obtain ⟨y, hy, _⟩ := exists_equiv_mem_setInsert x s
  exact List.ne_nil_of_mem hy

theorem nearestStepValue_of_lt {P : Type} (prim : Primitives P) (N : Int) (q : Image)
    (st : ImageSet × ℚ) (img : Image) (hlt : prim.CalculateDistance 2 q.data img.data < st.2) :
    nearestStepValue prim N q st img =
      (setInsert (img.SetDist (prim.CalculateDistance 2 q.data img.data))
          (if (st.1.length : Int) = N then st.1.dropLast else st.1),
        lastDist (setInsert (img.SetDist (prim.CalculateDistance 2 q.data img.data))
          (if (st.1.length : Int) = N then st.1.dropLast else st.1))) := by
  unfold nearestStepValue
  simp only [hlt, if_true, lastDist]
  cases hl : (setInsert (img.SetDist (prim.CalculateDistance 2 q.data img.data))
      (if (st.1.length : Int) = N then st.1.dropLast else st.1)).getLast? with
  | none => exact absurd (List.getLast?_eq_none_iff.1 hl) (setInsert_ne_nil _ _)
  | some l => rfl

theorem nearestStepValue_of_not_lt {P : Type} (prim : Primitives P) (N : Int) (q : Image)
    (st : ImageSet × ℚ) (img : Image)
    (hlt : ¬ prim.CalculateDistance 2 q.data img.data < st.2) :
    nearestStepValue prim N q st img = st := by
  unfold nearestStepValue
  simp only [hlt, if_false]

theorem lastDist_le_initial {s : ImageSet} (h : ∀ y ∈ s, y.dist < initialMinDist) :
    lastDist s ≤ initialMinDist := by
  unfold lastDist
  cases hl : s.getLast? with
  | none => exact le_refl _
  | some l => exact le_of_lt (h l (List.mem_of_getLast?_eq_some hl))

/-- The invariant of the bounded scan, through one step: the set stays ascending, `min_dist`
is the distance of its last element, every element is below the initial `min_dist`, every
element is an old one or the image just scanned, and the distance of the first element is
at most the distance of the image just scanned and does not grow. -/
theorem nearestStepValue_inv {P : Type} (prim : Primitives P) (N : Int) (q : Image)
    (st : ImageSet × ℚ) (img : Image) (hasc : Ascending st.1) (hmin : st.2 = lastDist st.1)
    (hbelow : ∀ y ∈ st.1, y.dist < initialMinDist) :
    Ascending (nearestStepValue prim N q st img).1 ∧
    (nearestStepValue prim N q st img).2 = lastDist (nearestStepValue prim N q st img).1 ∧
    (∀ y ∈ (nearestStepValue prim N q st img).1, y.dist < initialMinDist) ∧
    (∀ y ∈ (nearestStepValue prim N q st img).1,
      y ∈ st.1 ∨ y = img.SetDist (prim.CalculateDistance 2 q.data img.data)) ∧
    headDist (nearestStepValue prim N q st img).1 ≤ prim.CalculateDistance 2 q.data img.data ∧
    (∀ c, headDist st.1 ≤ c → headDist (nearestStepValue prim N q st img).1 ≤ c) := by
  by_cases hlt : prim.CalculateDistance 2 q.data img.data < st.2
  · rw [nearestStepValue_of_lt prim N q st img hlt]
    have he : ∃ e : ImageSet, e = (if (st.1.length : Int) = N then st.1.dropLast else st.1) ∧
        Ascending e ∧ (∀ y ∈ e, y ∈ st.1) ∧ (e = [] → lastDist st.1 = headDist st.1) ∧
        (e ≠ [] → headDist e = headDist st.1) := by
      refine ⟨_, rfl, ?_⟩
      split
      · exact ⟨ascending_dropLast hasc, fun y hy => List.mem_of_mem_dropLast hy,
          (dropLast_head_last st.1).1, (dropLast_head_last st.1).2⟩
      · refine ⟨hasc, fun y hy => hy, ?_, fun _ => rfl⟩
        intro h0
        rw [h0]
        rfl
    obtain ⟨e, hedef, heasc, hesub, henil, hecons⟩ := he
    rw [← hedef]
    have hd0 : prim.CalculateDistance 2 q.data img.data < initialMinDist :=
      lt_of_lt_of_le hlt (hmin ▸ lastDist_le_initial hbelow)
    have hhead := headDist_setInsert (img.SetDist (prim.CalculateDistance 2 q.data img.data)) e
    refine ⟨setInsert_ascending heasc, rfl, ?_, ?_, hhead.1, ?_⟩
    · intro y hy
      rcases mem_of_mem_setInsert hy with h1 | h1
      · rw [h1]
        exact hd0
      · exact hbelow y (hesub y h1)
    · intro y hy
      rcases mem_of_mem_setInsert hy with h1 | h1
      · exact Or.inr h1
      · exact Or.inl (hesub y h1)
    · intro c hc
      by_cases h0 : e = []
      · refine le_trans hhead.1 (le_trans (le_of_lt ?_) hc)
        show prim.CalculateDistance 2 q.data img.data < headDist st.1
        rw [← henil h0, ← hmin]
        exact hlt
      · exact le_trans (hhead.2 h0) (hecons h0 ▸ hc)
  · rw [nearestStepValue_of_not_lt prim N q st img hlt]
    refine ⟨hasc, hmin, hbelow, fun y hy => Or.inl hy, ?_, fun c hc => hc⟩
    exact le_trans (headDist_le_lastDist hasc) (hmin ▸ not_lt.1 hlt)

/-- The invariant through a scan of a list of images. -/
theorem foldl_nearestStepValue_inv {P : Type} (prim : Primitives P) (N : Int) (q : Image)
    (l : List Image) (st : ImageSet × ℚ) (hasc : Ascending st.1) (hmin : st.2 = lastDist st.1)
    (hbelow : ∀ y ∈ st.1, y.dist < initialMinDist) :
    Ascending (l.foldl (nearestStepValue prim N q) st).1 ∧
    (l.foldl (nearestStepValue prim N q) st).2 = lastDist (l.foldl (nearestStepValue prim N q) st).1 ∧
    (∀ y ∈ (l.foldl (nearestStepValue prim N q) st).1, y.dist < initialMinDist) ∧
    (∀ y ∈ (l.foldl (nearestStepValue prim N q) st).1,
      y ∈ st.1 ∨ ∃ x ∈ l, y = x.SetDist (prim.CalculateDistance 2 q.data x.data)) ∧
    (∀ x ∈ l, headDist (l.foldl (nearestStepValue prim N q) st).1
      ≤ prim.CalculateDistance 2 q.data x.data) ∧
    (∀ c, headDist st.1 ≤ c → headDist (l.foldl (nearestStepValue prim N q) st).1 ≤ c) := by
  induction l generalizing st with
  | nil => exact ⟨hasc, hmin, hbelow, fun y hy => Or.inl hy, (fun x hx => by cases hx),
      fun c hc => hc⟩
  | cons a l ih =>
    obtain ⟨h1, h2, h3, h4, h5, h6⟩ := nearestStepValue_inv prim N q st a hasc hmin hbelow
    obtain ⟨g1, g2, g3, g4, g5, g6⟩ := ih (nearestStepValue prim N q st a) h1 h2 h3
    refine ⟨g1, g2, g3, ?_, ?_, fun c hc => g6 c (h6 c hc)⟩
    · intro y hy
      rcases g4 y hy with k1 | ⟨x, hx, k1⟩
      · rcases h4 y k1 with k2 | k2
        · exact Or.inl k2
        · exact Or.inr ⟨a, List.mem_cons_self _ _, k2⟩
      · exact Or.inr ⟨x, List.mem_cons_of_mem _ hx, k1⟩
    · intro x hx
      rcases List.mem_cons.1 hx with k1 | k1
      · rw [k1]
        exact g6 _ h5
      · exact g5 x k1

/-- The invariant through the loop over the hash tables of `FindAllNearestNeighbors`. -/
theorem findAllLoop_inv {P : Type} (prim : Primitives P) (lsh : LSH P) (q : Image)
    (tables : List Nat) (st res : ImageSet × ℚ)
    (hrun : lsh.findAllLoop prim q tables st = some res)
    (hasc : Ascending st.1) (hmin : st.2 = lastDist st.1)
    (hbelow : ∀ y ∈ st.1, y.dist < initialMinDist) :
    Ascending res.1 ∧ res.2 = lastDist res.1 ∧ (∀ y ∈ res.1, y.dist < initialMinDist) ∧
    (∀ y ∈ res.1, y ∈ st.1 ∨ ∃ i ∈ tables, ∃ b, lsh.queryBucket prim q i = some b ∧
      ∃ x ∈ b, y = x.SetDist (prim.CalculateDistance 2 q.data x.data)) ∧
    (∀ i ∈ tables, ∀ b, lsh.queryBucket prim q i = some b →
      ∀ x ∈ b, headDist res.1 ≤ prim.CalculateDistance 2 q.data x.data) ∧
    (∀ c, headDist st.1 ≤ c → headDist res.1 ≤ c) := by
  induction tables generalizing st with
  | nil =>
    simp only [LSH.findAllLoop, Option.some.injEq] at hrun
    subst hrun
    exact ⟨hasc, hmin, hbelow, fun y hy => Or.inl hy, (fun i hi => by cases hi),
      fun c hc => hc⟩
  | cons i rest ih =>
    obtain ⟨b, hb, _, hrest⟩ := findAllLoop_of_cons prim lsh q i rest st res hrun
    obtain ⟨h1, h2, h3, h4, h5, h6⟩ :=
      foldl_nearestStepValue_inv prim lsh.number_of_nearest q b st hasc hmin hbelow
    obtain ⟨g1, g2, g3, g4, g5, g6⟩ := ih _ hrest h1 h2 h3
    refine ⟨g1, g2, g3, ?_, ?_, fun c hc => g6 c (h6 c hc)⟩
    · intro y hy
      rcases g4 y hy with k1 | ⟨j, hj, bj, hbj, hx⟩
      · rcases h4 y k1 with k2 | k2
        · exact Or.inl k2
        · exact Or.inr ⟨i, List.mem_cons_self _ _, b, hb, k2⟩
      · exact Or.inr ⟨j, List.mem_cons_of_mem _ hj, bj, hbj, hx⟩
    · intro j hj bj hbj x hx
      rcases List.mem_cons.1 hj with k1 | k1
      · subst k1
        rw [hb] at hbj
        cases hbj
        exact g6 _ (h5 x hx)
      · exact g5 j k1 bj hbj x hx

theorem mem_bucketOf {t : HashTable} {code : Nat} {p : Image} (h : p ∈ bucketOf t code) :
    ∃ kv ∈ t, p ∈ kv.2 := by
  induction t with
  | nil => simp [bucketOf, List.lookup] at h
  | cons kv rest ih =>
    obtain ⟨k, b⟩ := kv
    unfold bucketOf at h
    by_cases hk : code = k
    · subst hk
      simp only [List.lookup, beq_self_eq_true] at h
      exact ⟨(code, b), List.mem_cons_self _ _, h⟩
    · have hbeq : (code == k) = false := by simpa using hk
      simp only [List.lookup, hbeq] at h
      obtain ⟨kv, hkv, hp⟩ := ih h
      exact ⟨kv, List.mem_cons_of_mem _ hkv, hp⟩

/-- The members of the bucket that a query scans are images of the dataset when the buckets
of the index are. -/
theorem queryBucket_fromDataset {P : Type} (prim : Primitives P) (lsh : LSH P) (q : Image)
    (images : List Image) (hbuckets : bucketsFromDataset lsh.hash_tables images) (i : Nat)
    (b : List Image) (hb : lsh.queryBucket prim q i = some b) (x : Image) (hx : x ∈ b) :
    ∃ img ∈ images, img.index = x.index ∧ img.data = x.data := by
  unfold LSH.queryBucket at hb
  cases hc : lsh.finalHashCode prim q.data i with
  | none => simp [hc] at hb
  | some code =>
    simp only [hc] at hb
    cases ht : lsh.hash_tables[i]? with
    | none => simp [ht] at hb
    | some t =>
      simp only [ht, Option.some.injEq] at hb
      subst hb
      obtain ⟨kv, hkv, hp⟩ := mem_bucketOf hx
      exact hbuckets t (List.getElem?_mem ht) kv hkv x hp

/-- What `FindAllNearestNeighbors` returns: an ascending set of members of the scanned
buckets, each with its distance to the query stored, below the initial `min_dist`. -/
theorem findAll_spec {P : Type} (prim : Primitives P) (lsh : LSH P) (q : Image)
    (res : ImageSet) (hres : lsh.FindAllNearestNeighbors prim q = some res) :
    Ascending res ∧ (∀ y ∈ res, y.dist < initialMinDist) ∧
    ∀ y ∈ res, ∃ i, i < lsh.number_of_hash_tables ∧ ∃ b, lsh.queryBucket prim q i = some b ∧
      ∃ x ∈ b, y = x.SetDist (prim.CalculateDistance 2 q.data x.data) := by
  unfold LSH.FindAllNearestNeighbors at hres
  cases hrun : lsh.findAllLoop prim q (List.range lsh.number_of_hash_tables)
      ([], initialMinDist) with
  | none => simp [hrun] at hres
  | some st =>
    simp only [hrun, Option.some.injEq] at hres
    subst hres
    obtain ⟨h1, _, h3, h4, _, _⟩ := findAllLoop_inv prim lsh q _ _ st hrun List.Pairwise.nil rfl
      (fun y hy => by cases hy)
    refine ⟨h1, h3, fun y hy => ?_⟩
    rcases h4 y hy with k | ⟨i, hi, b, hb, hx⟩
    · cases k
    · exact ⟨i, List.mem_range.1 hi, b, hb, hx⟩

/-- The set that `BruteForceNearestNeighbors` returns, when it returns. -/
theorem bruteForce_eq {P : Type} (prim : Primitives P) (lsh : LSH P) (q : Image)
    (res : ImageSet) (hres : lsh.BruteForceNearestNeighbors prim q = some res) :
    res = (lsh.images.foldl (nearestStepValue prim lsh.number_of_nearest q)
      ([], initialMinDist)).1 := by
  unfold LSH.BruteForceNearestNeighbors at hres
  cases hscan : nearestScan prim lsh.number_of_nearest q lsh.images ([], initialMinDist) with
  | none => simp [hscan] at hres
  | some st =>
    simp only [hscan, Option.some.injEq] at hres
    rw [← hres, nearestScan_eq prim _ q _ _ st hscan]

/-- The function `BruteForceNearestNeighbors` returns when `number_of_nearest` is not `0`. -/
theorem bruteForce_isSome {P : Type} (prim : Primitives P) (lsh : LSH P) (q : Image)
    (hN : lsh.number_of_nearest ≠ 0) :
    lsh.BruteForceNearestNeighbors prim q
      = some (lsh.images.foldl (nearestStepValue prim lsh.number_of_nearest q)
        ([], initialMinDist)).1 := by
  simp only [LSH.BruteForceNearestNeighbors, nearestScan_isSome prim _ q hN]

/-- What `BruteForceNearestNeighbors` returns: the distance stored in its first element (the
initial `min_dist` when the set is empty) is at most the distance of every dataset image. -/
theorem bruteForce_headDist_le {P : Type} (prim : Primitives P) (lsh : LSH P) (q : Image)
    (res : ImageSet) (hres : lsh.BruteForceNearestNeighbors prim q = some res)
    (img : Image) (himg : img ∈ lsh.images) :
    headDist res ≤ prim.CalculateDistance 2 q.data img.data := by
  rw [bruteForce_eq prim lsh q res hres]
  exact (foldl_nearestStepValue_inv prim lsh.number_of_nearest q lsh.images
    ([], initialMinDist) List.Pairwise.nil rfl (fun y hy => by cases hy)).2.2.2.2.1 img himg

/-- C11: on an index whose buckets hold images of the dataset, for `N ≥ 1`, when
`FindAllNearestNeighbors` returns a non-empty set with last element `last`,
`BruteForceNearestNeighbors` returns a non-empty set whose first element `first` has a
distance at most that of `last`; the first element of the exhaustive scan is a true nearest
point: its distance is at most the distance of every dataset image. -/
theorem bruteForce_first_le_findAll_last {P : Type} (prim : Primitives P) (lsh : LSH P)
    (q : Image) (hN : 1 ≤ lsh.number_of_nearest)
    (hbuckets : bucketsFromDataset lsh.hash_tables lsh.images)
    (res : ImageSet) (hres : lsh.FindAllNearestNeighbors prim q = some res)
    (last : Image) (hlast : res.getLast? = some last) :
    ∃ brute first, lsh.BruteForceNearestNeighbors prim q = some brute ∧
      brute.head? = some first ∧ first.dist ≤ last.dist ∧
      ∀ img ∈ lsh.images, first.dist ≤ prim.CalculateDistance 2 q.data img.data := by
  have hbrute := bruteForce_isSome prim lsh q (by omega)
  obtain ⟨_, hbelow, hfrom⟩ := findAll_spec prim lsh q res hres
  have hmem : last ∈ res := List.mem_of_getLast?_eq_some hlast
  obtain ⟨i, _, b, hb, x, hx, hlx⟩ := hfrom last hmem
  obtain ⟨img, himg, _, hdata⟩ := queryBucket_fromDataset prim lsh q lsh.images hbuckets i b hb
    x hx
  have hle := bruteForce_headDist_le prim lsh q _ hbrute img himg
  have hdist : last.dist = prim.CalculateDistance 2 q.data img.data := by
    rw [hlx, hdata]
    rfl
  cases hfirst : ((lsh.images.foldl (nearestStepValue prim lsh.number_of_nearest q)
      ([], initialMinDist)).1).head? with
  | none =>
    simp only [headDist, hfirst] at hle
    exact absurd (hbelow last hmem) (not_lt.2 (hdist ▸ hle))
  | some first =>
    refine ⟨_, first, hbrute, hfirst, ?_, ?_⟩
    · simp only [headDist, hfirst] at hle
      exact hdist ▸ hle
    · intro img1 himg1
      have h := bruteForce_headDist_le prim lsh q _ hbrute img1 himg1
      simp only [headDist, hfirst] at h
      exact h

/-- The statement of C11 on the index over sixteen points, `N = 2`, query at position `11`:
the hash query returns ids 4 and 3 (distances 0 and 1), the exhaustive scan starts with
id 4. -/
theorem bruteForce_first_le_findAll_last_witness :
    (1 : Int) ≤ builtIndex.number_of_nearest ∧
    builtIndex.FindAllNearestNeighbors prim1D (queryAt 11)
      = some [⟨4, pixels1D 11, 0⟩, ⟨3, pixels1D 10, 1⟩] ∧
    ∃ brute first, builtIndex.BruteForceNearestNeighbors prim1D (queryAt 11) = some brute ∧
      brute.head? = some first ∧ first.dist ≤ (⟨3, pixels1D 10, 1⟩ : Image).dist ∧
      ∀ img ∈ builtIndex.images,
        first.dist ≤ prim1D.CalculateDistance 2 (queryAt 11).data img.data := by
  set_option maxRecDepth 100000 in
  exact ⟨by decide, by rfl,
    bruteForce_first_le_findAll_last prim1D builtIndex (queryAt 11) (by decide) (by decide)
      [⟨4, pixels1D 11, 0⟩, ⟨3, pixels1D 10, 1⟩] (by rfl) ⟨3, pixels1D 10, 1⟩ (by rfl)⟩

/-- C16: on an index whose buckets hold images of the dataset, every point returned by
`FindAllNearestNeighbors` is such an image, stored in the bucket that the query hashes to in
one of the `L` tables, returned with its distance to the query stored: it has the id and
the pixel vector of a dataset image. -/
theorem findAll_returns_bucket_members {P : Type} (prim : Primitives P) (lsh : LSH P)
    (q : Image) (hbuckets : bucketsFromDataset lsh.hash_tables lsh.images)
    (res : ImageSet) (hres : lsh.FindAllNearestNeighbors prim q = some res)
    (y : Image) (hy : y ∈ res) :
    ∃ i, i < lsh.number_of_hash_tables ∧ ∃ b, lsh.queryBucket prim q i = some b ∧
      ∃ x, x ∈ b ∧ y = x.SetDist (prim.CalculateDistance 2 q.data x.data) ∧
        ∃ img, img ∈ lsh.images ∧ img.index = y.index ∧ img.data = y.data := by
  obtain ⟨_, _, hfrom⟩ := findAll_spec prim lsh q res hres
  obtain ⟨i, hi, b, hb, x, hx, hyx⟩ := hfrom y hy
  obtain ⟨img, himg, hidx, hdata⟩ := queryBucket_fromDataset prim lsh q lsh.images hbuckets
    i b hb x hx
  refine ⟨i, hi, b, hb, x, hx, hyx, img, himg, ?_, ?_⟩
  · rw [hyx]
    exact hidx
  · rw [hyx]
    exact hdata

/-- The statement of C16 on the index over sixteen points, for the second point returned
for the query at position `11`. -/
theorem findAll_returns_bucket_members_witness :
    bucketsFromDataset builtIndex.hash_tables builtIndex.images ∧
    ∃ i, i < builtIndex.number_of_hash_tables ∧
      ∃ b, builtIndex.queryBucket prim1D (queryAt 11) i = some b ∧
      ∃ x, x ∈ b ∧ (⟨3, pixels1D 10, 1⟩ : Image)
          = x.SetDist (prim1D.CalculateDistance 2 (queryAt 11).data x.data) ∧
        ∃ img, img ∈ builtIndex.images ∧ img.index = (⟨3, pixels1D 10, 1⟩ : Image).index ∧
          img.data = (⟨3, pixels1D 10, 1⟩ : Image).data := by
  set_option maxRecDepth 100000 in
  exact ⟨by decide,
    findAll_returns_bucket_members prim1D builtIndex (queryAt 11) (by decide)
      [⟨4, pixels1D 11, 0⟩, ⟨3, pixels1D 10, 1⟩] (by rfl) ⟨3, pixels1D 10, 1⟩
      (by simp)⟩

/-! ### The tables built by `HashInput` -/

theorem bucketOf_cons (k : Nat) (b : List Image) (rest : HashTable) (code : Nat) :
    bucketOf ((k, b) :: rest) code = if code = k then b else bucketOf rest code := by
  unfold bucketOf
  by_cases h : code = k
  · subst h
    simp [List.lookup]
  · have hbeq : (code == k) = false := by simpa using h
    simp [List.lookup, hbeq, h]

theorem bucketOf_tablePush (t : HashTable) (code : Nat) (img : Image) (k : Nat) :
    bucketOf (tablePush t code img) k =
      if k = code then bucketOf t k ++ [img] else bucketOf t k := by
  induction t with
  | nil =>
    simp only [tablePush, bucketOf_cons]
    split <;> simp [bucketOf, List.lookup]
  | cons kv rest ih =>
    obtain ⟨k1, b⟩ := kv
    simp only [tablePush]
    by_cases h1 : k1 = code
    · subst h1
      simp only [if_true, bucketOf_cons]
      by_cases h2 : k = k1
      · simp [h2]
      · simp [h2]
    · simp only [h1, if_false, bucketOf_cons, ih]
      by_cases h2 : k = k1
      · have h3 : ¬ k = code := fun e => h1 (h2 ▸ e)
        simp [h2, h3, h1]
      · simp [h2]

theorem keys_tablePush (t : HashTable) (code : Nat) (img : Image) :
    (tablePush t code img).map Prod.fst =
      if code ∈ t.map Prod.fst then t.map Prod.fst else t.map Prod.fst ++ [code] := by
  induction t with
  | nil => simp [tablePush]
  | cons kv rest ih =>
    obtain ⟨k1, b⟩ := kv
    simp only [tablePush]
    by_cases h1 : k1 = code
    · subst h1
      simp
    · have h2 : ¬ code = k1 := fun e => h1 e.symm
      simp only [h1, if_false, List.map_cons, ih, List.mem_cons, h2, false_or]
      split <;> simp

theorem sizes_tablePush (t : HashTable) (code : Nat) (img : Image) :
    ((tablePush t code img).map (fun kv => kv.2.length)).sum
      = (t.map (fun kv => kv.2.length)).sum + 1 := by
  induction t with
  | nil => simp [tablePush]
  | cons kv rest ih =>
    obtain ⟨k1, b⟩ := kv
    simp only [tablePush]
    by_cases h1 : k1 = code
    · simp only [h1, if_true, List.map_cons, List.sum_cons, List.length_append,
        List.length_singleton]
      omega
    · simp only [h1, if_false, List.map_cons, List.sum_cons, ih]
      omega

/-- The table after a list of images has been pushed into a table that holds the images
`done`. -/
theorem pushAll_spec (code : Image → Nat) (bound : Nat) (hcode : ∀ img, code img < bound)
    (imgs done : List Image) (t : HashTable)
    (hbucket : ∀ k, bucketOf t k = done.filter (fun img => decide (code img = k)))
    (hkeys : (t.map Prod.fst).Nodup) (hbound : ∀ k ∈ t.map Prod.fst, k < bound)
    (hsizes : (t.map (fun kv => kv.2.length)).sum = done.length) :
    (∀ k, bucketOf (pushAll code imgs t) k
      = (done ++ imgs).filter (fun img => decide (code img = k))) ∧
    ((pushAll code imgs t).map Prod.fst).Nodup ∧
    (∀ k ∈ (pushAll code imgs t).map Prod.fst, k < bound) ∧
    ((pushAll code imgs t).map (fun kv => kv.2.length)).sum = (done ++ imgs).length := by
  induction imgs generalizing done t with
  | nil =>
    simp only [pushAll, List.foldl_nil, List.append_nil]
    exact ⟨hbucket, hkeys, hbound, hsizes⟩
  | cons a l ih =>
    have hstep := ih (done ++ [a]) (tablePush t (code a) a) ?_ ?_ ?_ ?_
    · simp only [pushAll, List.foldl_cons, List.append_assoc, List.singleton_append]
        at hstep ⊢
      exact hstep
    · intro k
      rw [bucketOf_tablePush, hbucket k, List.filter_append]
      by_cases hk : k = code a
      · simp [hk]
      · have hk1 : ¬ code a = k := fun e => hk e.symm
        simp [hk, hk1]
    · rw [keys_tablePush]
      split
      · exact hkeys
      · rename_i hnot
        rw [List.nodup_append]
        refine ⟨hkeys, List.nodup_singleton _, ?_⟩
        intro x hx hx1
        rw [List.mem_singleton] at hx1
        exact hnot (hx1 ▸ hx)
    · intro k hk
      rw [keys_tablePush] at hk
      split at hk
      · exact hbound k hk
      · rcases List.mem_append.1 hk with h1 | h1
        · exact hbound k h1
        · rw [List.mem_singleton] at h1
          rw [h1]
          exact hcode a
    · rw [sizes_tablePush, hsizes]
      simp

theorem set_of_getElem? {α : Type} (l : List α) (i : Nat) (a : α) (h : l[i]? = some a) :
    l.set i a = l := by
  induction l generalizing i with
  | nil => rfl
  | cons x xs ih =>
    cases i with
    | zero =>
      simp only [List.getElem?_cons_zero, Option.some.injEq] at h
      simp [h]
    | succ i =>
      simp only [List.getElem?_cons_succ] at h
      simp [ih i h]

theorem finalHashCode_eq {P : Type} (prim : Primitives P) (lsh : LSH P) (i : Nat)
    (projection : P) (hsize : 16 ≤ lsh.images.length)
    (hp : lsh.random_projections[i]? = some projection) (img : Image) :
    lsh.finalHashCode prim img.data i = some (lsh.bucketNumber prim projection img) := by
  have h16 : ¬ lsh.images.length / 16 = 0 := by omega
  simp [LSH.finalHashCode, hp, reduceHashCode, h16, LSH.bucketNumber]

/-- The inner loop of `HashInput` pushes every image into table `i`. -/
theorem hashImages_spec {P : Type} (prim : Primitives P) (lsh : LSH P) (i : Nat)
    (projection : P) (hsize : 16 ≤ lsh.images.length)
    (hp : lsh.random_projections[i]? = some projection) (imgs : List Image)
    (tables : List HashTable) (t : HashTable) (ht : tables[i]? = some t) :
    lsh.hashImages prim i imgs tables
      = some (tables.set i (pushAll (lsh.bucketNumber prim projection) imgs t)) := by
  induction imgs generalizing tables t with
  | nil => simp [LSH.hashImages, pushAll, set_of_getElem? tables i t ht]
  | cons a l ih =>
    have hlt : i < tables.length := by
      by_contra hge
      rw [List.getElem?_eq_none (not_lt.1 hge)] at ht
      cases ht
    simp only [LSH.hashImages, LSH.hashImage, finalHashCode_eq prim lsh i projection hsize hp, ht]
    rw [ih (tables.set i (tablePush t (lsh.bucketNumber prim projection a) a))
      (tablePush t (lsh.bucketNumber prim projection a) a) (List.getElem?_set_self hlt)]
    simp [List.set_set, pushAll]

/-- The outer loop of `HashInput` pushes every image into each table of the list. -/
theorem hashTables_spec {P : Type} (prim : Primitives P) (lsh : LSH P)
    (hsize : 16 ≤ lsh.images.length) (idxs : List Nat) (tables : List HashTable)
    (hnd : idxs.Nodup)
    (hidx : ∀ i ∈ idxs, i < tables.length ∧ i < lsh.random_projections.length) :
    ∃ tables1, lsh.hashTables prim idxs tables = some tables1 ∧
      tables1.length = tables.length ∧
      (∀ j, j ∉ idxs → tables1[j]? = tables[j]?) ∧
      (∀ i ∈ idxs, ∀ projection t, lsh.random_projections[i]? = some projection →
        tables[i]? = some t →
        tables1[i]? = some (pushAll (lsh.bucketNumber prim projection) lsh.images t)) := by
  induction idxs generalizing tables with
  | nil => exact ⟨tables, rfl, rfl, fun j _ => rfl, fun i hi => by cases hi⟩
  | cons i rest ih =>
    obtain ⟨hit, hip⟩ := hidx i (List.mem_cons_self _ _)
    rw [List.nodup_cons] at hnd
    have hstep := hashImages_spec prim lsh i (lsh.random_projections[i]) hsize
      (List.getElem?_eq_getElem hip) lsh.images tables (tables[i]) (List.getElem?_eq_getElem hit)
    obtain ⟨tables2, hrun, hlen, hframe, hpush⟩ := ih
      (tables.set i
        (pushAll (lsh.bucketNumber prim (lsh.random_projections[i])) lsh.images (tables[i])))
      hnd.2 (fun j hj => by
        rw [List.length_set]
        exact hidx j (List.mem_cons_of_mem _ hj))
    refine ⟨tables2, ?_, ?_, ?_, ?_⟩
    · simp only [LSH.hashTables, hstep, hrun]
    · rw [hlen, List.length_set]
    · intro j hj
      have hji : i ≠ j := fun e => hj (e ▸ List.mem_cons_self _ _)
      rw [hframe j (fun h => hj (List.mem_cons_of_mem _ h)), List.getElem?_set_ne hji]
    · intro j hj projection t hproj ht
      rcases List.mem_cons.1 hj with h1 | h1
      · subst h1
        rw [hframe j hnd.1, List.getElem?_set_self hit]
        rw [List.getElem?_eq_getElem hip, Option.some.injEq] at hproj
        rw [List.getElem?_eq_getElem hit, Option.some.injEq] at ht
        rw [hproj, ht]
      · have hji : i ≠ j := fun e => hnd.1 (e ▸ h1)
        exact hpush j h1 projection t hproj (by rw [List.getElem?_set_ne hji]; exact ht)

/-- `HashInput` on a freshly constructed index over at least 16 images, with a projection
for each table, completes; table `i` of the result is the empty table into which every
image has been pushed under its bucket number. -/
theorem hashInput_tables {P : Type} (prim : Primitives P) (lsh : LSH P) (projections : List P)
    (hsize : 16 ≤ lsh.images.length)
    (hfresh : lsh.hash_tables = List.replicate lsh.number_of_hash_tables [])
    (hproj : lsh.number_of_hash_tables ≤ projections.length) :
    ∃ built, lsh.HashInput prim projections = some built ∧
      built.images = lsh.images ∧ built.random_projections = projections ∧
      built.number_of_hash_tables = lsh.number_of_hash_tables ∧
      built.hash_tables.length = lsh.number_of_hash_tables ∧
      ∀ i, i < lsh.number_of_hash_tables → ∃ projection, projections[i]? = some projection ∧
        built.hash_tables[i]? =
          some (pushAll (lsh.bucketNumber prim projection) lsh.images []) := by
  obtain ⟨tables1, hrun, hlen, _, hpush⟩ := hashTables_spec prim
    { lsh with random_projections := projections } hsize
    (List.range lsh.number_of_hash_tables) lsh.hash_tables (List.nodup_range _)
    (fun i hi => by
      have h := List.mem_range.1 hi
      constructor
      · rw [hfresh, List.length_replicate]
        exact h
      · exact lt_of_lt_of_le h hproj)
  refine ⟨{ lsh with random_projections := projections, hash_tables := tables1 }, ?_, rfl, rfl,
    rfl, ?_, ?_⟩
  · simp only [LSH.HashInput, hrun]
  · show tables1.length = lsh.number_of_hash_tables
    rw [hlen, hfresh, List.length_replicate]
  · intro i hi
    have hip : i < projections.length := lt_of_lt_of_le hi hproj
    refine ⟨projections[i], List.getElem?_eq_getElem hip, ?_⟩
    exact hpush i (List.mem_range.2 hi) projections[i] []
      (List.getElem?_eq_getElem hip)
      (by rw [hfresh]; exact List.getElem?_replicate_of_lt hi)

theorem bucketOf_of_mem (t : HashTable) (hkeys : (t.map Prod.fst).Nodup) (kv : Nat × List Image)
    (hkv : kv ∈ t) : bucketOf t kv.1 = kv.2 := by
  induction t with
  | nil => cases hkv
  | cons e rest ih =>
    obtain ⟨k, b⟩ := e
    rw [List.map_cons, List.nodup_cons] at hkeys
    rw [bucketOf_cons]
    rcases List.mem_cons.1 hkv with h1 | h1
    · rw [h1]
      simp
    · have hne : ¬ kv.1 = k := fun e =>
        hkeys.1 (by rw [← e]; exact List.mem_map.2 ⟨kv, h1, rfl⟩)
      rw [if_neg hne]
      exact ih hkeys.2 h1

/-- The buckets of an index built by `HashInput` hold images of the dataset. -/
theorem hashInput_bucketsFromDataset {P : Type} (prim : Primitives P) (lsh : LSH P)
    (projections : List P) (hsize : 16 ≤ lsh.images.length)
    (hfresh : lsh.hash_tables = List.replicate lsh.number_of_hash_tables [])
    (hproj : lsh.number_of_hash_tables ≤ projections.length) (built : LSH P)
    (hbuilt : lsh.HashInput prim projections = some built) :
    bucketsFromDataset built.hash_tables built.images := by
  obtain ⟨built1, h1, himgs, _, _, hlen, htab⟩ :=
    hashInput_tables prim lsh projections hsize hfresh hproj
  rw [hbuilt, Option.some.injEq] at h1
  subst h1
  intro t ht kv hkv b hb
  obtain ⟨i, hi⟩ := List.mem_iff_getElem?.1 ht
  have hil : i < lsh.number_of_hash_tables := by
    by_contra hge
    rw [List.getElem?_eq_none (by rw [hlen]; exact not_lt.1 hge)] at hi
    cases hi
  obtain ⟨projection, _, hti⟩ := htab i hil
  rw [hi, Option.some.injEq] at hti
  have hm : 0 < lsh.images.length / 16 := by omega
  obtain ⟨hbucket, hkeys, _, _⟩ := pushAll_spec (lsh.bucketNumber prim projection)
    (lsh.images.length / 16) (fun img => Nat.mod_lt _ hm) lsh.images [] []
    (fun k => by simp [bucketOf, List.lookup]) (by simp) (by simp) (by simp)
  rw [← hti] at hbucket hkeys
  have hb1 : b ∈ bucketOf t kv.1 := by
    rw [bucketOf_of_mem t hkeys kv hkv]
    exact hb
  rw [hbucket kv.1, List.nil_append] at hb1
  exact ⟨b, himgs ▸ (List.mem_filter.1 hb1).1, rfl, rfl⟩

/-- C13: `HashInput` on a freshly constructed index over `n ≥ 16` images, with a projection
for each of the `L` tables, completes, and in each table: the bucket under a key `k` is the
list of the dataset images whose composite hash code reduced modulo `n / 16` is `k`, so
each image is stored in the bucket of its reduced code as many times as it occurs in the
dataset (once) and in no other bucket; the keys are pairwise distinct and below `n / 16`,
and the bucket sizes sum to `n`. -/
theorem hashInput_stores_each_point_once {P : Type} (prim : Primitives P) (lsh : LSH P)
    (projections : List P) (hsize : 16 ≤ lsh.images.length)
    (hfresh : lsh.hash_tables = List.replicate lsh.number_of_hash_tables [])
    (hproj : lsh.number_of_hash_tables ≤ projections.length) :
    ∃ built, lsh.HashInput prim projections = some built ∧ built.images = lsh.images ∧
      built.hash_tables.length = lsh.number_of_hash_tables ∧
      ∀ i, i < lsh.number_of_hash_tables → ∃ t projection,
        built.hash_tables[i]? = some t ∧ projections[i]? = some projection ∧
        (∀ k, bucketOf t k
          = lsh.images.filter (fun img => decide (lsh.bucketNumber prim projection img = k))) ∧
        (∀ img, img ∈ lsh.images →
          (bucketOf t (lsh.bucketNumber prim projection img)).count img
              = lsh.images.count img ∧
          (lsh.images.Nodup →
            (bucketOf t (lsh.bucketNumber prim projection img)).count img = 1) ∧
          ∀ k, k ≠ lsh.bucketNumber prim projection img → img ∉ bucketOf t k) ∧
        (t.map Prod.fst).Nodup ∧ (∀ k ∈ t.map Prod.fst, k < lsh.images.length / 16) ∧
        (t.map (fun kv => kv.2.length)).sum = lsh.images.length := by
  obtain ⟨built, hbuilt, himgs, _, _, hlen, htab⟩ :=
    hashInput_tables prim lsh projections hsize hfresh hproj
  refine ⟨built, hbuilt, himgs, hlen, fun i hi => ?_⟩
  obtain ⟨projection, hp, hti⟩ := htab i hi
  have hm : 0 < lsh.images.length / 16 := by omega
  obtain ⟨hbucket, hkeys, hbound, hsizes⟩ := pushAll_spec (lsh.bucketNumber prim projection)
    (lsh.images.length / 16) (fun img => Nat.mod_lt _ hm) lsh.images [] []
    (fun k => by simp [bucketOf, List.lookup]) (by simp) (by simp) (by simp)
  simp only [List.nil_append] at hbucket hsizes
  refine ⟨_, projection, hti, hp, hbucket, ?_, hkeys, hbound, hsizes⟩
  intro img himg
  have hcount : (bucketOf (pushAll (lsh.bucketNumber prim projection) lsh.images [])
      (lsh.bucketNumber prim projection img)).count img = lsh.images.count img := by
    rw [hbucket, List.count_filter]
    simp
  refine ⟨hcount, fun hnd => ?_, fun k hk hmem => ?_⟩
  · rw [hcount]
    exact List.count_eq_one_of_mem hnd himg
  · rw [hbucket k] at hmem
    have h := (List.mem_filter.1 hmem).2
    simp only [decide_eq_true_eq] at h
    exact hk h.symm

/-- The statement of C13 for the index over sixteen points with one table: the build
returns `builtIndex`, whose single bucket `0` holds the sixteen images. -/
theorem hashInput_stores_each_point_once_witness :
    16 ≤ (LSH.new sixteenImages 1 1 2 1 : LSH Unit).images.length ∧
    LSH.HashInput prim1D (LSH.new sixteenImages 1 1 2 1) [()] = some builtIndex ∧
    ∃ built, LSH.HashInput prim1D (LSH.new sixteenImages 1 1 2 1) [()] = some built ∧
      built.images = sixteenImages ∧ built.hash_tables.length = 1 := by
  obtain ⟨built, h1, h2, h3, _⟩ := hashInput_stores_each_point_once prim1D
    (LSH.new sixteenImages 1 1 2 1) [()] (by decide) (by rfl) (by decide)
  exact ⟨by decide, by rfl, built, h1, h2, h3⟩

/-! ### The effect of a query on the hash tables -/

theorem tableAccess_fst (t : HashTable) (code : Nat) :
    (tableAccess t code).1 = bucketOf t code := by
  unfold tableAccess bucketOf
  cases t.lookup code <;> rfl

theorem bucketOf_append_empty (t : HashTable) (code k : Nat) :
    bucketOf (t ++ [(code, [])]) k = bucketOf t k := by
  induction t with
  | nil =>
    rw [List.nil_append, bucketOf_cons]
    split <;> simp [bucketOf, List.lookup]
  | cons kv rest ih =>
    obtain ⟨k1, b⟩ := kv
    rw [List.cons_append, bucketOf_cons, bucketOf_cons, ih]

theorem lookup_isSome_iff (t : HashTable) (code : Nat) :
    (∃ b, t.lookup code = some b) ↔ code ∈ tableKeys t := by
  induction t with
  | nil => simp [List.lookup, tableKeys]
  | cons kv rest ih =>
    obtain ⟨k1, b⟩ := kv
    by_cases h : code = k1
    · subst h
      simp [List.lookup, tableKeys]
    · have hbeq : (code == k1) = false := by simpa using h
      simp only [List.lookup, hbeq, tableKeys, List.map_cons, List.mem_cons, h, false_or]
      exact ih

/-- The table after an access: unchanged when the key is present, extended by the key with
an empty bucket when it is absent. -/
theorem tableAccess_snd (t : HashTable) (code : Nat) :
    (tableAccess t code).2 = if code ∈ tableKeys t then t else t ++ [(code, [])] := by
  unfold tableAccess
  cases h : t.lookup code with
  | none =>
    have hn : ¬ code ∈ tableKeys t := fun hm => by
      obtain ⟨b, hb⟩ := (lookup_isSome_iff t code).2 hm
      rw [hb] at h
      cases h
    simp [hn]
  | some b =>
    have hm : code ∈ tableKeys t := (lookup_isSome_iff t code).1 ⟨b, h⟩
    simp [hm]

/-- A second access under the same key reads the same bucket and leaves the table as the
first access left it. -/
theorem tableAccess_twice (t : HashTable) (code : Nat) :
    tableAccess (tableAccess t code).2 code = (bucketOf t code, (tableAccess t code).2) := by
  have h1 : (tableAccess (tableAccess t code).2 code).1 = bucketOf t code := by
    rw [tableAccess_fst, tableAccess_snd]
    split
    · rfl
    · exact bucketOf_append_empty t code code
  have h2 : (tableAccess (tableAccess t code).2 code).2 = (tableAccess t code).2 := by
    rw [tableAccess_snd (tableAccess t code).2 code]
    have hm : code ∈ tableKeys (tableAccess t code).2 := by
      rw [tableAccess_snd]
      split
      · assumption
      · simp [tableKeys]
    rw [if_pos hm]
  exact Prod.ext h1 h2

theorem queryBucket_eq {P : Type} (prim : Primitives P) (lsh : LSH P) (q : Image) (i code : Nat)
    (hc : lsh.finalHashCode prim q.data i = some code) :
    lsh.queryBucket prim q i = (lsh.hash_tables[i]?).map (fun t => bucketOf t code) := by
  unfold LSH.queryBucket
  rw [hc]
  cases lsh.hash_tables[i]? <;> rfl

/-- The loop with the tables in its state computes what the loop without them computes,
and leaves each table of the list as one access under the query's hash code leaves it. -/
theorem tablesLoop_spec {P σ : Type} (prim : Primitives P) (lsh : LSH P) (q : Image)
    (scan : List Image → σ → Option σ) (hscan : ∀ st, scan [] st = some st)
    (pureLoop : List Nat → σ → Option σ) (hnil : ∀ st, pureLoop [] st = some st)
    (hcons : ∀ i rest st, pureLoop (i :: rest) st =
      match lsh.queryBucket prim q i with
      | none => none
      | some b =>
        match scan b st with
        | none => none
        | some st1 => pureLoop rest st1)
    (idxs : List Nat) (hnd : idxs.Nodup) (st : σ) (tables : List HashTable)
    (hsame : ∀ i ∈ idxs, tables[i]? = lsh.hash_tables[i]?) :
    (pureLoop idxs st = none → lsh.tablesLoop prim q scan idxs (st, tables) = none) ∧
    (∀ res, pureLoop idxs st = some res →
      ∃ tables1, lsh.tablesLoop prim q scan idxs (st, tables) = some (res, tables1) ∧
        tables1.length = tables.length ∧
        (∀ j, j ∉ idxs → tables1[j]? = tables[j]?) ∧
        (∀ j ∈ idxs, ∀ code, lsh.finalHashCode prim q.data j = some code →
          tables1[j]? = (tables[j]?).map (fun t => (tableAccess t code).2))) := by
  induction idxs generalizing st tables with
  | nil =>
    refine ⟨(fun h => by rw [hnil] at h; cases h), fun res h => ?_⟩
    rw [hnil, Option.some.injEq] at h
    subst h
    exact ⟨tables, rfl, rfl, fun j _ => rfl, (fun j hj => by cases hj)⟩
  | cons i rest ih =>
    rw [List.nodup_cons] at hnd
    have hti := hsame i (List.mem_cons_self _ _)
    cases hc : lsh.finalHashCode prim q.data i with
    | none =>
      have hq : lsh.queryBucket prim q i = none := by simp [LSH.queryBucket, hc]
      refine ⟨(fun _ => by simp only [LSH.tablesLoop, hc]), fun res h => ?_⟩
      rw [hcons, hq] at h
      cases h
    | some code =>
      have hq := queryBucket_eq prim lsh q i code hc
      cases ht : tables[i]? with
      | none =>
        rw [← hti, ht] at hq
        refine ⟨(fun _ => by simp only [LSH.tablesLoop, hc, ht]), fun res h => ?_⟩
        rw [hcons, hq] at h
        cases h
      | some t =>
        rw [← hti, ht, Option.map_some'] at hq
        have hlt : i < tables.length := by
          by_contra hge
          rw [List.getElem?_eq_none (not_lt.1 hge)] at ht
          cases ht
        have hstep : lsh.tablesLoop prim q scan (i :: rest) (st, tables) =
            match scan (bucketOf t code) st with
            | none => none
            | some st1 =>
              lsh.tablesLoop prim q scan rest (st1, tables.set i (tableAccess t code).2) := by
          simp only [LSH.tablesLoop, hc, ht, tableAccess_fst, tableAccess_twice]
          split
          · rename_i h0
            rw [List.length_eq_zero.1 h0, hscan]
          · rfl
        have hsame1 : ∀ j ∈ rest, (tables.set i (tableAccess t code).2)[j]?
            = lsh.hash_tables[j]? := by
          intro j hj
          have hij : i ≠ j := fun e => hnd.1 (e ▸ hj)
          rw [List.getElem?_set_ne hij]
          exact hsame j (List.mem_cons_of_mem _ hj)
        have hpure : pureLoop (i :: rest) st =
            match scan (bucketOf t code) st with
            | none => none
            | some st1 => pureLoop rest st1 := by
          rw [hcons, hq]
        rw [hstep, hpure]
        cases hs : scan (bucketOf t code) st with
        | none => exact ⟨fun _ => rfl, fun res h => by cases h⟩
        | some st1 =>
          obtain ⟨ih1, ih2⟩ := ih hnd.2 st1 (tables.set i (tableAccess t code).2) hsame1
          refine ⟨ih1, fun res h => ?_⟩
          obtain ⟨tables1, hrun, hlen, hframe, hacc⟩ := ih2 res h
          refine ⟨tables1, hrun, by rw [hlen, List.length_set], ?_, ?_⟩
          · intro j hj
            have hij : i ≠ j := fun e => hj (e ▸ List.mem_cons_self _ _)
            rw [hframe j (fun h1 => hj (List.mem_cons_of_mem _ h1)), List.getElem?_set_ne hij]
          · intro j hj c hcj
            rcases List.mem_cons.1 hj with h1 | h1
            · subst h1
              rw [hc, Option.some.injEq] at hcj
              subst hcj
              rw [hframe j hnd.1, List.getElem?_set_self hlt, ht]
              rfl
            · have hij : i ≠ j := fun e => hnd.1 (e ▸ h1)
              rw [hacc j h1 c hcj, List.getElem?_set_ne hij]

/-- The tables after the loop over all `L` tables, for a loop that agrees with a loop
without the tables in its state. -/
theorem tablesLoop_range {P σ : Type} (prim : Primitives P) (lsh : LSH P) (q : Image)
    (scan : List Image → σ → Option σ) (hscan : ∀ st, scan [] st = some st)
    (pureLoop : List Nat → σ → Option σ) (hnil : ∀ st, pureLoop [] st = some st)
    (hcons : ∀ i rest st, pureLoop (i :: rest) st =
      match lsh.queryBucket prim q i with
      | none => none
      | some b =>
        match scan b st with
        | none => none
        | some st1 => pureLoop rest st1)
    (st : σ) :
    (lsh.tablesLoop prim q scan (List.range lsh.number_of_hash_tables)
        (st, lsh.hash_tables)).map Prod.fst
      = pureLoop (List.range lsh.number_of_hash_tables) st ∧
    ∀ res tables1, lsh.tablesLoop prim q scan (List.range lsh.number_of_hash_tables)
        (st, lsh.hash_tables) = some (res, tables1) →
      tables1.length = lsh.hash_tables.length ∧
      (∀ j, lsh.number_of_hash_tables ≤ j → tables1[j]? = lsh.hash_tables[j]?) ∧
      ∀ i, i < lsh.number_of_hash_tables → ∀ code t,
        lsh.finalHashCode prim q.data i = some code → lsh.hash_tables[i]? = some t →
        tables1[i]? = some (if code ∈ tableKeys t then t else t ++ [(code, [])]) ∧
        ∀ k, bucketOf (if code ∈ tableKeys t then t else t ++ [(code, [])]) k
          = bucketOf t k := by
  obtain ⟨h1, h2⟩ := tablesLoop_spec prim lsh q scan hscan pureLoop hnil hcons
    (List.range lsh.number_of_hash_tables) (List.nodup_range _) st lsh.hash_tables
    (fun i _ => rfl)
  constructor
  · cases hp : pureLoop (List.range lsh.number_of_hash_tables) st with
    | none => rw [h1 hp]; rfl
    | some res =>
      obtain ⟨tables1, hrun, _⟩ := h2 res hp
      rw [hrun]
      rfl
  · intro res tables1 hrun
    cases hp : pureLoop (List.range lsh.number_of_hash_tables) st with
    | none =>
      rw [h1 hp] at hrun
      cases hrun
    | some res1 =>
      obtain ⟨tables2, hrun2, hlen, hframe, hacc⟩ := h2 res1 hp
      rw [hrun, Option.some.injEq, Prod.mk.injEq] at hrun2
      obtain ⟨_, htab⟩ := hrun2
      subst htab
      refine ⟨hlen, fun j hj => hframe j (fun hm => ?_), fun i hi code t hc ht => ?_⟩
      · exact absurd (List.mem_range.1 hm) (not_lt.2 hj)
      · refine ⟨?_, fun k => ?_⟩
        · rw [hacc i (List.mem_range.2 hi) code hc, ht, Option.map_some', tableAccess_snd]
        · split
          · rfl
          · exact bucketOf_append_empty t code k

/-- C12, counterexample: the index that `HashInput` builds over the 32 even positions with
the first pixel as hash code has the single bucket key `0`; the query at position `1` has
hash code `1`, which has no bucket; `FindAllNearestNeighbors` and `RadiusSearch` return the
empty set and leave the table with the keys `0` and `1`. -/
theorem query_example_adds_bucket_key :
    LSH.HashInput primParity (LSH.new evenImages 1 1 2 1) [()] = some evenIndex ∧
    evenIndex.hash_tables.map tableKeys = [[0]] ∧
    evenIndex.finalHashCode primParity (queryAt 1).data 0 = some 1 ∧
    (evenIndex.FindAllNearestNeighborsTables primParity (queryAt 1)).map
      (fun r => (r.1, r.2.map tableKeys)) = some ([], [[0, 1]]) ∧
    (evenIndex.RadiusSearchTables primParity (queryAt 1)).map
      (fun r => (r.1, r.2.map tableKeys)) = some ([], [[0, 1]]) := by
  set_option maxRecDepth 100000 in
  refine ⟨by rfl, by rfl, by rfl, by rfl, by rfl⟩

/-- C12, amended: `FindAllNearestNeighbors` and `RadiusSearch` return what the functions
without the tables in their state return, and after the call: the number of tables is the
same, and in each of the `L` tables the bucket read under every key is what it was; the
table itself is unchanged when the query's hash code is one of its keys, and otherwise has
that one key more, with an empty bucket. -/
theorem query_keeps_bucket_contents {P : Type} (prim : Primitives P) (lsh : LSH P)
    (q : Image) :
    ((lsh.FindAllNearestNeighborsTables prim q).map Prod.fst
        = lsh.FindAllNearestNeighbors prim q ∧
      (lsh.RadiusSearchTables prim q).map Prod.fst = lsh.RadiusSearch prim q) ∧
    ∀ res tables1, (lsh.FindAllNearestNeighborsTables prim q = some (res, tables1) ∨
        lsh.RadiusSearchTables prim q = some (res, tables1)) →
      tables1.length = lsh.hash_tables.length ∧
      (∀ j, lsh.number_of_hash_tables ≤ j → tables1[j]? = lsh.hash_tables[j]?) ∧
      ∀ i, i < lsh.number_of_hash_tables → ∀ code t,
        lsh.finalHashCode prim q.data i = some code → lsh.hash_tables[i]? = some t →
        tables1[i]? = some (if code ∈ tableKeys t then t else t ++ [(code, [])]) ∧
        ∀ k, bucketOf (if code ∈ tableKeys t then t else t ++ [(code, [])]) k
          = bucketOf t k := by
  have hA := tablesLoop_range prim lsh q (nearestScan prim lsh.number_of_nearest q)
    (fun _ => rfl) (lsh.findAllLoop prim q) (fun _ => rfl)
    (fun i rest st => by
      rw [findAllLoop_cons]
      cases lsh.queryBucket prim q i with
      | none => rfl
      | some b =>
        dsimp only
        cases nearestScan prim lsh.number_of_nearest q b st <;> rfl)
    ([], initialMinDist)
  have hR := tablesLoop_range prim lsh q
    (fun bucket_images s => some (bucket_images.foldl (radiusStep prim lsh.radius q) s))
    (fun _ => rfl) (lsh.radiusLoop prim q) (fun _ => rfl)
    (fun i rest s => by rw [radiusLoop_cons]) []
  refine ⟨⟨?_, hR.1⟩, ?_⟩
  · unfold LSH.FindAllNearestNeighborsTables LSH.FindAllNearestNeighbors
    rw [← hA.1]
    cases lsh.tablesLoop prim q (nearestScan prim lsh.number_of_nearest q)
      (List.range lsh.number_of_hash_tables) (([], initialMinDist), lsh.hash_tables) <;> rfl
  · intro res tables1 h
    rcases h with h | h
    · unfold LSH.FindAllNearestNeighborsTables at h
      cases hrun : lsh.tablesLoop prim q (nearestScan prim lsh.number_of_nearest q)
        (List.range lsh.number_of_hash_tables) (([], initialMinDist), lsh.hash_tables) with
      | none => simp [hrun] at h
      | some r =>
        simp only [hrun, Option.some.injEq, Prod.mk.injEq] at h
        obtain ⟨r1, r2⟩ := r
        exact h.2 ▸ hA.2 r1 r2 hrun
    · exact hR.2 res tables1 h

/-! ### The graphs after `Initialization` -/

theorem pushEdges_length (node : Nat) (ids : List Nat) (graph g1 : List (List Nat))
    (h : pushEdges node ids graph = some g1) : g1.length = graph.length := by
  induction ids generalizing graph with
  | nil =>
    simp only [pushEdges, Option.some.injEq] at h
    rw [h]
  | cons id rest ih =>
    simp only [pushEdges] at h
    cases hadj : graph[node]? with
    | none => simp [hadj] at h
    | some adj =>
      simp only [hadj] at h
      rw [ih _ h, List.length_set]

theorem pushEdges_isSome (node : Nat) (ids : List Nat) (graph : List (List Nat))
    (h : node < graph.length) : ∃ g1, pushEdges node ids graph = some g1 := by
  induction ids generalizing graph with
  | nil => exact ⟨graph, rfl⟩
  | cons id rest ih =>
    simp only [pushEdges, List.getElem?_eq_getElem h]
    exact ih _ (by rw [List.length_set]; exact h)

theorem edgesLoop_length (candidates : Image → Option (List Nat)) (l : List Image)
    (graph g1 : List (List Nat)) (h : edgesLoop candidates l graph = some g1) :
    g1.length = graph.length := by
  induction l generalizing graph with
  | nil =>
    simp only [edgesLoop, Option.some.injEq] at h
    rw [h]
  | cons a l ih =>
    simp only [edgesLoop] at h
    cases hc : candidates a with
    | none => simp [hc] at h
    | some ids =>
      simp only [hc] at h
      cases hp : pushEdges a.index ids graph with
      | none => simp [hp] at h
      | some g2 =>
        simp only [hp] at h
        rw [ih g2 h, pushEdges_length _ _ _ _ hp]

/-- The loop completes when every image has candidates and an adjacency list. -/
theorem edgesLoop_isSome (candidates : Image → Option (List Nat)) (l : List Image)
    (graph : List (List Nat)) (hc : ∀ p ∈ l, ∃ ids, candidates p = some ids)
    (hlt : ∀ p ∈ l, p.index < graph.length) :
    ∃ g1, edgesLoop candidates l graph = some g1 := by
  induction l generalizing graph with
  | nil => exact ⟨graph, rfl⟩
  | cons a l ih =>
    obtain ⟨ids, hids⟩ := hc a (List.mem_cons_self _ _)
    obtain ⟨g2, hg2⟩ := pushEdges_isSome a.index ids graph (hlt a (List.mem_cons_self _ _))
    simp only [edgesLoop, hids, hg2]
    exact ih g2 (fun p hp => hc p (List.mem_cons_of_mem _ hp))
      (fun p hp => by
        rw [pushEdges_length _ _ _ _ hg2]
        exact hlt p (List.mem_cons_of_mem _ hp))

/-- Pairwise distinct ids below the number of images are all the numbers below it. -/
theorem ids_cover (images : List Image) (hids : (images.map Image.index).Nodup)
    (hlt : ∀ p ∈ images, p.index < images.length) (node : Nat) (hnode : node < images.length) :
    ∃ p ∈ images, p.index = node := by
  have hsub : (images.map Image.index).toFinset ⊆ Finset.range images.length := by
    intro x hx
    rw [List.mem_toFinset, List.mem_map] at hx
    obtain ⟨p, hp, hpx⟩ := hx
    rw [Finset.mem_range, ← hpx]
    exact hlt p hp
  have hcard : (Finset.range images.length).card ≤ (images.map Image.index).toFinset.card := by
    rw [List.toFinset_card_of_nodup hids, Finset.card_range, List.length_map]
  have heq := Finset.eq_of_subset_of_card_le hsub hcard
  have hmem : node ∈ (images.map Image.index).toFinset := by
    rw [heq, Finset.mem_range]
    exact hnode
  rw [List.mem_toFinset, List.mem_map] at hmem
  exact hmem

theorem set_difference_nil (l : List Image) : set_difference l [] = l := by
  cases l with
  | nil => rfl
  | cons a rest => simp [set_difference, skipBefore]

theorem mem_set_difference {x : Image} (l second : List Image)
    (h : x ∈ set_difference l second) : x ∈ l := by
  induction l generalizing second with
  | nil => simp [set_difference] at h
  | cons a rest ih =>
    simp only [set_difference] at h
    split at h
    · exact h
    · split at h
      · rcases List.mem_cons.1 h with h1 | h1
        · exact h1 ▸ List.mem_cons_self _ _
        · exact List.mem_cons_of_mem _ (ih _ h1)
      · exact List.mem_cons_of_mem _ (ih _ h)

theorem foldl_setInsert_ne_nil (l : List Image) (s : ImageSet) (h : s ≠ [] ∨ l ≠ []) :
    l.foldl (fun s1 x => setInsert x s1) s ≠ [] := by
  induction l generalizing s with
  | nil =>
    rcases h with h | h
    · exact h
    · exact absurd rfl h
  | cons a rest ih => exact ih _ (Or.inl (setInsert_ne_nil a s))

theorem mem_foldl_setInsert {y : Image} (l : List Image) (s : ImageSet)
    (h : y ∈ l.foldl (fun s1 x => setInsert x s1) s) : y ∈ s ∨ y ∈ l := by
  induction l generalizing s with
  | nil => exact Or.inl h
  | cons a rest ih =>
    rcases ih _ h with h1 | h1
    · rcases mem_of_mem_setInsert h1 with h2 | h2
      · exact Or.inr (h2 ▸ List.mem_cons_self _ _)
      · exact Or.inl h2
    · exact Or.inr (List.mem_cons_of_mem _ h1)

theorem admissionStep_ne_nil {P : Type} (prim : Primitives P) (p : Image)
    (st : Bool × ImageSet) (r : Image) (h : st.2 ≠ []) :
    (MRNG.admissionStep prim p st r).2 ≠ [] := by
  rw [admissionStep_snd]
  split
  · exact setInsert_ne_nil _ _
  · exact h

theorem foldl_admissionStep_ne_nil {P : Type} (prim : Primitives P) (p : Image)
    (l : List Image) (st : Bool × ImageSet) (h : st.2 ≠ []) :
    (l.foldl (MRNG.admissionStep prim p) st).2 ≠ [] := by
  induction l generalizing st with
  | nil => exact h
  | cons r rest ih => exact ih _ (admissionStep_ne_nil prim p st r h)

/-- The set `Lp` after the admission loop is not empty when the dataset is not: when the
LSH result is empty the first point of `Rp_minus_Lp` is admitted. -/
theorem admission_ne_nil {P : Type} (prim : Primitives P) (p : Image) (images : List Image)
    (Lp : ImageSet) (himages : images ≠ []) :
    (MRNG.admission prim p (MRNG.Rp_minus_Lp images Lp) Lp).2 ≠ [] := by
  unfold MRNG.admission
  cases Lp with
  | cons t rest => exact foldl_admissionStep_ne_nil prim p _ _ (List.cons_ne_nil _ _)
  | nil =>
    have hne : MRNG.Rp_minus_Lp images [] ≠ [] := by
      unfold MRNG.Rp_minus_Lp
      rw [set_difference_nil]
      exact foldl_setInsert_ne_nil images [] (Or.inr himages)
    cases hR : MRNG.Rp_minus_Lp images [] with
    | nil => exact absurd hR hne
    | cons r rs =>
      rw [List.foldl_cons]
      apply foldl_admissionStep_ne_nil
      have h1 : (MRNG.admissionStep prim p (true, []) r).1 = true :=
        (admissionStep_condition_iff prim p (true, []) r).2 ⟨rfl, fun t ht => by cases ht⟩
      rw [admissionStep_snd, if_pos h1]
      exact setInsert_ne_nil _ _

/-- Every element of the set `Lp` after the admission loop is an LSH candidate or an image
of the dataset. -/
theorem mem_admission {P : Type} (prim : Primitives P) (p : Image) (images : List Image)
    (Lp : ImageSet) (y : Image)
    (h : y ∈ (MRNG.admission prim p (MRNG.Rp_minus_Lp images Lp) Lp).2) :
    y ∈ Lp ∨ y ∈ images := by
  have hfold : ∀ (l : List Image) (st : Bool × ImageSet),
      y ∈ (l.foldl (MRNG.admissionStep prim p) st).2 → y ∈ st.2 ∨ y ∈ l := by
    intro l
    induction l with
    | nil => exact fun st h1 => Or.inl h1
    | cons r rest ih =>
      intro st h1
      rcases ih _ h1 with h2 | h2
      · rw [admissionStep_snd] at h2
        split at h2
        · rcases mem_of_mem_setInsert h2 with h3 | h3
          · exact Or.inr (h3 ▸ List.mem_cons_self _ _)
          · exact Or.inl h3
        · exact Or.inl h2
      · exact Or.inr (List.mem_cons_of_mem _ h2)
  rcases hfold _ _ h with h1 | h1
  · exact Or.inl h1
  · unfold MRNG.Rp_minus_Lp at h1
    rcases mem_foldl_setInsert _ _ h1 with h2 | h2
    · cases h2
    · exact Or.inr (mem_set_difference _ _ h2)

theorem insertCapped_ascending (N : Int) (x : Image) (s : ImageSet) (h : Ascending s) :
    Ascending (insertCapped N x s) := by
  unfold insertCapped
  simp only
  split
  · exact ascending_dropLast (setInsert_ascending h)
  · exact setInsert_ascending h

theorem mem_insertCapped (N : Int) (x y : Image) (s : ImageSet)
    (h : y ∈ insertCapped N x s) : y = x ∨ y ∈ s := by
  unfold insertCapped at h
  simp only at h
  split at h
  · exact mem_of_mem_setInsert (List.mem_of_mem_dropLast h)
  · exact mem_of_mem_setInsert h

/-- The bounded insertion keeps a set of at most `N` entries (none for `N ≤ 0`) at most
that large. -/
theorem insertCapped_length (N : Int) (x : Image) (s : ImageSet) (h : s.length ≤ N.toNat) :
    (insertCapped N x s).length ≤ N.toNat := by
  have h1 := setInsert_length_le x s
  unfold insertCapped
  simp only
  split
  · rw [List.length_dropLast]
    omega
  · omega

/-- The bounded Candidate Set after the members of a bucket have been fed into it. -/
theorem foldl_insertCapped_inv {P : Type} (prim : Primitives P) (N : Int) (q : Image)
    (b : List Image) (s : ImageSet) (hasc : Ascending s) (hlen : s.length ≤ N.toNat) :
    Ascending (b.foldl (fun s1 img => insertCapped N
        (img.SetDist (prim.CalculateDistance 2 q.data img.data)) s1) s) ∧
    (b.foldl (fun s1 img => insertCapped N
        (img.SetDist (prim.CalculateDistance 2 q.data img.data)) s1) s).length ≤ N.toNat ∧
    ∀ y ∈ b.foldl (fun s1 img => insertCapped N
        (img.SetDist (prim.CalculateDistance 2 q.data img.data)) s1) s,
      y ∈ s ∨ ∃ x ∈ b, y = x.SetDist (prim.CalculateDistance 2 q.data x.data) := by
  induction b generalizing s with
  | nil => exact ⟨hasc, hlen, fun y hy => Or.inl hy⟩
  | cons a l ih =>
    rw [List.foldl_cons]
    obtain ⟨h1, h2, h3⟩ := ih _ (insertCapped_ascending N _ s hasc)
      (insertCapped_length N _ s hlen)
    refine ⟨h1, h2, fun y hy => ?_⟩
    rcases h3 y hy with h4 | ⟨x, hx, hyx⟩
    · rcases mem_insertCapped N _ y s h4 with h5 | h5
      · exact Or.inr ⟨a, List.mem_cons_self _ _, h5⟩
      · exact Or.inl h5
    · exact Or.inr ⟨x, List.mem_cons_of_mem _ hx, hyx⟩

theorem topNLoop_cons {P : Type} (prim : Primitives P) (lsh : LSH P) (N : Int) (q : Image)
    (i : Nat) (rest : List Nat) (s : ImageSet) :
    lsh.topNLoop prim N q (i :: rest) s =
      match lsh.queryBucket prim q i with
      | none => none
      | some b => lsh.topNLoop prim N q rest
          (b.foldl (fun s1 img => insertCapped N
            (img.SetDist (prim.CalculateDistance 2 q.data img.data)) s1) s) := by
  simp only [LSH.topNLoop]

/-- The loop of the LSH query over the tables returns when the query hashes to a bucket in
each table. -/
theorem topNLoop_isSome {P : Type} (prim : Primitives P) (lsh : LSH P) (N : Int) (q : Image)
    (tables : List Nat) (s : ImageSet)
    (hdef : ∀ i ∈ tables, ∃ b, lsh.queryBucket prim q i = some b) :
    ∃ res, lsh.topNLoop prim N q tables s = some res := by
  induction tables generalizing s with
  | nil => exact ⟨s, rfl⟩
  | cons i rest ih =>
    obtain ⟨b, hb⟩ := hdef i (List.mem_cons_self _ _)
    rw [topNLoop_cons]
    simp only [hb]
    exact ih _ (fun j hj => hdef j (List.mem_cons_of_mem _ hj))

/-- The set that the loop of the LSH query over the tables returns is ascending, holds at
most `N` entries (none for `N ≤ 0`), and each entry is a member of a scanned bucket with its
distance to the query stored. -/
theorem topNLoop_spec {P : Type} (prim : Primitives P) (lsh : LSH P) (N : Int) (q : Image)
    (tables : List Nat) (s res : ImageSet)
    (hrun : lsh.topNLoop prim N q tables s = some res)
    (hasc : Ascending s) (hlen : s.length ≤ N.toNat) :
    Ascending res ∧ res.length ≤ N.toNat ∧
      ∀ y ∈ res, y ∈ s ∨ ∃ i ∈ tables, ∃ b, lsh.queryBucket prim q i = some b ∧
        ∃ x ∈ b, y = x.SetDist (prim.CalculateDistance 2 q.data x.data) := by
  induction tables generalizing s with
  | nil =>
    simp only [LSH.topNLoop, Option.some.injEq] at hrun
    subst hrun
    exact ⟨hasc, hlen, fun y hy => Or.inl hy⟩
  | cons i rest ih =>
    rw [topNLoop_cons] at hrun
    cases hb : lsh.queryBucket prim q i with
    | none => simp [hb] at hrun
    | some b =>
      simp only [hb] at hrun
      obtain ⟨h1, h2, h3⟩ := foldl_insertCapped_inv prim N q b s hasc hlen
      obtain ⟨g1, g2, g3⟩ := ih _ hrun h1 h2
      refine ⟨g1, g2, fun y hy => ?_⟩
      rcases g3 y hy with k1 | ⟨j, hj, bj, hbj, hx⟩
      · rcases h3 y k1 with k2 | k2
        · exact Or.inl k2
        · exact Or.inr ⟨i, List.mem_cons_self _ _, b, hb, k2⟩
      · exact Or.inr ⟨j, List.mem_cons_of_mem _ hj, bj, hbj, hx⟩

/-- The LSH query with `n` neighbours returns when the query hashes to a bucket in each
table. -/
theorem findNearestNeighbors_isSome {P : Type} (prim : Primitives P) (lsh : LSH P) (n : Int)
    (q : Image)
    (hdef : ∀ i, i < lsh.number_of_hash_tables → ∃ b, lsh.queryBucket prim q i = some b) :
    ∃ cand, lsh.FindNearestNeighbors prim n q = some cand :=
  topNLoop_isSome prim lsh n q (List.range lsh.number_of_hash_tables) []
    (fun i hi => hdef i (List.mem_range.1 hi))

/-- The result of the LSH query with `n` neighbours is ascending, of members of the scanned
buckets, hence of dataset images when the buckets hold dataset images, and has at most `n`
entries (none for `n ≤ 0`). -/
theorem findNearestNeighbors_of_some {P : Type} (prim : Primitives P) (lsh : LSH P) (n : Int)
    (q : Image) (images : List Image)
    (hbuckets : bucketsFromDataset lsh.hash_tables images) (cand : ImageSet)
    (hcand : lsh.FindNearestNeighbors prim n q = some cand) :
    Ascending cand ∧
      (∀ y ∈ cand, ∃ img ∈ images, img.index = y.index ∧ img.data = y.data) ∧
      cand.length ≤ n.toNat := by
  obtain ⟨hasc, hlen, hfrom⟩ := topNLoop_spec prim lsh n q
    (List.range lsh.number_of_hash_tables) [] cand hcand List.Pairwise.nil (Nat.zero_le _)
  refine ⟨hasc, fun y hy => ?_, hlen⟩
  rcases hfrom y hy with h | ⟨i, _, b, hb, x, hx, hyx⟩
  · cases h
  · obtain ⟨img, himg, hidx, hdata⟩ := queryBucket_fromDataset prim lsh q images hbuckets
      i b hb x hx
    exact ⟨img, himg, by rw [hyx]; exact hidx, by rw [hyx]; exact hdata⟩

theorem findNearestNeighbors_spec {P : Type} (prim : Primitives P) (lsh : LSH P) (n : Int)
    (q : Image) (images : List Image)
    (hbuckets : bucketsFromDataset lsh.hash_tables images)
    (hdef : ∀ i, i < lsh.number_of_hash_tables → ∃ b, lsh.queryBucket prim q i = some b) :
    ∃ cand, lsh.FindNearestNeighbors prim n q = some cand ∧ Ascending cand ∧
      (∀ y ∈ cand, ∃ img ∈ images, img.index = y.index ∧ img.data = y.data) ∧
      cand.length ≤ n.toNat := by
  obtain ⟨cand, hcand⟩ := findNearestNeighbors_isSome prim lsh n q hdef
  exact ⟨cand, hcand, findNearestNeighbors_of_some prim lsh n q images hbuckets cand hcand⟩

/-- The point that `FindNearestNeighbor` returns has the id of a dataset image, on an index
whose buckets hold dataset images. -/
theorem findNearestNeighbor_of_some {P : Type} (prim : Primitives P) (m : MRNG P) (q : Image)
    (hbuckets : bucketsFromDataset m.lsh.hash_tables m.images) (nn : Image)
    (hnn : m.FindNearestNeighbor prim q = some nn) : ∃ img ∈ m.images, img.index = nn.index := by
  unfold MRNG.FindNearestNeighbor MRNG.expandedLp at hnn
  cases hLp : m.lsh.FindNearestNeighbors prim m.no_candinates q with
  | none => simp [hLp] at hnn
  | some Lp =>
    simp only [hLp] at hnn
    obtain ⟨_, hfrom, _⟩ := findNearestNeighbors_of_some prim m.lsh m.no_candinates q m.images
      hbuckets Lp hLp
    have hmem : nn ∈ (MRNG.admission prim q (MRNG.Rp_minus_Lp m.images Lp) Lp).2 :=
      List.mem_of_mem_head? hnn
    rcases mem_admission prim q m.images Lp nn hmem with h1 | h1
    · obtain ⟨img, himg, hidx, _⟩ := hfrom nn h1
      exact ⟨img, himg, hidx⟩
    · exact ⟨nn, h1, rfl⟩

/-- `FindNearestNeighbor` returns for a dataset that is not empty, when the query hashes to
a bucket in each table; the point returned has the id of a dataset image. -/
theorem findNearestNeighbor_spec {P : Type} (prim : Primitives P) (m : MRNG P) (q : Image)
    (himages : m.images ≠ [])
    (hbuckets : bucketsFromDataset m.lsh.hash_tables m.images)
    (hdef : ∀ i, i < m.lsh.number_of_hash_tables → ∃ b, m.lsh.queryBucket prim q i = some b) :
    ∃ nn, m.FindNearestNeighbor prim q = some nn ∧ ∃ img ∈ m.images, img.index = nn.index := by
  obtain ⟨Lp, hLp, _, hfrom, _⟩ := findNearestNeighbors_spec prim m.lsh m.no_candinates q
    m.images hbuckets hdef
  have hne := admission_ne_nil prim q m.images Lp himages
  cases hhead : (MRNG.admission prim q (MRNG.Rp_minus_Lp m.images Lp) Lp).2 with
  | nil => exact absurd hhead hne
  | cons nn rest =>
    refine ⟨nn, by simp only [MRNG.FindNearestNeighbor, MRNG.expandedLp, hLp, hhead,
      List.head?_cons], ?_⟩
    have hmem : nn ∈ (MRNG.admission prim q (MRNG.Rp_minus_Lp m.images Lp) Lp).2 := by
      rw [hhead]
      exact List.mem_cons_self _ _
    rcases mem_admission prim q m.images Lp nn hmem with h1 | h1
    · obtain ⟨img, himg, hidx, _⟩ := hfrom nn h1
      exact ⟨img, himg, hidx⟩
    · exact ⟨nn, h1, rfl⟩

/-- C14: for a dataset with pairwise distinct ids below its size, an index whose buckets
hold dataset images and every number of candidates: in the graph that MRNG construction
returns, every node has an adjacency list of exactly one entry, and the entry is the id of a
dataset image, below the dataset size; the construction does return a graph when the index
answers the query of every dataset point. -/
theorem mrng_one_edge_per_node {P : Type} (prim : Primitives P) (lsh : LSH P)
    (images : List Image) (c : Int) (hids : (images.map Image.index).Nodup)
    (hlt : ∀ p ∈ images, p.index < images.length)
    (hbuckets : bucketsFromDataset lsh.hash_tables images) :
    (∀ m, MRNG.Initialization prim (MRNG.new images lsh c) = some m →
      m.graph.length = images.length ∧
      ∀ node, node < images.length → ∃ target, m.graph[node]? = some [target] ∧
        target < images.length ∧ ∃ img ∈ images, img.index = target) ∧
    ((∀ p ∈ images, ∀ i, i < lsh.number_of_hash_tables →
        ∃ b, lsh.queryBucket prim p i = some b) →
      ∃ m, MRNG.Initialization prim (MRNG.new images lsh c) = some m) := by
  constructor
  · intro m hm
    unfold MRNG.Initialization at hm
    cases hloop : MRNG.initLoop prim (MRNG.new images lsh c) (MRNG.new images lsh c).images
        (MRNG.new images lsh c).graph with
    | none => simp [hloop] at hm
    | some g1 =>
      simp only [hloop, Option.some.injEq] at hm
      subst hm
      rw [mrng_initLoop_eq] at hloop
      have hg1 : edgesLoop
          (fun p => ((MRNG.new images lsh c).FindNearestNeighbor prim p).map
            (fun nn => [nn.index]))
          images (List.replicate images.length []) = some g1 := hloop
      have hlen := edgesLoop_length _ _ _ _ hg1
      rw [List.length_replicate] at hlen
      refine ⟨hlen, fun node hnode => ?_⟩
      obtain ⟨p, hp, hpn⟩ := ids_cover images hids hlt node hnode
      obtain ⟨ids, hc, hgraph⟩ := edgesLoop_fresh _ images _ g1 hids hg1 p hp (hlt p hp)
      cases hnn : (MRNG.new images lsh c).FindNearestNeighbor prim p with
      | none => simp [hnn] at hc
      | some nn =>
        simp only [hnn, Option.map_some', Option.some.injEq] at hc
        obtain ⟨img, himg, hidx⟩ := findNearestNeighbor_of_some prim (MRNG.new images lsh c) p
          hbuckets nn hnn
        refine ⟨nn.index, ?_, ?_, img, himg, hidx⟩
        · rw [← hpn, hc]
          exact hgraph
        · rw [← hidx]
          exact hlt img himg
  · intro hdef
    have hcand : ∀ p ∈ images,
        ∃ nn, (MRNG.new images lsh c).FindNearestNeighbor prim p = some nn ∧
          ∃ img ∈ images, img.index = nn.index := fun p hp =>
      findNearestNeighbor_spec prim (MRNG.new images lsh c) p (List.ne_nil_of_mem hp) hbuckets
        (hdef p hp)
    obtain ⟨g1, hg1⟩ := edgesLoop_isSome
      (fun p => ((MRNG.new images lsh c).FindNearestNeighbor prim p).map (fun nn => [nn.index]))
      images (List.replicate images.length [])
      (fun p hp => by
        obtain ⟨nn, hnn, _⟩ := hcand p hp
        exact ⟨[nn.index], by simp only [hnn, Option.map_some']⟩)
      (fun p hp => by rw [List.length_replicate]; exact hlt p hp)
    refine ⟨{ MRNG.new images lsh c with graph := g1 }, ?_⟩
    unfold MRNG.Initialization
    rw [mrng_initLoop_eq]
    have h : edgesLoop
        (fun p => ((MRNG.new images lsh c).FindNearestNeighbor prim p).map
          (fun nn => [nn.index]))
        (MRNG.new images lsh c).images (MRNG.new images lsh c).graph = some g1 := hg1
    rw [h]

/-- The statement of C14 on the sixteen-point dataset: with one LSH candidate the
construction returns the graph in which every node has the edge to node `0`, and it returns
the same graph with no candidate at all. -/
theorem mrng_one_edge_per_node_witness :
    (sixteenImages.map Image.index).Nodup ∧
    bucketsFromDataset builtIndex.hash_tables sixteenImages ∧
    MRNG.Initialization prim1D (MRNG.new sixteenImages builtIndex 1) = some exampleMRNGBuilt ∧
    (exampleMRNGBuilt.graph.length = sixteenImages.length ∧
      ∀ node, node < sixteenImages.length → ∃ target,
        exampleMRNGBuilt.graph[node]? = some [target] ∧
        target < sixteenImages.length ∧ ∃ img ∈ sixteenImages, img.index = target) ∧
    (MRNG.Initialization prim1D (MRNG.new sixteenImages builtIndex 0)).map
      (fun m => m.graph) = some (List.replicate 16 [0]) ∧
    ∃ m, MRNG.Initialization prim1D (MRNG.new sixteenImages builtIndex 0) = some m := by
  set_option maxRecDepth 100000 in
  exact ⟨by decide, by decide, by rfl,
    (mrng_one_edge_per_node prim1D builtIndex sixteenImages 1 (by decide) (by decide)
      (by decide)).1 exampleMRNGBuilt (by rfl), by rfl,
    (mrng_one_edge_per_node prim1D builtIndex sixteenImages 0 (by decide) (by decide)
      (by decide)).2
      (fun p _ i hi => queryBucket_isSome prim1D builtIndex p i (by decide)
        (lt_of_lt_of_le hi (by decide)) (lt_of_lt_of_le hi (by decide)))⟩

/-- C15: after MRNG `Initialization` over a dataset with pairwise distinct ids below its
size, for every dataset point `p` the adjacency list stored for `p` is the single id of the
point that `FindNearestNeighbor(p)` returns on the built instance, which is the point that
the loop body of `Initialization` computes for `p`. -/
theorem mrng_edge_is_findNearestNeighbor {P : Type} (prim : Primitives P) (lsh : LSH P)
    (images : List Image) (c : Int) (hids : (images.map Image.index).Nodup)
    (hlt : ∀ p ∈ images, p.index < images.length) (m : MRNG P)
    (hm : MRNG.Initialization prim (MRNG.new images lsh c) = some m)
    (p : Image) (hp : p ∈ images) :
    ∃ nn, m.FindNearestNeighbor prim p = some nn ∧ m.initializationNearest prim p = some nn ∧
      m.graph[p.index]? = some [nn.index] := by
  unfold MRNG.Initialization at hm
  cases hloop : MRNG.initLoop prim (MRNG.new images lsh c) (MRNG.new images lsh c).images
      (MRNG.new images lsh c).graph with
  | none => simp [hloop] at hm
  | some graph =>
    simp only [hloop, Option.some.injEq] at hm
    subst hm
    rw [mrng_initLoop_eq] at hloop
    obtain ⟨ids, hc, hgraph⟩ := edgesLoop_fresh _ images _ graph hids hloop p hp (hlt p hp)
    cases hnn : (MRNG.new images lsh c).FindNearestNeighbor prim p with
    | none => simp [hnn] at hc
    | some nn =>
      simp only [hnn, Option.map_some', Option.some.injEq] at hc
      refine ⟨nn, hnn, ?_, ?_⟩
      · rw [initializationNearest_eq]
        exact hnn
      · rw [hc]
        exact hgraph

/-- The statement of C15 on the sixteen-point dataset, for the point id 5: the edge stored
is `5 → 0`, and `FindNearestNeighbor` returns the point id 0. -/
theorem mrng_edge_is_findNearestNeighbor_witness :
    (sixteenImages.map Image.index).Nodup ∧
    exampleMRNGBuilt.FindNearestNeighbor prim1D ⟨5, pixels1D 20, 0⟩
      = some ⟨0, pixels1D 0, 0⟩ ∧
    ∃ nn, exampleMRNGBuilt.FindNearestNeighbor prim1D ⟨5, pixels1D 20, 0⟩ = some nn ∧
      exampleMRNGBuilt.initializationNearest prim1D ⟨5, pixels1D 20, 0⟩ = some nn ∧
      exampleMRNGBuilt.graph[(⟨5, pixels1D 20, 0⟩ : Image).index]? = some [nn.index] := by
  set_option maxRecDepth 100000 in
  exact ⟨by decide, by rfl,
    mrng_edge_is_findNearestNeighbor prim1D builtIndex sixteenImages 1 (by decide) (by decide)
      exampleMRNGBuilt (by rfl) ⟨5, pixels1D 20, 0⟩ (by decide)⟩

/-- C17: for a dataset with pairwise distinct ids below its size, an index whose buckets
hold dataset images and every `no_lsh_neighbors`: in the graph that GNNS `Initialization`
returns on a freshly constructed instance, for every dataset point `p` the adjacency list
of `p` is the list of ids of the result of the LSH query
`FindNearestNeighbors(no_lsh_neighbors, p)`, in the ascending `(distance, id)` order of that
result; it has at most `no_lsh_neighbors` entries (none when `no_lsh_neighbors` is
negative), and every entry is the id of a dataset image, below the dataset size;
`Initialization` does return a graph when the index answers the query of every dataset
point. -/
theorem gnns_adjacency_is_lsh_result {P : Type} (prim : Primitives P) (lsh : LSH P)
    (images : List Image) (n e : Int) (r : Nat) (hids : (images.map Image.index).Nodup)
    (hlt : ∀ p ∈ images, p.index < images.length)
    (hbuckets : bucketsFromDataset lsh.hash_tables images) :
    (∀ g, GNNS.Initialization prim lsh (GNNS.new images n e r) = some g →
      g.graph.length = images.length ∧
      ∀ p ∈ images, ∃ cand, lsh.FindNearestNeighbors prim n p = some cand ∧ Ascending cand ∧
        g.graph[p.index]? = some (cand.map Image.index) ∧
        (cand.map Image.index).length ≤ n.toNat ∧
        (0 ≤ n → ((cand.map Image.index).length : Int) ≤ n) ∧
        ∀ target ∈ cand.map Image.index,
          target < images.length ∧ ∃ img ∈ images, img.index = target) ∧
    ((∀ p ∈ images, ∀ i, i < lsh.number_of_hash_tables →
        ∃ b, lsh.queryBucket prim p i = some b) →
      ∃ g, GNNS.Initialization prim lsh (GNNS.new images n e r) = some g) := by
  constructor
  · intro g hg
    unfold GNNS.Initialization at hg
    cases hloop : GNNS.initLoop prim lsh (GNNS.new images n e r).no_lsh_neighbors
        (GNNS.new images n e r).input (GNNS.new images n e r).graph with
    | none => simp [hloop] at hg
    | some g1 =>
      simp only [hloop, Option.some.injEq] at hg
      subst hg
      rw [gnns_initLoop_eq] at hloop
      have hg1 : edgesLoop
          (fun p => (lsh.FindNearestNeighbors prim n p).map (List.map Image.index))
          images (List.replicate images.length []) = some g1 := hloop
      have hlen := edgesLoop_length _ _ _ _ hg1
      rw [List.length_replicate] at hlen
      refine ⟨hlen, fun p hp => ?_⟩
      obtain ⟨ids, hc, hgraph⟩ := edgesLoop_fresh _ images _ g1 hids hg1 p hp (hlt p hp)
      cases hcd : lsh.FindNearestNeighbors prim n p with
      | none => simp [hcd] at hc
      | some cand =>
        simp only [hcd, Option.map_some', Option.some.injEq] at hc
        obtain ⟨hasc, hfrom, hbound⟩ := findNearestNeighbors_of_some prim lsh n p images
          hbuckets cand hcd
        refine ⟨cand, rfl, hasc, ?_, ?_, ?_, ?_⟩
        · rw [hc]
          exact hgraph
        · rw [List.length_map]
          exact hbound
        · intro hn
          rw [List.length_map]
          omega
        · intro target ht
          obtain ⟨y, hy, hyt⟩ := List.mem_map.1 ht
          obtain ⟨img, himg, hidx, _⟩ := hfrom y hy
          exact ⟨by rw [← hyt, ← hidx]; exact hlt img himg, img, himg, by rw [hidx, hyt]⟩
  · intro hdef
    obtain ⟨g1, hg1⟩ := edgesLoop_isSome
      (fun p => (lsh.FindNearestNeighbors prim n p).map (List.map Image.index))
      images (List.replicate images.length [])
      (fun p hp => by
        obtain ⟨cand, hc⟩ := findNearestNeighbors_isSome prim lsh n p (hdef p hp)
        exact ⟨cand.map Image.index, by simp only [hc, Option.map_some']⟩)
      (fun p hp => by rw [List.length_replicate]; exact hlt p hp)
    refine ⟨{ GNNS.new images n e r with graph := g1 }, ?_⟩
    unfold GNNS.Initialization
    rw [gnns_initLoop_eq]
    have h : edgesLoop
        (fun p => (lsh.FindNearestNeighbors prim (GNNS.new images n e r).no_lsh_neighbors p).map
          (List.map Image.index))
        (GNNS.new images n e r).input (GNNS.new images n e r).graph = some g1 := hg1
    rw [h]

/-- The statement of C17 on the sixteen-point dataset: with three LSH neighbours per node
`Initialization` returns `exampleGNNS`, whose adjacency lists are the three nearest points
of each node; with no LSH neighbour it returns the graph without edges. -/
theorem gnns_adjacency_is_lsh_result_witness :
    (sixteenImages.map Image.index).Nodup ∧
    bucketsFromDataset builtIndex.hash_tables sixteenImages ∧
    GNNS.Initialization prim1D builtIndex (GNNS.new sixteenImages 3 2 1) = some exampleGNNS ∧
    (GNNS.Initialization prim1D builtIndex (GNNS.new sixteenImages 0 2 1)).map
      (fun g => g.graph) = some (List.replicate 16 []) ∧
    (exampleGNNS.graph.length = sixteenImages.length ∧
      ∀ p ∈ sixteenImages, ∃ cand, builtIndex.FindNearestNeighbors prim1D 3 p = some cand ∧
        Ascending cand ∧ exampleGNNS.graph[p.index]? = some (cand.map Image.index) ∧
        (cand.map Image.index).length ≤ (3 : Int).toNat ∧
        ((0 : Int) ≤ 3 → ((cand.map Image.index).length : Int) ≤ 3) ∧
        ∀ target ∈ cand.map Image.index,
          target < sixteenImages.length ∧ ∃ img ∈ sixteenImages, img.index = target) ∧
    ∃ g, GNNS.Initialization prim1D builtIndex (GNNS.new sixteenImages 3 2 1) = some g := by
  set_option maxRecDepth 100000 in
  exact ⟨by decide, by decide, by rfl, by rfl,
    (gnns_adjacency_is_lsh_result prim1D builtIndex sixteenImages 3 2 1 (by decide)
      (by decide) (by decide)).1 exampleGNNS (by rfl),
    (gnns_adjacency_is_lsh_result prim1D builtIndex sixteenImages 3 2 1 (by decide)
      (by decide) (by decide)).2
      (fun p _ i hi => queryBucket_isSome prim1D builtIndex p i (by decide)
        (lt_of_lt_of_le hi (by decide)) (lt_of_lt_of_le hi (by decide)))⟩

/-! ### The distance of `cluster.h` -/

theorem foldl_squares_bounds (a b : List Nat) (ha : ∀ x ∈ a, x < 256) (hb : ∀ x ∈ b, x < 256)
    (l : List Nat) (s : Int) :
    s ≤ l.foldl (fun sum i => sum + ((a.getD i 0 : Int) - (b.getD i 0 : Int)) ^ 2) s ∧
    l.foldl (fun sum i => sum + ((a.getD i 0 : Int) - (b.getD i 0 : Int)) ^ 2) s
      ≤ s + l.length * 65025 := by
  have hbyte : ∀ (v : List Nat), (∀ x ∈ v, x < 256) → ∀ i, v.getD i 0 < 256 := by
    intro v hv i
    rw [List.getD_eq_getElem?_getD]
    cases h : v[i]? with
    | none => simp
    | some x => exact hv x (List.getElem?_mem h)
  induction l generalizing s with
  | nil => simp
  | cons i rest ih =>
    obtain ⟨h1, h2⟩ := ih (s + ((a.getD i 0 : Int) - (b.getD i 0 : Int)) ^ 2)
    have hx : ((a.getD i 0 : Nat) : Int) < 256 := by exact_mod_cast hbyte a ha i
    have hy : ((b.getD i 0 : Nat) : Int) < 256 := by exact_mod_cast hbyte b hb i
    have hx0 : (0 : Int) ≤ ((a.getD i 0 : Nat) : Int) := Int.natCast_nonneg _
    have hy0 : (0 : Int) ≤ ((b.getD i 0 : Nat) : Int) := Int.natCast_nonneg _
    have hsq0 : (0 : Int) ≤ ((a.getD i 0 : Int) - (b.getD i 0 : Int)) ^ 2 := sq_nonneg _
    have hsq : ((a.getD i 0 : Int) - (b.getD i 0 : Int)) ^ 2 ≤ 65025 := by nlinarith
    simp only [List.foldl_cons, List.length_cons, Nat.cast_add, Nat.cast_one]
    constructor
    · linarith
    · linarith

/-- For vectors of bytes the sum of squares is an integer between `0` and
`784 * 255^2 = 50979600`, below `2^53`: every partial sum is exactly representable. -/
theorem sumOfSquares_bounds (a b : List Nat) (ha : ∀ x ∈ a, x < 256) (hb : ∀ x ∈ b, x < 256) :
    0 ≤ Cluster.sumOfSquares a b ∧ Cluster.sumOfSquares a b ≤ 50979600 ∧
    (50979600 : Int) < 2 ^ 53 := by
  obtain ⟨h1, h2⟩ := foldl_squares_bounds a b ha hb (List.range 784) 0
  refine ⟨h1, ?_, by norm_num⟩
  rw [List.length_range] at h2
  have h3 : (0 : Int) + ((784 : Nat) : Int) * 65025 = 50979600 := by norm_num
  rw [h3] at h2
  exact h2

theorem foldl_add_zero (l : List Nat) (s : Int) : l.foldl (fun sum _ => sum + 0) s = s := by
  induction l generalizing s with
  | nil => rfl
  | cons i rest ih => simp [ih]

/-- C18: the sum of the squared component differences computed by `euclideanDistance` is
symmetric in its two vectors and is `0` when they are the same vector; hence, with
`sqrt(0) = 0`, `euclideanDistance(a, b) = euclideanDistance(b, a)` and
`euclideanDistance(a, a) = 0`. -/
theorem euclideanDistance_symm_zero (sqrt : Int → ℚ) (hsqrt : sqrt 0 = 0) (a b : List Nat) :
    Cluster.sumOfSquares a b = Cluster.sumOfSquares b a ∧
    Cluster.sumOfSquares a a = 0 ∧
    Cluster.euclideanDistance sqrt a b = Cluster.euclideanDistance sqrt b a ∧
    Cluster.euclideanDistance sqrt a a = 0 := by
  have hsymm : Cluster.sumOfSquares a b = Cluster.sumOfSquares b a := by
    unfold Cluster.sumOfSquares
    congr 1
    funext sum i
    ring
  have hzero : Cluster.sumOfSquares a a = 0 := by
    unfold Cluster.sumOfSquares
    simp only [sub_self, ne_eq, OfNat.ofNat_ne_zero, not_false_eq_true, zero_pow]
    exact foldl_add_zero _ 0
  refine ⟨hsymm, hzero, ?_, ?_⟩
  · unfold Cluster.euclideanDistance
    rw [hsymm]
  · unfold Cluster.euclideanDistance
    rw [hzero, hsqrt]

/-- The statement of C18 for the vectors at positions `3` and `7`. -/
theorem euclideanDistance_symm_zero_witness :
    exampleSqrt 0 = 0 ∧
    Cluster.euclideanDistance exampleSqrt (pixels1D 3) (pixels1D 7)
      = Cluster.euclideanDistance exampleSqrt (pixels1D 7) (pixels1D 3) ∧
    Cluster.euclideanDistance exampleSqrt (pixels1D 3) (pixels1D 3) = 0 := by
  have h0 : exampleSqrt 0 = 0 := by simp [exampleSqrt]
  have h := euclideanDistance_symm_zero exampleSqrt h0 (pixels1D 3) (pixels1D 7)
  have h1 := euclideanDistance_symm_zero exampleSqrt h0 (pixels1D 3) (pixels1D 3)
  exact ⟨h0, h.2.2.1, h1.2.2.2⟩

/-! ### The position of admitted points and the set difference of MRNG -/

/-- C19, evaluated at the failing input: MRNG `Initialization` over the sixteen-point
dataset with one LSH candidate, for the point id 5 at position `20`.  The admitted points
are inserted into `Lp` under the scratch distance they carry (`0`), not under their
distance to `p`, so the expanded `Lp` is ordered by id; its first element, the edge target
recorded for id 5, is id 0 at distance `20`, while `Lp` also holds id 4 at distance `9`. -/
theorem mrng_edge_example_not_nearest :
    exampleMRNG.expandedLp prim1D point5
      = some [⟨0, pixels1D 0, 0⟩, ⟨1, pixels1D 1, 0⟩, ⟨2, pixels1D 2, 0⟩, ⟨3, pixels1D 10, 0⟩,
          ⟨4, pixels1D 11, 0⟩, ⟨5, pixels1D 20, 0⟩, ⟨6, pixels1D 30, 0⟩] ∧
    (MRNG.Initialization prim1D exampleMRNG).map (fun m => m.graph[point5.index]?)
      = some (some [0]) ∧
    prim1D.CalculateDistance 2 point5.data (pixels1D 0) = 20 ∧
    prim1D.CalculateDistance 2 point5.data (pixels1D 11) = 9 := by
  set_option maxRecDepth 100000 in
  refine ⟨by rfl, by rfl, by rfl, by rfl⟩

/-- C20, evaluated at the failing input: MRNG `Initialization` over the sixteen-point
dataset with three LSH candidates, for the point id 5 at position `20`.  The LSH candidates
are id 5, id 4 and id 3 with their distances `0`, `9`, `10` stored; `std::set_difference`
compares them with the dataset images, which carry the scratch distance `0`, so only id 5
is found equivalent and removed: `Rp_minus_Lp` holds id 4 and id 3, which are members of
`Lp`. -/
theorem mrng_set_difference_example_keeps_candidates :
    exampleMRNG3.lsh.FindNearestNeighbors prim1D exampleMRNG3.no_candinates point5
      = some [⟨5, pixels1D 20, 0⟩, ⟨4, pixels1D 11, 9⟩, ⟨3, pixels1D 10, 10⟩] ∧
    MRNG.Rp_minus_Lp exampleMRNG3.images
        [⟨5, pixels1D 20, 0⟩, ⟨4, pixels1D 11, 9⟩, ⟨3, pixels1D 10, 10⟩]
      = sixteenImages.take 5 ++ sixteenImages.drop 6 ∧
    (⟨4, pixels1D 11, 0⟩ : Image) ∈ sixteenImages.take 5 ++ sixteenImages.drop 6 ∧
    (⟨3, pixels1D 10, 0⟩ : Image) ∈ sixteenImages.take 5 ++ sixteenImages.drop 6 := by
  set_option maxRecDepth 100000 in
  refine ⟨by rfl, by rfl, by decide, by decide⟩

/-! ### The first element of the exhaustive scan -/

/-- For a dataset that is not empty and whose distances to the query are below the initial
`min_dist`, the set that the exhaustive scan returns is not empty; its first element is a
dataset image with its distance stored, and no dataset image is nearer. -/
theorem bruteForce_first_spec {P : Type} (prim : Primitives P) (lsh : LSH P) (q : Image)
    (hne : lsh.images ≠ [])
    (hbound : ∀ img ∈ lsh.images, prim.CalculateDistance 2 q.data img.data < initialMinDist)
    (res : ImageSet) (hres : lsh.BruteForceNearestNeighbors prim q = some res) :
    ∃ first, res.head? = some first ∧
      (∃ img ∈ lsh.images, first = img.SetDist (prim.CalculateDistance 2 q.data img.data)) ∧
      ∀ img ∈ lsh.images, first.dist ≤ prim.CalculateDistance 2 q.data img.data := by
  obtain ⟨_, _, _, hfrom, _, _⟩ := foldl_nearestStepValue_inv prim lsh.number_of_nearest q
    lsh.images ([], initialMinDist) List.Pairwise.nil rfl (fun y hy => by cases hy)
  rw [← bruteForce_eq prim lsh q res hres] at hfrom
  cases himgs : lsh.images with
  | nil => exact absurd himgs hne
  | cons img0 rest =>
    have h0 : img0 ∈ lsh.images := by rw [himgs]; exact List.mem_cons_self _ _
    have hle0 := bruteForce_headDist_le prim lsh q res hres img0 h0
    cases hfirst : res.head? with
    | none =>
      simp only [headDist, hfirst] at hle0
      exact absurd (hbound img0 h0) (not_lt.2 hle0)
    | some first =>
      refine ⟨first, rfl, ?_, ?_⟩
      · have hmem : first ∈ res := List.mem_of_mem_head? hfirst
        rcases hfrom first hmem with h1 | ⟨x, hx, h1⟩
        · cases h1
        · exact ⟨x, himgs ▸ hx, h1⟩
      · intro img himg
        have h := bruteForce_headDist_le prim lsh q res hres img (himgs ▸ himg)
        simp only [headDist, hfirst] at h
        exact h

/-- C26: for a dataset that is not empty, `N ≥ 1` and distances to the query below the
initial `min_dist`, `BruteForceNearestNeighbors` returns a set whose first element is a
dataset image at the minimum distance to the query over the whole dataset; the distance of
the first element is the same for every order in which the dataset is scanned (with a
number of neighbours that is not `0`). -/
theorem bruteForce_first_is_nearest {P : Type} (prim : Primitives P) (lsh : LSH P) (q : Image)
    (hne : lsh.images ≠ []) (hN : 1 ≤ lsh.number_of_nearest)
    (hbound : ∀ img ∈ lsh.images, prim.CalculateDistance 2 q.data img.data < initialMinDist) :
    ∃ res first, lsh.BruteForceNearestNeighbors prim q = some res ∧
      res.head? = some first ∧
      (∃ img ∈ lsh.images, first = img.SetDist (prim.CalculateDistance 2 q.data img.data)) ∧
      (∀ img ∈ lsh.images, first.dist ≤ prim.CalculateDistance 2 q.data img.data) ∧
      ∀ other : LSH P, other.images.Perm lsh.images → other.number_of_nearest ≠ 0 →
        ∃ res1 first1, other.BruteForceNearestNeighbors prim q = some res1 ∧
          res1.head? = some first1 ∧ first1.dist = first.dist := by
  have hres := bruteForce_isSome prim lsh q (by omega)
  obtain ⟨first, hfirst, ⟨img, himg, hfi⟩, hmin⟩ :=
    bruteForce_first_spec prim lsh q hne hbound _ hres
  refine ⟨_, first, hres, hfirst, ⟨img, himg, hfi⟩, hmin, fun other hperm hN1 => ?_⟩
  have hne1 : other.images ≠ [] := fun h => hne (by
    have := hperm.length_eq
    rw [h] at this
    exact List.length_eq_zero.1 this.symm)
  have hres1 := bruteForce_isSome prim other q hN1
  obtain ⟨first1, hfirst1, ⟨img1, himg1, hfi1⟩, hmin1⟩ := bruteForce_first_spec prim other q hne1
    (fun x hx => hbound x (hperm.mem_iff.1 hx)) _ hres1
  refine ⟨_, first1, hres1, hfirst1, le_antisymm ?_ ?_⟩
  · have h := hmin1 img (hperm.mem_iff.2 himg)
    rw [hfi]
    exact h
  · have h := hmin img1 (hperm.mem_iff.1 himg1)
    rw [hfi1]
    exact h

/-- The statement of C26 on the index over sixteen points, query at position `11`: the
first element returned is id 4, at distance `0`. -/
theorem bruteForce_first_is_nearest_witness :
    builtIndex.images ≠ [] ∧ (1 : Int) ≤ builtIndex.number_of_nearest ∧
    (builtIndex.BruteForceNearestNeighbors prim1D (queryAt 11)).map List.head?
      = some (some ⟨4, pixels1D 11, 0⟩) ∧
    ∃ res first, builtIndex.BruteForceNearestNeighbors prim1D (queryAt 11) = some res ∧
      res.head? = some first ∧
      (∃ img ∈ builtIndex.images,
        first = img.SetDist (prim1D.CalculateDistance 2 (queryAt 11).data img.data)) ∧
      (∀ img ∈ builtIndex.images,
        first.dist ≤ prim1D.CalculateDistance 2 (queryAt 11).data img.data) ∧
      ∀ other : LSH Unit, other.images.Perm builtIndex.images →
        other.number_of_nearest ≠ 0 →
        ∃ res1 first1, other.BruteForceNearestNeighbors prim1D (queryAt 11) = some res1 ∧
          res1.head? = some first1 ∧ first1.dist = first.dist := by
  set_option maxRecDepth 100000 in
  exact ⟨by decide, by decide, by rfl,
    bruteForce_first_is_nearest prim1D builtIndex (queryAt 11) (by decide) (by decide)
      (by decide)⟩

/-! ### The exhaustive scan as a scan of one bucket -/

/-- C23: for every dataset, query and `N`, on an index with the same `N` and a single hash
table in which the bucket that the query hashes to is the whole dataset in dataset order,
`FindAllNearestNeighbors` returns the set that `BruteForceNearestNeighbors` returns, and
is undefined when `BruteForceNearestNeighbors` is. -/
theorem bruteForce_eq_findAll_single_bucket {P : Type} (prim : Primitives P)
    (lsh index : LSH P) (q : Image) (hL : index.number_of_hash_tables = 1)
    (hN : index.number_of_nearest = lsh.number_of_nearest)
    (hbucket : index.queryBucket prim q 0 = some lsh.images) :
    index.FindAllNearestNeighbors prim q = lsh.BruteForceNearestNeighbors prim q := by
  unfold LSH.FindAllNearestNeighbors LSH.BruteForceNearestNeighbors
  have hrange : List.range index.number_of_hash_tables = [0] := by rw [hL]; rfl
  rw [hrange, findAllLoop_cons, hbucket]
  simp only [hN]
  cases nearestScan prim lsh.number_of_nearest q lsh.images ([], initialMinDist) <;> rfl

/-- The statement of C23 on the index over sixteen points, whose single bucket is the
dataset: both functions return the points id 4 and id 3. -/
theorem bruteForce_eq_findAll_single_bucket_witness :
    builtIndex.number_of_hash_tables = 1 ∧
    builtIndex.queryBucket prim1D (queryAt 11) 0 = some builtIndex.images ∧
    builtIndex.BruteForceNearestNeighbors prim1D (queryAt 11)
      = some [⟨4, pixels1D 11, 0⟩, ⟨3, pixels1D 10, 1⟩] ∧
    builtIndex.FindAllNearestNeighbors prim1D (queryAt 11)
      = builtIndex.BruteForceNearestNeighbors prim1D (queryAt 11) := by
  set_option maxRecDepth 100000 in
  exact ⟨by rfl, by rfl, by rfl,
    bruteForce_eq_findAll_single_bucket prim1D builtIndex builtIndex (queryAt 11) (by rfl)
      (by rfl) (by rfl)⟩

/-! ### The first element of `Lp` in MRNG -/

/-- C27: for a dataset that is not empty and every set `Lp` that the LSH query may return,
the set `Lp` after the admission loop is not empty; when the LSH query returns the empty
set, `Rp_minus_Lp` has a first point `r`, which is admitted; so `FindNearestNeighbor` and
the loop body of `Initialization` find a first element whenever the LSH query returns. -/
theorem mrng_Lp_nonempty_at_dereference {P : Type} (prim : Primitives P) (m : MRNG P)
    (p : Image) (himages : m.images ≠ []) :
    (∀ Lp, (MRNG.admission prim p (MRNG.Rp_minus_Lp m.images Lp) Lp).2 ≠ []) ∧
    (∃ r rest, MRNG.Rp_minus_Lp m.images [] = r :: rest ∧
      MRNG.admissionStep prim p (true, []) r = (true, [r])) ∧
    (∀ Lp, m.lsh.FindNearestNeighbors prim m.no_candinates p = some Lp →
      ∃ nn, m.FindNearestNeighbor prim p = some nn ∧
        m.initializationNearest prim p = some nn) := by
  have hall : ∀ Lp, (MRNG.admission prim p (MRNG.Rp_minus_Lp m.images Lp) Lp).2 ≠ [] :=
    fun Lp => admission_ne_nil prim p m.images Lp himages
  refine ⟨hall, ?_, fun Lp hLp => ?_⟩
  · have hne : MRNG.Rp_minus_Lp m.images [] ≠ [] := by
      unfold MRNG.Rp_minus_Lp
      rw [set_difference_nil]
      exact foldl_setInsert_ne_nil m.images [] (Or.inr himages)
    cases hR : MRNG.Rp_minus_Lp m.images [] with
    | nil => exact absurd hR hne
    | cons r rest =>
      refine ⟨r, rest, rfl, ?_⟩
      have h1 : (MRNG.admissionStep prim p (true, []) r).1 = true :=
        (admissionStep_condition_iff prim p (true, []) r).2 ⟨rfl, fun t ht => by cases ht⟩
      have h2 := admissionStep_snd prim p (true, []) r
      rw [if_pos h1] at h2
      exact Prod.ext h1 h2
  · cases hhead : (MRNG.admission prim p (MRNG.Rp_minus_Lp m.images Lp) Lp).2 with
    | nil => exact absurd hhead (hall Lp)
    | cons nn rest =>
      have hnn : m.FindNearestNeighbor prim p = some nn := by
        simp only [MRNG.FindNearestNeighbor, MRNG.expandedLp, hLp, hhead, List.head?_cons]
      exact ⟨nn, hnn, by rw [initializationNearest_eq]; exact hnn⟩

/-- The statement of C27 on the index over the 32 even positions, for the query at position
`1`: the LSH query returns the empty set, and the first point of the dataset is admitted
and returned. -/
theorem mrng_Lp_nonempty_at_dereference_witness :
    evenMRNG.images ≠ [] ∧
    evenMRNG.lsh.FindNearestNeighbors primParity evenMRNG.no_candinates (queryAt 1) = some [] ∧
    ∃ nn, evenMRNG.FindNearestNeighbor primParity (queryAt 1) = some nn ∧
      evenMRNG.initializationNearest primParity (queryAt 1) = some nn := by
  set_option maxRecDepth 100000 in
  exact ⟨by decide, by rfl,
    (mrng_Lp_nonempty_at_dereference primParity evenMRNG (queryAt 1) (by decide)).2.2 []
      (by rfl)⟩

/-! ### A dataset point as the query of a radius search -/

/-- The fields that `HashInput` leaves as they are. -/
theorem hashInput_fields {P : Type} (prim : Primitives P) (lsh : LSH P) (projections : List P)
    (built : LSH P) (hbuilt : lsh.HashInput prim projections = some built) :
    built.number_of_hashing_functions = lsh.number_of_hashing_functions ∧
    built.radius = lsh.radius ∧ built.number_of_nearest = lsh.number_of_nearest := by
  unfold LSH.HashInput at hbuilt
  simp only at hbuilt
  split at hbuilt
  · cases hbuilt
  · rw [Option.some.injEq] at hbuilt
    subst hbuilt
    exact ⟨rfl, rfl, rfl⟩

/-- C28: for a freshly constructed index over `n ≥ 16` images with `L ≥ 1` tables, a
projection for each table and a radius `R > 0`, and a dataset point `p` whose distance to
itself is `0`: `HashInput` completes, in every table the query `p` hashes to a bucket that
holds `p`, and `RadiusSearch` for `p` returns a set with an element that has the id of `p`
and the stored distance `0`; when the ids of the dataset are pairwise distinct, that element
is `p` itself with the distance `0` stored. -/
theorem radiusSearch_contains_dataset_query {P : Type} (prim : Primitives P) (lsh : LSH P)
    (projections : List P) (p : Image) (hsize : 16 ≤ lsh.images.length)
    (hL : 1 ≤ lsh.number_of_hash_tables)
    (hfresh : lsh.hash_tables = List.replicate lsh.number_of_hash_tables [])
    (hproj : lsh.number_of_hash_tables ≤ projections.length)
    (hp : p ∈ lsh.images) (hR : 0 < lsh.radius)
    (hzero : prim.CalculateDistance 2 p.data p.data = 0) :
    ∃ built res, lsh.HashInput prim projections = some built ∧
      built.RadiusSearch prim p = some res ∧
      (∀ i, i < lsh.number_of_hash_tables →
        ∃ b, built.queryBucket prim p i = some b ∧ p ∈ b) ∧
      (∃ y ∈ res, y.index = p.index ∧ y.dist = 0) ∧
      ((lsh.images.map Image.index).Nodup → p.SetDist 0 ∈ res) := by
  obtain ⟨built, hbuilt, himgs, hprojs, hL1, hlen, htab⟩ :=
    hashInput_tables prim lsh projections hsize hfresh hproj
  obtain ⟨hk, hrad, _⟩ := hashInput_fields prim lsh projections built hbuilt
  have hsize1 : 16 ≤ built.images.length := by rw [himgs]; exact hsize
  have hm : 0 < lsh.images.length / 16 := by omega
  have hbuckets : ∀ i, i < lsh.number_of_hash_tables →
      ∃ b, built.queryBucket prim p i = some b ∧ p ∈ b := by
    intro i hi
    obtain ⟨projection, hpi, hti⟩ := htab i hi
    have hfc := finalHashCode_eq prim built i projection hsize1 (by rw [hprojs]; exact hpi) p
    have hbn : built.bucketNumber prim projection p = lsh.bucketNumber prim projection p := by
      simp only [LSH.bucketNumber, hk, himgs]
    obtain ⟨hbucket, _, _, _⟩ := pushAll_spec (lsh.bucketNumber prim projection)
      (lsh.images.length / 16) (fun img => Nat.mod_lt _ hm) lsh.images [] []
      (fun k => by simp [bucketOf, List.lookup]) (by simp) (by simp) (by simp)
    refine ⟨bucketOf (pushAll (lsh.bucketNumber prim projection) lsh.images [])
      (lsh.bucketNumber prim projection p), ?_, ?_⟩
    · simp only [LSH.queryBucket, hfc, hti, hbn]
    · rw [hbucket, List.nil_append]
      exact List.mem_filter.2 ⟨hp, by simp⟩
  obtain ⟨res, hres⟩ := radiusLoop_isSome prim built p
    (List.range built.number_of_hash_tables) [] (fun i hi => by
      obtain ⟨b, hb, _⟩ := hbuckets i (by rw [← hL1]; exact List.mem_range.1 hi)
      exact ⟨b, hb⟩)
  obtain ⟨b0, hb0, hpb0⟩ := hbuckets 0 (by omega)
  have hlt : prim.CalculateDistance 2 p.data p.data < (built.radius : ℚ) := by
    rw [hzero, hrad]
    exact_mod_cast hR
  obtain ⟨y, hy, hyd, hyi⟩ := radiusLoop_holds prim built p
    (List.range built.number_of_hash_tables) [] res hres 0
    (List.mem_range.2 (by rw [hL1]; omega)) b0 hb0 p hpb0 hlt
  rw [hzero] at hyd
  refine ⟨built, res, hbuilt, hres, hbuckets, ⟨y, hy, hyi, hyd⟩, fun hnd => ?_⟩
  rcases radiusLoop_mem prim built p (List.range built.number_of_hash_tables) [] res hres y hy
    with h1 | ⟨i, _, b, hb, x, hx, _, hyx⟩
  · cases h1
  · obtain ⟨img, himg, hii, hid⟩ := queryBucket_fromDataset prim built p built.images
      (hashInput_bucketsFromDataset prim lsh projections hsize hfresh hproj built hbuilt)
      i b hb x hx
    rw [himgs] at himg
    have hxi : x.index = y.index := by rw [hyx]; rfl
    have hxd : x.data = y.data := by rw [hyx]; rfl
    have himgp : img = p :=
      List.inj_on_of_nodup_map hnd himg hp (by rw [hii, hxi, hyi])
    have hy0 : y = p.SetDist 0 := by
      obtain ⟨yi, ydata, ydist⟩ := y
      obtain ⟨pi, pdata, pdist⟩ := p
      simp only [Image.SetDist, Image.mk.injEq]
      simp only at hyi hyd hxd
      refine ⟨hyi, ?_, hyd⟩
      rw [← hxd, ← hid, himgp]
    rw [← hy0]
    exact hy

/-- The statement of C28 on the index over sixteen points with one table and radius `1`,
for the dataset point id 4 as the query. -/
theorem radiusSearch_contains_dataset_query_witness :
    16 ≤ (LSH.new sixteenImages 1 1 2 1 : LSH Unit).images.length ∧
    (⟨4, pixels1D 11, 0⟩ : Image) ∈ (LSH.new sixteenImages 1 1 2 1 : LSH Unit).images ∧
    ∃ built res, LSH.HashInput prim1D (LSH.new sixteenImages 1 1 2 1) [()] = some built ∧
      built.RadiusSearch prim1D ⟨4, pixels1D 11, 0⟩ = some res ∧
      (∃ y ∈ res, y.index = 4 ∧ y.dist = 0) ∧ (⟨4, pixels1D 11, 0⟩ : Image) ∈ res := by
  set_option maxRecDepth 100000 in
  obtain ⟨built, res, h1, h2, _, h4, h5⟩ := radiusSearch_contains_dataset_query prim1D
    (LSH.new sixteenImages 1 1 2 1) [()] ⟨4, pixels1D 11, 0⟩ (by decide) (by decide) (by rfl)
    (by decide) (by decide) (by decide) (by rfl)
  exact ⟨by decide, by decide, built, res, h1, h2, h4, h5 (by decide)⟩

/-! ### The neighbours examined in a greedy step -/

theorem examined_subset (N : Int) (adj : List Nat) (exp : Nat) (x : Nat)
    (h : x ∈ GNNS.examined N adj exp) : x ∈ adj := by
  induction adj generalizing exp with
  | nil => simp [GNNS.examined] at h
  | cons nb rest ih =>
    unfold GNNS.examined at h
    split at h
    · rw [List.mem_singleton] at h
      exact h ▸ List.mem_cons_self _ _
    · rcases List.mem_cons.1 h with h1 | h1
      · exact h1 ▸ List.mem_cons_self _ _
      · exact List.mem_cons_of_mem _ (ih _ h1)

/-- The neighbours examined when the counter has not reached the budget yet: the first
`no_expansions - exp` of the list. -/
theorem examined_eq_take (N : Int) (adj : List Nat) (exp : Nat) (h : (exp : Int) < N) :
    GNNS.examined N adj exp = adj.take (N.toNat - exp) := by
  induction adj generalizing exp with
  | nil => simp [GNNS.examined]
  | cons nb rest ih =>
    unfold GNNS.examined
    split
    · rename_i hN
      have h1 : N.toNat - exp = 1 := by omega
      rw [h1]
      rfl
    · rename_i hN
      have h1 : N.toNat - exp = (N.toNat - (exp + 1)) + 1 := by omega
      rw [h1, List.take_succ_cons, ih (exp + 1) (by omega)]

/-- The neighbours examined when the counter is at or beyond the budget: the whole list. -/
theorem examined_eq_self (N : Int) (adj : List Nat) (exp : Nat) (h : N ≤ (exp : Int)) :
    GNNS.examined N adj exp = adj := by
  induction adj generalizing exp with
  | nil => simp [GNNS.examined]
  | cons nb rest ih =>
    unfold GNNS.examined
    have hN : ¬ N = ((exp + 1 : Nat) : Int) := by omega
    rw [if_neg hN, ih (exp + 1) (by omega)]

/-- The expansion loop on valid neighbour indices is the body of the loop run, without a
break, over the examined neighbours. -/
theorem expand_eq_foldl {P : Type} (prim : Primitives P) (g : GNNS) (q : Image)
    (adj : List Nat) (hadj : ∀ k ∈ adj, k < g.input.length) (exp : Nat)
    (st : ImageSet × ℚ × Option Nat) :
    GNNS.expand prim g q adj exp st
      = some ((GNNS.examined g.no_expansions adj exp).foldl (GNNS.examine prim g q) st) := by
  induction adj generalizing exp st with
  | nil => rfl
  | cons nb rest ih =>
    obtain ⟨acc, md, cn⟩ := st
    have hnb : nb < g.input.length := hadj nb (List.mem_cons_self _ _)
    have hrest : ∀ k ∈ rest, k < g.input.length := fun k hk => hadj k (List.mem_cons_of_mem _ hk)
    simp only [GNNS.expand, GNNS.examined, List.getElem?_eq_getElem hnb]
    by_cases hc : g.no_expansions = ((exp + 1 : Nat) : Int)
    · simp only [hc, if_true, List.foldl, GNNS.examine, List.getElem?_eq_getElem hnb]
    · simp only [hc, if_false, List.foldl, GNNS.examine, List.getElem?_eq_getElem hnb]
      exact ih hrest _ _

theorem examine_snd {P : Type} (prim : Primitives P) (g : GNNS) (q : Image)
    (st : ImageSet × ℚ × Option Nat) (k : Nat) (hk : k < g.input.length) :
    (GNNS.examine prim g q st k).2
      = if GNNS.nodeDist prim g q k < st.2.1 then (GNNS.nodeDist prim g q k, some k)
        else st.2 := by
  simp only [GNNS.examine, GNNS.nodeDist, List.getElem?_eq_getElem hk]
  split <;> rfl

/-- The values of `min_dist` and `curr_nn` after the body of the expansion loop has run over
a list of valid neighbours: unchanged when no neighbour is below `min_dist`, and otherwise
the first neighbour of the list at the smallest distance, with that distance. -/
theorem foldl_examine_argmin {P : Type} (prim : Primitives P) (g : GNNS) (q : Image)
    (l : List Nat) (hl : ∀ k ∈ l, k < g.input.length) (acc : ImageSet) (md : ℚ)
    (cn : Option Nat) :
    ((∀ x ∈ l, ¬ GNNS.nodeDist prim g q x < md) ∧
      (l.foldl (GNNS.examine prim g q) (acc, md, cn)).2 = (md, cn)) ∨
    ∃ pre nb post, l = pre ++ nb :: post ∧ GNNS.nodeDist prim g q nb < md ∧
      (∀ x ∈ pre, GNNS.nodeDist prim g q nb < GNNS.nodeDist prim g q x) ∧
      (∀ x ∈ post, GNNS.nodeDist prim g q nb ≤ GNNS.nodeDist prim g q x) ∧
      (l.foldl (GNNS.examine prim g q) (acc, md, cn)).2
        = (GNNS.nodeDist prim g q nb, some nb) := by
  induction l generalizing acc md cn with
  | nil => exact Or.inl ⟨(fun x hx => by cases hx), rfl⟩
  | cons nb rest ih =>
    have hnb : nb < g.input.length := hl nb (List.mem_cons_self _ _)
    have hrest : ∀ k ∈ rest, k < g.input.length := fun k hk => hl k (List.mem_cons_of_mem _ hk)
    have hsnd := examine_snd prim g q (acc, md, cn) nb hnb
    rw [List.foldl_cons]
    generalize GNNS.examine prim g q (acc, md, cn) nb = st1 at hsnd ⊢
    obtain ⟨acc1, md1, cn1⟩ := st1
    simp only at hsnd
    by_cases hlt : GNNS.nodeDist prim g q nb < md
    · rw [if_pos hlt, Prod.mk.injEq] at hsnd
      obtain ⟨h1, h2⟩ := hsnd
      subst h1 h2
      rcases ih hrest acc1 _ _ with ⟨hall, hres⟩ | ⟨pre, nb1, post, hsplit, h1, h2, h3, hres⟩
      · exact Or.inr ⟨[], nb, rest, rfl, hlt, (fun x hx => by cases hx),
          fun x hx => not_lt.1 (hall x hx), hres⟩
      · refine Or.inr ⟨nb :: pre, nb1, post, by rw [hsplit]; rfl, lt_trans h1 hlt, ?_, h3, hres⟩
        intro x hx
        rcases List.mem_cons.1 hx with h4 | h4
        · rw [h4]
          exact h1
        · exact h2 x h4
    · rw [if_neg hlt, Prod.mk.injEq] at hsnd
      obtain ⟨h1, h2⟩ := hsnd
      subst h1 h2
      rcases ih hrest acc1 _ _ with ⟨hall, hres⟩ | ⟨pre, nb1, post, hsplit, h1, h2, h3, hres⟩
      · refine Or.inl ⟨fun x hx => ?_, hres⟩
        rcases List.mem_cons.1 hx with h4 | h4
        · rw [h4]
          exact hlt
        · exact hall x h4
      · refine Or.inr ⟨nb :: pre, nb1, post, by rw [hsplit]; rfl, h1, ?_, h3, hres⟩
        intro x hx
        rcases List.mem_cons.1 hx with h4 | h4
        · rw [h4]
          exact lt_of_lt_of_le h1 (not_lt.1 hlt)
        · exact h2 x h4

/-- A greedy step from a dataset node: the walk stays when no examined neighbour is below
`min_dist`, and otherwise moves to the first examined neighbour at the smallest distance. -/
theorem greedyStep_argmin {P : Type} (prim : Primitives P) (g : GNNS) (q : Image)
    (hlen : g.input.length ≤ g.graph.length)
    (hedges : ∀ (i : Nat) (adj : List Nat), g.graph[i]? = some adj →
      ∀ k ∈ adj, k < g.input.length)
    (w : GNNS.Walk) (hw : w.index < g.input.length) :
    ∃ adj w1 moved, g.graph[w.index]? = some adj ∧
      GNNS.greedyStep prim g q w = some (w1, moved) ∧
      (moved = false → (∀ x ∈ GNNS.examined g.no_expansions adj 0,
          ¬ GNNS.nodeDist prim g q x < w.min_dist) ∧
        w1.index = w.index ∧ w1.min_dist = w.min_dist) ∧
      (moved = true → ∃ pre post,
        GNNS.examined g.no_expansions adj 0 = pre ++ w1.index :: post ∧
        GNNS.nodeDist prim g q w1.index < w.min_dist ∧
        (∀ x ∈ pre, GNNS.nodeDist prim g q w1.index < GNNS.nodeDist prim g q x) ∧
        (∀ x ∈ post, GNNS.nodeDist prim g q w1.index ≤ GNNS.nodeDist prim g q x) ∧
        w1.min_dist = GNNS.nodeDist prim g q w1.index) := by
  have hgi : w.index < g.graph.length := lt_of_lt_of_le hw hlen
  have hadj := hedges w.index _ (List.getElem?_eq_getElem hgi)
  have hrun := expand_eq_foldl prim g q _ hadj 0 (w.possible_nearest_neighbors, w.min_dist, none)
  have hres := foldl_examine_argmin prim g q (GNNS.examined g.no_expansions g.graph[w.index] 0)
    (fun k hk => hadj k (examined_subset _ _ _ k hk)) w.possible_nearest_neighbors w.min_dist none
  generalize (GNNS.examined g.no_expansions g.graph[w.index] 0).foldl (GNNS.examine prim g q)
    (w.possible_nearest_neighbors, w.min_dist, none) = r at hrun hres
  obtain ⟨acc1, md1, cn1⟩ := r
  simp only [Prod.mk.injEq] at hres
  refine ⟨g.graph[w.index], ?_⟩
  simp only [GNNS.greedyStep, List.getElem?_eq_getElem hgi, hrun, true_and]
  rcases hres with ⟨hall, h1, h2⟩ | ⟨pre, nb, post, hsplit, h1, h2, h3, h4, h5⟩
  · subst h1 h2
    exact ⟨⟨w.index, _, acc1⟩, false, rfl, fun _ => ⟨hall, rfl, rfl⟩, fun h => by cases h⟩
  · subst h4 h5
    exact ⟨⟨nb, _, acc1⟩, true, rfl, (fun h => by cases h),
      fun _ => ⟨pre, post, hsplit, h1, h2, h3, rfl⟩⟩

/-- C21: in a restart of GNNS `FindNearestNeighbors` from a dataset node, on a graph with an
adjacency list for every node and edges to dataset nodes only, the greedy step from the
state `a` reached after `k` steps returns, `min_dist` is the distance of the current node,
and the step moves exactly when an examined neighbour is strictly nearer to the query than
the current node; it then moves to an examined neighbour that is strictly nearer than every
neighbour examined before it and not farther than any examined after it; otherwise the
current node stays and the loop over the greedy steps ends at that step. -/
theorem gnns_step_moves_iff_closer {P : Type} (prim : Primitives P) (g : GNNS) (q : Image)
    (start : Nat) (acc : ImageSet)
    (hlen : g.input.length ≤ g.graph.length)
    (hvalid : ∀ adj ∈ g.graph, ∀ k ∈ adj, k < g.input.length)
    (hstart : start < g.input.length) (k : Nat) :
    ∃ w0 a adj w1 moved, GNNS.startWalk prim g q start acc = some w0 ∧
      GNNS.greedyLoop prim g q k w0 = some a ∧
      a.min_dist = GNNS.nodeDist prim g q a.index ∧
      g.graph[a.index]? = some adj ∧
      GNNS.greedyStep prim g q a = some (w1, moved) ∧
      (moved = true ↔ ∃ nb ∈ GNNS.examined g.no_expansions adj 0,
        GNNS.nodeDist prim g q nb < GNNS.nodeDist prim g q a.index) ∧
      (moved = true → ∃ pre post,
        GNNS.examined g.no_expansions adj 0 = pre ++ w1.index :: post ∧
        (∀ x ∈ pre, GNNS.nodeDist prim g q w1.index < GNNS.nodeDist prim g q x) ∧
        (∀ x ∈ post, GNNS.nodeDist prim g q w1.index ≤ GNNS.nodeDist prim g q x)) ∧
      (moved = false → w1.index = a.index ∧
        ∀ n, GNNS.greedyLoop prim g q (n + 1) a = some w1) := by
  have hedges : ∀ (i : Nat) (adj : List Nat), g.graph[i]? = some adj →
      ∀ k ∈ adj, k < g.input.length := fun i adj h => hvalid adj (List.getElem?_mem h)
  have hw0 : GNNS.startWalk prim g q start acc = some
      ⟨start, prim.CalculateDistance 2 q.data (g.input[start]).data,
        setInsert ((g.input[start]).SetDist
          (prim.CalculateDistance 2 q.data (g.input[start]).data)) acc⟩ := by
    simp only [GNNS.startWalk, List.getElem?_eq_getElem hstart]
  obtain ⟨a, _, ha, _, ⟨img, himg, hmd⟩, _⟩ := greedyLoop_descends prim g q hlen hedges k
    ⟨start, prim.CalculateDistance 2 q.data (g.input[start]).data,
      setInsert ((g.input[start]).SetDist
        (prim.CalculateDistance 2 q.data (g.input[start]).data)) acc⟩
    ⟨g.input[start], List.getElem?_eq_getElem hstart, rfl⟩
  have hw : a.index < g.input.length := by
    by_contra hge
    rw [List.getElem?_eq_none (not_lt.1 hge)] at himg
    cases himg
  have hnode : a.min_dist = GNNS.nodeDist prim g q a.index := by
    simp only [GNNS.nodeDist, himg, hmd]
  obtain ⟨adj, w1, moved, hadj, hstep, hstay, hmove⟩ :=
    greedyStep_argmin prim g q hlen hedges a hw
  refine ⟨_, a, adj, w1, moved, hw0, ha, hnode, hadj, hstep, ?_, ?_, ?_⟩
  · rw [← hnode]
    constructor
    · intro hm
      obtain ⟨pre, post, hsplit, hlt, _⟩ := hmove hm
      exact ⟨w1.index, by rw [hsplit]; simp, hlt⟩
    · rintro ⟨nb, hnb, hlt⟩
      cases moved with
      | true => rfl
      | false => exact absurd hlt ((hstay rfl).1 nb hnb)
  · intro hm
    obtain ⟨pre, post, hsplit, _, h2, h3, _⟩ := hmove hm
    exact ⟨pre, post, hsplit, h2, h3⟩
  · intro hm
    subst hm
    exact ⟨(hstay rfl).2.1, fun n => greedyLoop_succ_of_stay prim g q a w1 hstep n⟩

/-- The statement of C21 on `exampleGNNS`, for the query at position `0` and the start node
id 10: of the two neighbours examined, 10 and 9, node 9 is nearer, and the first step moves
to it; the step from node 3, reached after seven steps, stays. -/
theorem gnns_step_moves_iff_closer_witness :
    (10 < exampleGNNS.input.length) ∧
    (GNNS.startWalk prim1D exampleGNNS (queryAt 0) 10 []).bind
      (fun w0 => (GNNS.greedyStep prim1D exampleGNNS (queryAt 0) w0).map
        (fun r => (r.1.index, r.2))) = some (9, true) ∧
    (GNNS.startWalk prim1D exampleGNNS (queryAt 0) 10 []).bind
      (fun w0 => (GNNS.greedyLoop prim1D exampleGNNS (queryAt 0) 7 w0).bind
        (fun a => (GNNS.greedyStep prim1D exampleGNNS (queryAt 0) a).map
          (fun r => (a.index, r.1.index, r.2)))) = some (3, 3, false) ∧
    ∃ w0 a adj w1 moved, GNNS.startWalk prim1D exampleGNNS (queryAt 0) 10 [] = some w0 ∧
      GNNS.greedyLoop prim1D exampleGNNS (queryAt 0) 0 w0 = some a ∧
      a.min_dist = GNNS.nodeDist prim1D exampleGNNS (queryAt 0) a.index ∧
      exampleGNNS.graph[a.index]? = some adj ∧
      GNNS.greedyStep prim1D exampleGNNS (queryAt 0) a = some (w1, moved) ∧
      (moved = true ↔ ∃ nb ∈ GNNS.examined exampleGNNS.no_expansions adj 0,
        GNNS.nodeDist prim1D exampleGNNS (queryAt 0) nb
          < GNNS.nodeDist prim1D exampleGNNS (queryAt 0) a.index) ∧
      (moved = true → ∃ pre post,
        GNNS.examined exampleGNNS.no_expansions adj 0 = pre ++ w1.index :: post ∧
        (∀ x ∈ pre, GNNS.nodeDist prim1D exampleGNNS (queryAt 0) w1.index
          < GNNS.nodeDist prim1D exampleGNNS (queryAt 0) x) ∧
        (∀ x ∈ post, GNNS.nodeDist prim1D exampleGNNS (queryAt 0) w1.index
          ≤ GNNS.nodeDist prim1D exampleGNNS (queryAt 0) x)) ∧
      (moved = false → w1.index = a.index ∧
        ∀ n, GNNS.greedyLoop prim1D exampleGNNS (queryAt 0) (n + 1) a = some w1) :=
  ⟨by decide, by rfl, by rfl,
    gnns_step_moves_iff_closer prim1D exampleGNNS (queryAt 0) 10 [] (by decide) (by decide)
      (by decide) 0⟩

/-- C22: on `exampleGNNS0`, configured with `no_expansions = 0`, the greedy step from node
10 (adjacency list `[10, 9, 11]`) for the query at position `0` examines the three edges:
the expansion loop inserts the nodes 9, 10 and 11 into the empty accumulator and sets
`curr_nn` to node 9, so the walk moves, whereas the first `min(0, 3) = 0` edges are none;
with `no_expansions = 2` the same step examines the two edges to 10 and 9. -/
theorem gnns_zero_expansions_example_examines_all :
    exampleGNNS0.no_expansions = 0 ∧ exampleGNNS0.graph[10]? = some [10, 9, 11] ∧
    GNNS.examined exampleGNNS0.no_expansions [10, 9, 11] 0 = [10, 9, 11] ∧
    (GNNS.expand prim1D exampleGNNS0 (queryAt 0) [10, 9, 11] 0 ([], 70, none)).map
      (fun st => (st.1.map Image.index, st.2.1, st.2.2)) = some ([9, 10, 11], 60, some 9) ∧
    (GNNS.greedyStep prim1D exampleGNNS0 (queryAt 0) ⟨10, 70, []⟩).map
      (fun r => (r.1.index, r.1.possible_nearest_neighbors.map Image.index, r.2))
      = some (9, [9, 10, 11], true) ∧
    (GNNS.expand prim1D exampleGNNS (queryAt 0) [10, 9, 11] 0 ([], 70, none)).map
      (fun st => (st.1.map Image.index, st.2.1, st.2.2)) = some ([9, 10], 60, some 9) := by
  set_option maxRecDepth 100000 in
  exact ⟨by rfl, by rfl, by rfl, by rfl, by rfl, by rfl⟩

/-! ### The update of the cluster centres -/

/-- The function `updateClusterCentersMacQueen` returns the object as it was. -/
theorem updateClusterCentersMacQueen_unchanged (c c1 : Cluster)
    (h : c.updateClusterCentersMacQueen = some c1) : c1 = c := by
  unfold Cluster.updateClusterCentersMacQueen at h
  split at h
  · cases h
  · rw [Option.some.injEq] at h
    exact h.symm

/-- C25, evaluated at the failing input: one cluster holding the points at positions `0` and
`4`, with the first point as the stored centre.  The sum of the two vectors has first
component `4` and the cluster size is `2`, so the mean has first component `2`;
`updateClusterCentersMacQueen` computes it in the local `updatedCenters` and returns with
the stored centre as it was, first component `0`.  For the points at positions `200` and
`100` the sum of the bytes wraps, and the local vector holds `22`, not the mean `150`. -/
theorem update_example_keeps_stored_centre :
    exampleCluster.updateClusterCentersMacQueen = some exampleCluster ∧
    exampleCluster.updateClusterCentersMacQueen.map Cluster.cluster_centers
      = some [pixels1D 0] ∧
    Cluster.vectorSum (exampleCluster.members 0) = pixels1D 4 ∧
    (exampleCluster.members 0).length = 2 ∧
    exampleCluster.updatedCenters = some [pixels1D 2] ∧
    exampleClusterWrap.updatedCenters = some [pixels1D 22] ∧
    Cluster.vectorSum (exampleClusterWrap.members 0) = pixels1D 300 ∧
    (exampleClusterWrap.members 0).length = 2 := by
  set_option maxRecDepth 100000 in
  exact ⟨by rfl, by rfl, by rfl, by rfl, by rfl, by rfl, by rfl, by rfl⟩

/-! ### The assignment of the points to the clusters -/

theorem nearestLoop_argmin (sqrt : Int → ℚ) (c : Cluster) (point : List Nat) (js : List Nat)
    (hjs : ∀ j ∈ js, j < c.cluster_centers.length) (md : ℚ) (nc : Int) :
    ∃ md1 nc1, Cluster.nearestLoop sqrt c point js (md, nc) = some (md1, nc1) ∧
      (((∀ x ∈ js, ¬ Cluster.centerDist sqrt c point x < md) ∧ md1 = md ∧ nc1 = nc) ∨
      ∃ pre j post, js = pre ++ j :: post ∧ Cluster.centerDist sqrt c point j < md ∧
        (∀ x ∈ pre, Cluster.centerDist sqrt c point j < Cluster.centerDist sqrt c point x) ∧
        (∀ x ∈ post, Cluster.centerDist sqrt c point j ≤ Cluster.centerDist sqrt c point x) ∧
        md1 = Cluster.centerDist sqrt c point j ∧ nc1 = (j : Int)) := by
  induction js generalizing md nc with
  | nil => exact ⟨md, nc, rfl, Or.inl ⟨(fun x hx => by cases hx), rfl, rfl⟩⟩
  | cons j rest ih =>
    have hj : j < c.cluster_centers.length := hjs j (List.mem_cons_self _ _)
    have hrest : ∀ k ∈ rest, k < c.cluster_centers.length :=
      fun k hk => hjs k (List.mem_cons_of_mem _ hk)
    have hd : Cluster.centerDist sqrt c point j
        = Cluster.euclideanDistance sqrt point c.cluster_centers[j] := by
      simp only [Cluster.centerDist, List.getElem?_eq_getElem hj]
    simp only [Cluster.nearestLoop, List.getElem?_eq_getElem hj, ← hd]
    by_cases hlt : Cluster.centerDist sqrt c point j < md
    · rw [if_pos hlt]
      obtain ⟨md1, nc1, hrun, hres⟩ := ih hrest (Cluster.centerDist sqrt c point j) (j : Int)
      refine ⟨md1, nc1, hrun, ?_⟩
      rcases hres with ⟨hall, h1, h2⟩ | ⟨pre, j1, post, hsplit, h1, h2, h3, h4, h5⟩
      · exact Or.inr ⟨[], j, rest, rfl, hlt, (fun x hx => by cases hx),
          fun x hx => not_lt.1 (hall x hx), h1, h2⟩
      · refine Or.inr ⟨j :: pre, j1, post, by rw [hsplit]; rfl, lt_trans h1 hlt, ?_, h3, h4, h5⟩
        intro x hx
        rcases List.mem_cons.1 hx with h6 | h6
        · rw [h6]
          exact h1
        · exact h2 x h6
    · rw [if_neg hlt]
      obtain ⟨md1, nc1, hrun, hres⟩ := ih hrest md nc
      refine ⟨md1, nc1, hrun, ?_⟩
      rcases hres with ⟨hall, h1, h2⟩ | ⟨pre, j1, post, hsplit, h1, h2, h3, h4, h5⟩
      · refine Or.inl ⟨fun x hx => ?_, h1, h2⟩
        rcases List.mem_cons.1 hx with h6 | h6
        · rw [h6]
          exact hlt
        · exact hall x h6
      · refine Or.inr ⟨j :: pre, j1, post, by rw [hsplit]; rfl, h1, ?_, h3, h4, h5⟩
        intro x hx
        rcases List.mem_cons.1 hx with h6 | h6
        · rw [h6]
          exact lt_of_lt_of_le h1 (not_lt.1 hlt)
        · exact h2 x h6

/-- The inner loop of `assignToNearestClusterLloyd` over the `K ≥ 1` centres, when a centre
is at a distance below the initial `minDistance`: the loop ends with the number of a centre
at the smallest distance, the lowest such number. -/
theorem nearestLoop_range (sqrt : Int → ℚ) (c : Cluster) (point : List Nat) (K : Nat)
    (hK : K ≤ c.cluster_centers.length)
    (hfinite : ∃ j, j < K ∧ Cluster.centerDist sqrt c point j < doubleMax) :
    ∃ (md1 : ℚ) (j : Nat), Cluster.nearestLoop sqrt c point (List.range K) (doubleMax, -1)
        = some (md1, (j : Int)) ∧ j < K ∧
      (∀ j2, j2 < K → Cluster.centerDist sqrt c point j ≤ Cluster.centerDist sqrt c point j2) ∧
      (∀ j2, j2 < j → Cluster.centerDist sqrt c point j < Cluster.centerDist sqrt c point j2) := by
  obtain ⟨md1, nc1, hrun, hres⟩ := nearestLoop_argmin sqrt c point (List.range K)
    (fun j hj => lt_of_lt_of_le (List.mem_range.1 hj) hK) doubleMax (-1)
  rcases hres with ⟨hall, _, _⟩ | ⟨pre, j, post, hsplit, h1, h2, h3, h4, h5⟩
  · obtain ⟨j, hj, hlt⟩ := hfinite
    exact absurd hlt (hall j (List.mem_range.2 hj))
  · subst h5
    have hmem : ∀ x, x < K → x ∈ pre ∨ x = j ∨ x ∈ post := by
      intro x hx
      have h := List.mem_range.2 hx
      rw [hsplit, List.mem_append, List.mem_cons] at h
      exact h
    have hsorted : (pre ++ j :: post).Pairwise (fun a b => a < b) := by
      rw [← hsplit]
      exact List.pairwise_lt_range K
    have hpost : ∀ x ∈ post, j < x := (List.pairwise_cons.1 (List.pairwise_append.1 hsorted).2.1).1
    have hjmem : j ∈ List.range K := by rw [hsplit]; simp
    have hjK : j < K := List.mem_range.1 hjmem
    refine ⟨md1, j, hrun, hjK, ?_, ?_⟩
    · intro j2 hj2
      rcases hmem j2 hj2 with h6 | h6 | h6
      · exact le_of_lt (h2 j2 h6)
      · exact le_of_eq (by rw [h6])
      · exact h3 j2 h6
    · intro j2 hj2
      rcases hmem j2 (lt_trans hj2 hjK) with h6 | h6 | h6
      · exact h2 j2 h6
      · omega
      · have := hpost j2 h6
        omega

/-- The outer loop of `assignToNearestClusterLloyd` over distinct point numbers: it returns
when the inner loop does for every point, the entries of the other points are as before,
and the entry of a point `i` of the list is the result of the inner loop for it. -/
theorem assignLoop_spec (sqrt : Int → ℚ) (c : Cluster) (is : List Nat) (hnd : is.Nodup)
    (hinner : ∀ i ∈ is, ∃ img st, c.image_dataset[i]? = some img ∧
      Cluster.nearestLoop sqrt c img.data (List.range c.no_clusters.toNat) (doubleMax, -1)
        = some st)
    (a : List Int) (ha : ∀ i ∈ is, i < a.length) :
    ∃ a1, Cluster.assignLoop sqrt c is a = some a1 ∧ a1.length = a.length ∧
      (∀ i, i ∉ is → a1[i]? = a[i]?) ∧
      ∀ i ∈ is, ∃ img st, c.image_dataset[i]? = some img ∧
        Cluster.nearestLoop sqrt c img.data (List.range c.no_clusters.toNat) (doubleMax, -1)
          = some st ∧ a1[i]? = some st.2 := by
  induction is generalizing a with
  | nil => exact ⟨a, rfl, rfl, fun _ _ => rfl, fun i hi => by cases hi⟩
  | cons i rest ih =>
    rw [List.nodup_cons] at hnd
    obtain ⟨img, st, himg, hst⟩ := hinner i (List.mem_cons_self _ _)
    have hi : i < a.length := ha i (List.mem_cons_self _ _)
    obtain ⟨a1, hrun, hlen, hframe, hset⟩ := ih hnd.2
      (fun k hk => hinner k (List.mem_cons_of_mem _ hk)) (a.set i st.2)
      (fun k hk => by rw [List.length_set]; exact ha k (List.mem_cons_of_mem _ hk))
    obtain ⟨md, nc⟩ := st
    refine ⟨a1, ?_, ?_, ?_, ?_⟩
    · simp only [Cluster.assignLoop, himg, hst, if_pos hi]
      exact hrun
    · rw [hlen, List.length_set]
    · intro k hk
      rw [List.mem_cons, not_or] at hk
      rw [hframe k hk.2, List.getElem?_set_ne (fun e => hk.1 e.symm)]
    · intro k hk
      rcases List.mem_cons.1 hk with h1 | h1
      · subst h1
        refine ⟨img, (md, nc), himg, hst, ?_⟩
        rw [hframe k hnd.1, List.getElem?_set_eq_of_lt _ hi]
      · exact hset k h1


/-- C24: for `no_clusters ≥ 1` centres that `cluster_centers` holds, an `assignments` vector
of the size of the dataset, and computed distances of which, for each point, one is below
the initial `minDistance` (all are, for vectors of bytes), `assignToNearestClusterLloyd`
returns; only `assignments` changes, and for every dataset point `i` the value
`assignments[i]` is a number `j` with `0 ≤ j < no_clusters` whose centre is at the smallest
distance from the point among the `no_clusters` centres, and every centre of a lower number
is strictly farther. -/
theorem assign_lloyd_nearest (sqrt : Int → ℚ) (c : Cluster) (hk : 1 ≤ c.no_clusters)
    (hcenters : c.no_clusters ≤ (c.cluster_centers.length : Int))
    (hassign : c.assignments.length = c.image_dataset.length)
    (hfinite : ∀ img ∈ c.image_dataset, ∃ j : Nat, (j : Int) < c.no_clusters ∧
      Cluster.centerDist sqrt c img.data j < doubleMax) :
    ∃ c1, c.assignToNearestClusterLloyd sqrt = some c1 ∧
      c1.image_dataset = c.image_dataset ∧ c1.cluster_centers = c.cluster_centers ∧
      c1.no_clusters = c.no_clusters ∧ c1.assignments.length = c.image_dataset.length ∧
      ∀ (i : Nat) (img : Image), c.image_dataset[i]? = some img →
        ∃ j : Nat, c1.assignments[i]? = some (j : Int) ∧ (j : Int) < c.no_clusters ∧
          (∀ j2 : Nat, (j2 : Int) < c.no_clusters →
            Cluster.centerDist sqrt c img.data j ≤ Cluster.centerDist sqrt c img.data j2) ∧
          (∀ j2 : Nat, j2 < j →
            Cluster.centerDist sqrt c img.data j < Cluster.centerDist sqrt c img.data j2) := by
  have hKint : (c.no_clusters.toNat : Int) = c.no_clusters := Int.toNat_of_nonneg (by omega)
  have hK : c.no_clusters.toNat ≤ c.cluster_centers.length := by omega
  have hnear : ∀ img ∈ c.image_dataset, ∃ (md1 : ℚ) (j : Nat),
      Cluster.nearestLoop sqrt c img.data (List.range c.no_clusters.toNat) (doubleMax, -1)
        = some (md1, (j : Int)) ∧ j < c.no_clusters.toNat ∧
      (∀ j2, j2 < c.no_clusters.toNat →
        Cluster.centerDist sqrt c img.data j ≤ Cluster.centerDist sqrt c img.data j2) ∧
      (∀ j2, j2 < j →
        Cluster.centerDist sqrt c img.data j < Cluster.centerDist sqrt c img.data j2) := by
    intro img himg
    obtain ⟨j, hj, hlt⟩ := hfinite img himg
    exact nearestLoop_range sqrt c img.data _ hK ⟨j, by omega, hlt⟩
  obtain ⟨a1, hrun, hlen, _, hset⟩ := assignLoop_spec sqrt c
    (List.range c.image_dataset.length) (List.nodup_range _)
    (fun i hi => by
      have h := List.mem_range.1 hi
      obtain ⟨md1, j, hj, _⟩ := hnear _ (List.getElem_mem h)
      exact ⟨c.image_dataset[i], _, List.getElem?_eq_getElem h, hj⟩)
    c.assignments (fun i hi => by rw [hassign]; exact List.mem_range.1 hi)
  refine ⟨{ c with assignments := a1 }, ?_, rfl, rfl, rfl, ?_, ?_⟩
  · simp only [Cluster.assignToNearestClusterLloyd, hrun]
  · show a1.length = c.image_dataset.length
    rw [hlen, hassign]
  · intro i img himg
    have hi : i < c.image_dataset.length := by
      by_contra hge
      rw [List.getElem?_eq_none (not_lt.1 hge)] at himg
      cases himg
    obtain ⟨img1, st, himg1, hst, hget⟩ := hset i (List.mem_range.2 hi)
    rw [himg, Option.some.injEq] at himg1
    subst himg1
    obtain ⟨md1, j, hj, hjK, hmin, hfirst⟩ := hnear img (List.getElem?_mem himg)
    rw [hj, Option.some.injEq] at hst
    subst hst
    exact ⟨j, hget, by omega, fun j2 hj2 => hmin j2 (by omega), hfirst⟩

theorem getD_replicate_zero (n i : Nat) : (List.replicate n 0).getD i 0 = 0 := by
  induction n generalizing i with
  | zero => rfl
  | succ n ih =>
    cases i with
    | zero => rfl
    | succ i =>
      rw [List.replicate_succ, List.getD_cons_succ]
      exact ih i

theorem getD_pixels1D (x i : Nat) : (pixels1D x).getD i 0 = if i = 0 then x else 0 := by
  cases i with
  | zero => rfl
  | succ i =>
    rw [if_neg (Nat.succ_ne_zero i)]
    unfold pixels1D
    rw [List.getD_cons_succ]
    exact getD_replicate_zero _ _

/-- The sum of squares of two one-dimensional example vectors is the square of the
difference of their positions. -/
theorem sumOfSquares_pixels1D (x y : Nat) :
    Cluster.sumOfSquares (pixels1D x) (pixels1D y) = ((x : Int) - (y : Int)) ^ 2 := by
  unfold Cluster.sumOfSquares
  rw [show (784 : Nat) = 783 + 1 from rfl, List.range_succ_eq_map, List.foldl_cons,
    List.foldl_map]
  simp only [getD_pixels1D, if_true, Nat.succ_ne_zero, if_false, Nat.cast_zero, sub_self,
    ne_eq, OfNat.ofNat_ne_zero, not_false_eq_true, zero_pow, zero_add]
  exact foldl_add_zero _ _


/-- With the integer square root, the distance of two one-dimensional example vectors is
the absolute difference of their positions. -/
theorem euclideanDistance_pixels1D (x y : Nat) :
    Cluster.euclideanDistance exampleSqrt (pixels1D x) (pixels1D y)
      = ((((x : Int) - (y : Int)).natAbs : Nat) : ℚ) := by
  unfold Cluster.euclideanDistance exampleSqrt
  rw [sumOfSquares_pixels1D, ← Int.natAbs_sq, ← Nat.cast_pow, Int.toNat_natCast,
    Nat.sqrt_eq']

theorem small_lt_doubleMax (x : ℚ) (h : x ≤ 50979600) : x < doubleMax := by
  have h1 : (50979600 : ℚ) < doubleMax := by
    unfold doubleMax
    norm_num
  exact lt_of_le_of_lt h h1



theorem exampleCluster2_nearest (x d0 d1 : Nat)
    (h0 : (((x : Int) - ((0 : Nat) : Int)).natAbs) = d0)
    (h1 : (((x : Int) - ((10 : Nat) : Int)).natAbs) = d1) (hd0 : d0 ≤ 50979600) :
    Cluster.nearestLoop exampleSqrt exampleCluster2 (pixels1D x) (List.range 2) (doubleMax, -1)
      = some (if d1 < d0 then ((d1 : ℚ), (1 : Int)) else ((d0 : ℚ), (0 : Int))) := by
  have hr2 : List.range 2 = [0, 1] := rfl
  have hc0 : exampleCluster2.cluster_centers[0]? = some (pixels1D 0) := rfl
  have hc1 : exampleCluster2.cluster_centers[1]? = some (pixels1D 10) := rfl
  have hlt : (d0 : ℚ) < doubleMax := small_lt_doubleMax _ (by exact_mod_cast hd0)
  rw [hr2]
  simp only [Cluster.nearestLoop, hc0, hc1, euclideanDistance_pixels1D, h0, h1, if_pos hlt,
    Nat.cast_lt]
  split <;> rfl

theorem assignLoop_cons_eq (sqrt : Int → ℚ) (c : Cluster) (i : Nat) (rest : List Nat)
    (a : List Int) (img : Image) (st : ℚ × Int) (himg : c.image_dataset[i]? = some img)
    (hst : Cluster.nearestLoop sqrt c img.data (List.range c.no_clusters.toNat) (doubleMax, -1)
      = some st)
    (hi : i < a.length) :
    Cluster.assignLoop sqrt c (i :: rest) a = Cluster.assignLoop sqrt c rest (a.set i st.2) := by
  obtain ⟨md, nc⟩ := st
  simp only [Cluster.assignLoop, himg, hst, if_pos hi]

theorem assignToNearestClusterLloyd_eq (sqrt : Int → ℚ) (c : Cluster) (a1 : List Int)
    (h : Cluster.assignLoop sqrt c (List.range c.image_dataset.length) c.assignments = some a1) :
    c.assignToNearestClusterLloyd sqrt = some { c with assignments := a1 } := by
  unfold Cluster.assignToNearestClusterLloyd
  rw [h]

/-- The assignment computed for `exampleCluster2`: the point at position `5`, at the same
distance from both centres, is assigned to the centre of the lower number. -/
theorem exampleCluster2_assigned :
    exampleCluster2.assignToNearestClusterLloyd exampleSqrt
      = some { exampleCluster2 with assignments := [0, 0, 1, 0] } := by
  have hn0 := exampleCluster2_nearest 0 0 10 (by decide) (by decide) (by decide)
  have hn1 := exampleCluster2_nearest 4 4 6 (by decide) (by decide) (by decide)
  have hn2 := exampleCluster2_nearest 10 10 0 (by decide) (by decide) (by decide)
  have hn3 := exampleCluster2_nearest 5 5 5 (by decide) (by decide) (by decide)
  rw [if_neg (by decide)] at hn0 hn1 hn3
  rw [if_pos (by decide)] at hn2
  have hloop : Cluster.assignLoop exampleSqrt exampleCluster2 [0, 1, 2, 3] [0, 0, 0, 0]
      = some [0, 0, 1, 0] := by
    rw [assignLoop_cons_eq exampleSqrt exampleCluster2 0 _ _ ⟨0, pixels1D 0, 0⟩ _ rfl hn0
        (by decide),
      assignLoop_cons_eq exampleSqrt exampleCluster2 1 _ _ ⟨1, pixels1D 4, 0⟩ _ rfl hn1
        (by decide),
      assignLoop_cons_eq exampleSqrt exampleCluster2 2 _ _ ⟨2, pixels1D 10, 0⟩ _ rfl hn2
        (by decide),
      assignLoop_cons_eq exampleSqrt exampleCluster2 3 _ _ ⟨3, pixels1D 5, 0⟩ _ rfl hn3
        (by decide)]
    rfl
  exact assignToNearestClusterLloyd_eq exampleSqrt exampleCluster2 [0, 0, 1, 0] hloop


/-- With the integer square root, the distance of two vectors of bytes is below the initial
`minDistance`. -/
theorem euclideanDistance_lt_doubleMax (a b : List Nat) (ha : ∀ x ∈ a, x < 256)
    (hb : ∀ x ∈ b, x < 256) : Cluster.euclideanDistance exampleSqrt a b < doubleMax := by
  obtain ⟨h1, h2, _⟩ := sumOfSquares_bounds a b ha hb
  unfold Cluster.euclideanDistance exampleSqrt
  apply small_lt_doubleMax
  have h3 : Nat.sqrt (Cluster.sumOfSquares a b).toNat ≤ (Cluster.sumOfSquares a b).toNat :=
    Nat.sqrt_le_self _
  have h4 : (Cluster.sumOfSquares a b).toNat ≤ 50979600 := by omega
  exact_mod_cast le_trans h3 h4

theorem pixels1D_bytes (x : Nat) (hx : x < 256) : ∀ y ∈ pixels1D x, y < 256 := by
  intro y hy
  unfold pixels1D at hy
  rcases List.mem_cons.1 hy with h | h
  · omega
  · have h1 := (List.mem_replicate.1 h).2
    omega

theorem exampleCluster2_bytes :
    ∀ img ∈ exampleCluster2.image_dataset, ∀ x ∈ img.data, x < 256 := by
  intro img himg
  have hd : exampleCluster2.image_dataset = [⟨0, pixels1D 0, 0⟩, ⟨1, pixels1D 4, 0⟩,
      ⟨2, pixels1D 10, 0⟩, ⟨3, pixels1D 5, 0⟩] := rfl
  rw [hd] at himg
  simp only [List.mem_cons, List.mem_singleton, List.not_mem_nil, or_false] at himg
  rcases himg with h | h | h | h <;> subst h <;> exact pixels1D_bytes _ (by decide)

/-- The statement of C24 on `exampleCluster2`, with the integer square root: the points at
positions `0`, `4`, `10` and `5` are assigned to the centres `0`, `0`, `1` and `0`. -/
theorem assign_lloyd_nearest_witness :
    (1 : Int) ≤ exampleCluster2.no_clusters ∧
    exampleCluster2.assignToNearestClusterLloyd exampleSqrt
      = some { exampleCluster2 with assignments := [0, 0, 1, 0] } ∧
    ∃ c1, exampleCluster2.assignToNearestClusterLloyd exampleSqrt = some c1 ∧
      c1.image_dataset = exampleCluster2.image_dataset ∧
      c1.cluster_centers = exampleCluster2.cluster_centers ∧
      c1.no_clusters = exampleCluster2.no_clusters ∧
      c1.assignments.length = exampleCluster2.image_dataset.length ∧
      ∀ (i : Nat) (img : Image), exampleCluster2.image_dataset[i]? = some img →
        ∃ j : Nat, c1.assignments[i]? = some (j : Int) ∧
          (j : Int) < exampleCluster2.no_clusters ∧
          (∀ j2 : Nat, (j2 : Int) < exampleCluster2.no_clusters →
            Cluster.centerDist exampleSqrt exampleCluster2 img.data j
              ≤ Cluster.centerDist exampleSqrt exampleCluster2 img.data j2) ∧
          (∀ j2 : Nat, j2 < j →
            Cluster.centerDist exampleSqrt exampleCluster2 img.data j
              < Cluster.centerDist exampleSqrt exampleCluster2 img.data j2) := by
  exact ⟨by decide, exampleCluster2_assigned,
    assign_lloyd_nearest exampleSqrt exampleCluster2 (by decide) (by decide) (by rfl)
      (fun img himg => ⟨0, by decide,
        euclideanDistance_lt_doubleMax img.data (pixels1D 0) (exampleCluster2_bytes img himg)
          (pixels1D_bytes 0 (by decide))⟩)⟩

end ANN
